import Mathlib

/-!
# OTAESGCM: AES-128-GCM for microcontrollers

A shallow embedding of `OTAESGCM_OTAESGCM.cpp` and the properties of its
GCM layer.

Conventions of the embedding.

* A byte (`uint8_t`) is a `Nat`; a buffer is a `List Nat`.  Arithmetic that
  can leave the byte range carries an explicit `% 256` (`% 65536` for
  `uint16_t`).
* A pointer into a buffer is the buffer together with an offset; a pointer
  that may be `NULL` is an `Option`.
* The block cipher `ap->blockEncrypt(in, key, out)` is a function
  `E : List Nat → List Nat → List Nat` from the input block and the key to
  the block written to `out`.
* The source takes its inputs through `const uint8_t *` and its outputs
  through `uint8_t *`; what a call does depends on whether these overlap.
  A definition that carries the name of a source function embeds the calls
  whose buffers and workspace do not overlap one another.  The calls with the
  output pointer equal to the input pointer are embedded apart, under the same
  name followed by `InPlace`.
* The workspace types `GGBWS::…` are declared outside the sources.  Every
  field the code uses is fully written before it is read, so the fields are
  local values of the embedding; the workspace object itself is carried by
  the public operations as an opaque byte region, whose only observable
  change is the final `memset`.
-/

namespace OTAESGCM

/-! ## Constants -/

/-- Modelled from the spec: the constant `AES128GCM_BLOCK_SIZE` is declared in
a header that is not part of the sources; the spec fixes a block at 16 bytes
(as does `GCM_BLOCK_SIZE` of the header at hand). -/
abbrev AES128GCM_BLOCK_SIZE : Nat := 16

/-- Modelled from the spec: the constant `AES128GCM_IV_SIZE` is declared in a
header that is not part of the sources; the spec fixes the IV at 12 bytes
(as does `GCM_IV_SIZE` of the header at hand). -/
abbrev AES128GCM_IV_SIZE : Nat := 12

/-- Modelled from the spec: the constant `AES128GCM_TAG_SIZE` is declared in a
header that is not part of the sources; the spec fixes the tag at 16 bytes
(as does `GCM_TAG_SIZE` of the header at hand). -/
abbrev AES128GCM_TAG_SIZE : Nat := 16

/-! ## Buffers -/

/-- The 16 bytes found at `p + off`. -/
def readBlock (p : List Nat) (off : Nat) : List Nat :=
  (p.drop off).take AES128GCM_BLOCK_SIZE

/-- The buffer `p` after `data` has been stored at `p + off`. -/
def writeAt (p : List Nat) (off : Nat) (data : List Nat) : List Nat :=
  p.take off ++ data ++ p.drop (off + data.length)

/-- The result of `memset(p, 0, n)` on a fresh region: `n` zero bytes. -/
def zeros (n : Nat) : List Nat := List.replicate n 0

/-! ## Private functions of the source -/

/-- The function `xorBlock(dest, src)`: `for (i = 0; i < 16; i++) *dest++ ^= *src++;`.
Returns the new content of `dest`. -/
def xorBlock (dest src : List Nat) : List Nat :=
  (List.range AES128GCM_BLOCK_SIZE).foldl
    (fun d i => d.set i (d.getD i 0 ^^^ src.getD i 0)) dest

/-- One turn of the loop of `shiftBlockRight`, with `block` pointing at byte
`pos`: `if (*block & 0x01) *(block + 1) |= 0x80; *block = *block >> 1;`. -/
def shiftBlockRightStep (b : List Nat) (pos : Nat) : List Nat :=
  let b1 := b.set (pos + 1)
    (if b.getD pos 0 &&& 0x01 ≠ 0 then b.getD (pos + 1) 0 ||| 0x80 else b.getD (pos + 1) 0)
  b1.set pos (b1.getD pos 0 >>> 1)

/-- The function `shiftBlockRight(block)`: shifts the 16-byte block right by one bit,
starting at the last byte and walking down to byte 0. -/
def shiftBlockRight (block : List Nat) : List Nat :=
  let b0 := block.set 15 (block.getD 15 0 >>> 1)
  (List.range (AES128GCM_BLOCK_SIZE - 1)).foldl
    (fun b i => shiftBlockRightStep b (14 - i)) b0

/-- The function `checkTag(tag1, tag2)`: ORs the XOR of every byte pair into `result`;
0 means the tags match. -/
def checkTag (tag1 tag2 : List Nat) : Nat :=
  (List.range AES128GCM_TAG_SIZE).foldl
    (fun result i => result ||| (tag1.getD i 0 ^^^ tag2.getD i 0)) 0

/-- The body of the inner loop of `gFieldMultiply` for byte `i`, bit `j` of
`x`; the state is `(ghashTmp, gFieldMultiplyTmp)`. -/
def gFieldMultiplyStep (x : List Nat) (i : Nat) (st : List Nat × List Nat) (j : Nat) :
    List Nat × List Nat :=
  let z := if x.getD i 0 &&& (1 <<< (7 - j)) ≠ 0 then xorBlock st.1 st.2 else st.1
  let v :=
    if st.2.getD 15 0 &&& 0x01 ≠ 0 then
      let s := shiftBlockRight st.2
      s.set 0 (s.getD 0 0 ^^^ 0xe1)
    else shiftBlockRight st.2
  (z, v)

/-- The function `gFieldMultiply(workspace, x, y)`: the pair
`(workspace->ghashTmp, workspace->gFieldMultiplyTmp)` on return; the product
is left in `ghashTmp`. -/
def gFieldMultiply (x y : List Nat) : List Nat × List Nat :=
  (List.range AES128GCM_BLOCK_SIZE).foldl
    (fun st i => (List.range 8).foldl (gFieldMultiplyStep x i) st)
    (zeros AES128GCM_BLOCK_SIZE, readBlock y 0)

/-- The loop of `incr32` with `k` turns left and `pBlock` pointing at byte
`pos`: increment the byte, return if it did not wrap, else move down. -/
def incr32Loop : Nat → Nat → List Nat → List Nat
  | 0, _, b => b
  | k + 1, pos, b =>
    let b1 := b.set pos ((b.getD pos 0 + 1) % 256)
    if b1.getD pos 0 ≠ 0 then b1 else incr32Loop k (pos - 1) b1

/-- The function `incr32(pBlock)`: increments the rightmost 4 bytes of the block as a
big-endian number. -/
def incr32 (pBlock : List Nat) : List Nat := incr32Loop 4 15 pBlock

/-- The state of the block loop of `GCTR` and `GCTRPadded` after block `i`:
`(workspace->ctrBlock, output buffer)`.  The input buffer does not overlap the
output buffer, so `xpos` still reads the input once `blockEncrypt` has stored
to `ypos`; for `pInput == pOutput` see `gctrBlockStepInPlace`. -/
def gctrBlockStep (E : List Nat → List Nat → List Nat) (pInput pKey : List Nat)
    (st : List Nat × List Nat) (i : Nat) : List Nat × List Nat :=
  -- ap->blockEncrypt(workspace->ctrBlock, pKey, ypos); xorBlock(ypos, xpos);
  let y := xorBlock (E st.1 pKey) (readBlock pInput (AES128GCM_BLOCK_SIZE * i))
  -- incr32(workspace->ctrBlock);
  (incr32 st.1, writeAt st.2 (AES128GCM_BLOCK_SIZE * i) y)

/-- The function `GCTR(ap, workspace, pInput, inputLength, pKey, pCtrBlock, pOutput)`
(unpadded variant): the content of the output buffer on return, for buffers
that do not overlap one another (for `pInput == pOutput` see
`GCTRInPlace`). -/
def GCTR (E : List Nat → List Nat → List Nat) (pInput : List Nat) (inputLength : Nat)
    (pKey pCtrBlock pOutput : List Nat) : List Nat :=
  if inputLength = 0 then pOutput else
  let n := inputLength / 16
  let st := (List.range n).foldl (gctrBlockStep E pInput pKey) (readBlock pCtrBlock 0, pOutput)
  let last := (inputLength - AES128GCM_BLOCK_SIZE * n) % 256
  if last ≠ 0 then
    let tmp := E st.1 pKey
    (List.range last).foldl
      (fun out i =>
        out.set (AES128GCM_BLOCK_SIZE * n + i)
          (pInput.getD (AES128GCM_BLOCK_SIZE * n + i) 0 ^^^ tmp.getD i 0))
      st.2
  else st.2

/-- The function `GCTRPadded(ap, workspace, pInput, inputLength, pKey, pCtrBlock, pOutput)`:
the content of the output buffer on return, for buffers that do not overlap
one another (for `pInput == pOutput` see `GCTRPaddedInPlace`).  Only whole
blocks are processed. -/
def GCTRPadded (E : List Nat → List Nat → List Nat) (pInput : List Nat) (inputLength : Nat)
    (pKey pCtrBlock pOutput : List Nat) : List Nat :=
  if inputLength = 0 then pOutput else
  let n := inputLength / 16
  ((List.range n).foldl (gctrBlockStep E pInput pKey) (readBlock pCtrBlock 0, pOutput)).2

/-- One fold step of `GHASH`: `xorBlock(pOutput, block); gFieldMultiply(workspace,
pOutput, pAuthKey); memcpy(pOutput, workspace->ghashTmp, 16);`. -/
def ghashStep (pAuthKey : List Nat) (pOutput block : List Nat) : List Nat :=
  (gFieldMultiply (xorBlock pOutput block) pAuthKey).1

/-- The function `GHASH(workspace, pInput, inputLength, pAuthKey, pOutput)`: the content of
the 16-byte accumulator `pOutput` on return. -/
def GHASH (pInput : List Nat) (inputLength : Nat) (pAuthKey pOutput : List Nat) : List Nat :=
  let m := inputLength / AES128GCM_BLOCK_SIZE
  let out := (List.range m).foldl
    (fun out i => ghashStep pAuthKey out (readBlock pInput (16 * i))) pOutput
  if inputLength > 16 * m then
    let last := (inputLength - 16 * m) % 256
    -- memcpy(ghashTmp, xpos, last); memset(ghashTmp + last, 0, 16 - last);
    let ghashTmp := (pInput.drop (16 * m)).take last ++ zeros (AES128GCM_BLOCK_SIZE - last)
    ghashStep pAuthKey out ghashTmp
  else out

/-- The function `generateICB(pIV, pOutput)`: the block `J0` written to `pOutput`. -/
def generateICB (pIV : List Nat) : List Nat :=
  (pIV.take AES128GCM_IV_SIZE ++ zeros (AES128GCM_BLOCK_SIZE - AES128GCM_IV_SIZE)).set
    (AES128GCM_BLOCK_SIZE - 1) 0x01

/-- The function `generateCDATA(ap, workspace, pICB, pPDATA, PDATALength, pCDATA, pKey)`:
the content of the buffer `pCDATA` on return. -/
def generateCDATA (E : List Nat → List Nat → List Nat) (pICB pPDATA : List Nat)
    (PDATALength : Nat) (pCDATA pKey : List Nat) : List Nat :=
  if PDATALength = 0 then pCDATA else
  let ctrBlock := incr32 (readBlock pICB 0)
  GCTR E pPDATA PDATALength pKey ctrBlock pCDATA

/-- The function `generateCDATAPadded(ap, cdataSpace, pICB, pPDATAPadded, PDATALength, pCDATA,
pKey)`: the content of the buffer `pCDATA` on return. -/
def generateCDATAPadded (E : List Nat → List Nat → List Nat) (pICB pPDATAPadded : List Nat)
    (PDATALength : Nat) (pCDATA pKey : List Nat) : List Nat :=
  if PDATALength = 0 then pCDATA else
  let ctrBlock := incr32 (readBlock pICB 0)
  GCTRPadded E pPDATAPadded PDATALength pKey ctrBlock pCDATA

/-- The length block `workspace->lengthBuffer` built by `generateTag`. -/
def lengthBuffer (ADATALength CDATALength : Nat) : List Nat :=
  let b0 := zeros AES128GCM_BLOCK_SIZE
  let temp := (ADATALength * 8) % 65536
  let b1 := b0.set 6 ((temp >>> 8) &&& 0xff)
  let b2 := b1.set 7 (temp &&& 0xff)
  let temp := (CDATALength * 8) % 65536
  let b3 := b2.set 14 ((temp >>> 8) &&& 0xff)
  b3.set 15 (temp &&& 0xff)

/-- The accumulator `workspace->S` of `generateTag` after its three calls of
`GHASH`. -/
def generateTagS (pAuthKey pADATA : List Nat) (ADATALength : Nat) (pCDATA : List Nat)
    (CDATALength : Nat) : List Nat :=
  let S := zeros AES128GCM_BLOCK_SIZE
  let S := GHASH pADATA ADATALength pAuthKey S
  let S := GHASH pCDATA CDATALength pAuthKey S
  GHASH (lengthBuffer ADATALength CDATALength) AES128GCM_BLOCK_SIZE pAuthKey S

/-- The function `generateTag(ap, workspace, pKey, pAuthKey, pADATA, ADATALength, pCDATA,
CDATALength, pTag, pICB)`: the content of the buffer `pTag` on return. -/
def generateTag (E : List Nat → List Nat → List Nat) (pKey pAuthKey pADATA : List Nat)
    (ADATALength : Nat) (pCDATA : List Nat) (CDATALength : Nat) (pTag pICB : List Nat) :
    List Nat :=
  GCTRPadded E (generateTagS pAuthKey pADATA ADATALength pCDATA CDATALength)
    AES128GCM_BLOCK_SIZE pKey pICB pTag

/-- The function `generateAuthKey(ap, pKey, pAuthKey)`: the subkey `H` written to
`pAuthKey`. -/
def generateAuthKey (E : List Nat → List Nat → List Nat) (pKey : List Nat) : List Nat :=
  E (zeros AES128GCM_BLOCK_SIZE) pKey

/-! ## Public functions of the source -/

/-- What a call of `gcmEncrypt` or `gcmEncryptPadded` leaves behind: the
returned flag, the ciphertext buffer (`none` for a `NULL` pointer), the tag
buffer and the workspace region. -/
structure EncryptResult where
  success : Bool
  CDATA : Option (List Nat)
  tag : List Nat
  workspace : List Nat
deriving DecidableEq, Repr

/-- What a call of `gcmDecrypt` leaves behind: the returned flag, the
plaintext buffer and the workspace region. -/
structure DecryptResult where
  success : Bool
  PDATA : List Nat
  workspace : List Nat
deriving DecidableEq, Repr

/-- The method `OTAES128GCMGenericBase::gcmEncrypt` (unpadded variant), for buffers
that do not overlap one another (for `CDATA == PDATA` see
`gcmEncryptInPlace`).  Its workspace is a local copy of the object returned by
`getGCMEncryptWorkspace()`, so the region of the caller is returned as it
was. -/
def gcmEncrypt (E : List Nat → List Nat → List Nat) (workspace key IV PDATA : List Nat)
    (PDATALength : Nat) (ADATA : List Nat) (ADATALength : Nat)
    (CDATA : Option (List Nat)) (tag : List Nat) : EncryptResult :=
  match CDATA with
  | none => ⟨false, none, tag, workspace⟩
  | some cdata =>
    if PDATALength = 0 ∧ ADATALength = 0 then ⟨false, some cdata, tag, workspace⟩ else
    if PDATALength ≥ (256 - AES128GCM_BLOCK_SIZE) % 256 then
      ⟨false, some cdata, tag, workspace⟩ else
    -- (PDATALength + 16 - 1) & ~(16 - 1), computed in `int` and cut to `uint8_t`
    let CDATALength :=
      ((PDATALength + AES128GCM_BLOCK_SIZE - 1) &&& (0xffff ^^^ (AES128GCM_BLOCK_SIZE - 1))) % 256
    let authKey := generateAuthKey E key
    let ICB := generateICB IV
    let cdata1 := generateCDATA E ICB PDATA PDATALength cdata key
    let tag1 := generateTag E key authKey ADATA ADATALength cdata1 CDATALength tag ICB
    ⟨true, some cdata1, tag1, workspace⟩

/-- The method `OTAES128GCMGenericBase::gcmEncryptPadded`, for buffers that do not
overlap one another (for `CDATA == PDATAPadded` see
`gcmEncryptPaddedInPlace`). -/
def gcmEncryptPadded (E : List Nat → List Nat → List Nat)
    (workspace key IV PDATAPadded : List Nat)
    (PDATALength : Nat) (ADATA : List Nat) (ADATALength : Nat)
    (CDATA : Option (List Nat)) (tag : List Nat) : EncryptResult :=
  match CDATA with
  | none => ⟨false, none, tag, workspace⟩
  | some cdata =>
    if PDATALength &&& (AES128GCM_BLOCK_SIZE - 1) ≠ 0 then
      ⟨false, some cdata, tag, workspace⟩ else
    if PDATALength = 0 ∧ ADATALength = 0 then ⟨false, some cdata, tag, workspace⟩ else
    let CDATALength := PDATALength
    let authKey := generateAuthKey E key
    let ICB := generateICB IV
    let cdata1 := generateCDATAPadded E ICB PDATAPadded PDATALength cdata key
    let tag1 := generateTag E key authKey ADATA ADATALength cdata1 CDATALength tag ICB
    -- memset(&workspace, 0, sizeof(workspace));
    ⟨true, some cdata1, tag1, zeros workspace.length⟩

/-- The method `OTAES128GCMGenericBase::gcmDecrypt`, for buffers that do not overlap one
another, so that `generateTag` reads the `CDATA` passed in (for
`PDATA == CDATA` see `gcmDecryptInPlace`).  The field `calculatedTag` of the
workspace is overwritten in full by `generateTag`; it enters as 16 zero
bytes. -/
def gcmDecrypt (E : List Nat → List Nat → List Nat) (workspace key IV CDATA : List Nat)
    (CDATALength : Nat) (ADATA : List Nat) (ADATALength : Nat)
    (messageTag PDATA : List Nat) : DecryptResult :=
  if CDATALength = 0 ∧ ADATALength = 0 then ⟨false, PDATA, workspace⟩ else
  if CDATALength &&& (AES128GCM_BLOCK_SIZE - 1) ≠ 0 then ⟨false, PDATA, workspace⟩ else
  let authKey := generateAuthKey E key
  let ICB := generateICB IV
  let pdata1 := generateCDATAPadded E ICB CDATA CDATALength PDATA key
  let calculatedTag :=
    generateTag E key authKey ADATA ADATALength CDATA CDATALength (zeros AES128GCM_TAG_SIZE) ICB
  let success := decide (0 = checkTag calculatedTag messageTag)
  -- memset(&workspace, 0, sizeof(workspace));
  ⟨success, pdata1, zeros workspace.length⟩

/-! ## The adaptor functions with a workspace passed in

Pointers that the adaptors test against `NULL` are `Option`s.  The checks
`isWorkspaceSufficientEncPadded` and `isWorkspaceSufficientDec` belong to a
class template that is not part of the sources; they enter as parameters, as
does the compile-time switch `OTAESGCM_ALLOW_UNPADDED`.  The diagnostics
written to `stderr` are left out.  Past the checks the object built on the
workspace hands the whole region passed in to the GCM operation. -/

/-- What a call of `fixed32BTextSize12BNonce16BTagSimpleEnc_DEFAULT_WITH_LWORKSPACE`
leaves behind. -/
structure SimpleEncResult where
  success : Bool
  ciphertextOut : Option (List Nat)
  tagOut : Option (List Nat)
  workspace : Option (List Nat)
deriving DecidableEq, Repr

/-- What a call of `fixed32BTextSize12BNonce16BTagSimpleDec_DEFAULT_WITH_LWORKSPACE`
leaves behind. -/
structure SimpleDecResult where
  success : Bool
  plaintextOut : Option (List Nat)
  workspace : Option (List Nat)
deriving DecidableEq, Repr

/-- The function `fixed32BTextSize12BNonce16BTagSimpleEnc_DEFAULT_WITH_LWORKSPACE`. -/
def fixed32BTextSize12BNonce16BTagSimpleEnc_DEFAULT_WITH_LWORKSPACE
    (E : List Nat → List Nat → List Nat)
    (isWorkspaceSufficientEncPadded : Option (List Nat) → Nat → Bool) (allowUnpadded : Bool)
    (workspace : Option (List Nat)) (workspaceSize : Nat)
    (key iv authtext : Option (List Nat)) (authtextSize : Nat)
    (plaintext ciphertextOut tagOut : Option (List Nat)) : SimpleEncResult :=
  match key, iv, ciphertextOut, tagOut with
  | some k, some v, some c, some t =>
    if !isWorkspaceSufficientEncPadded workspace workspaceSize then
      ⟨false, some c, some t, workspace⟩
    else
      let PDATALength := if plaintext.isNone then 0 else 32
      let ADATA := if authtextSize = 0 then [] else authtext.getD []
      let r :=
        if allowUnpadded then
          gcmEncrypt E (workspace.getD []) k v (plaintext.getD []) PDATALength ADATA
            authtextSize (some c) t
        else
          gcmEncryptPadded E (workspace.getD []) k v (plaintext.getD []) PDATALength ADATA
            authtextSize (some c) t
      ⟨r.success, r.CDATA, some r.tag, workspace.map (fun _ => r.workspace)⟩
  | _, _, _, _ => ⟨false, ciphertextOut, tagOut, workspace⟩

/-- The function `fixed32BTextSize12BNonce16BTagSimpleDec_DEFAULT_WITH_LWORKSPACE`. -/
def fixed32BTextSize12BNonce16BTagSimpleDec_DEFAULT_WITH_LWORKSPACE
    (E : List Nat → List Nat → List Nat)
    (isWorkspaceSufficientDec : Option (List Nat) → Nat → Bool)
    (workspace : Option (List Nat)) (workspaceSize : Nat)
    (key iv authtext : Option (List Nat)) (authtextSize : Nat)
    (ciphertext tag plaintextOut : Option (List Nat)) : SimpleDecResult :=
  match key, iv, tag, plaintextOut with
  | some k, some v, some t, some p =>
    if !isWorkspaceSufficientDec workspace workspaceSize then
      ⟨false, some p, workspace⟩
    else
      let CDATALength := if ciphertext.isNone then 0 else 32
      let ADATA := if authtextSize = 0 then [] else authtext.getD []
      let r := gcmDecrypt E (workspace.getD []) k v (ciphertext.getD []) CDATALength ADATA
        authtextSize t p
      ⟨r.success, some r.PDATA, workspace.map (fun _ => r.workspace)⟩
  | _, _, _, _ => ⟨false, plaintextOut, workspace⟩

/-! ## Calls in place

Nothing in the source keeps a caller from passing one buffer as the input and
as the output of the data path (`CDATA == PDATA` for the encrypts,
`PDATA == CDATA` for `gcmDecrypt`).  Every read through the input pointer then
sees what has been stored through the output pointer so far.  The definitions
of this section embed these calls; the buffer is non-null. -/

/-- The function `xorBlock(dest, src)` called with `src == dest`: each turn of
`*dest++ ^= *src++` reads the byte it is about to replace. -/
def xorBlockInPlace (dest : List Nat) : List Nat :=
  (List.range AES128GCM_BLOCK_SIZE).foldl
    (fun d i => d.set i (d.getD i 0 ^^^ d.getD i 0)) dest

/-- The state of the block loop of `GCTR` and `GCTRPadded` after block `i`, for
`pInput == pOutput`: `(workspace->ctrBlock, buffer)`. -/
def gctrBlockStepInPlace (E : List Nat → List Nat → List Nat) (pKey : List Nat)
    (st : List Nat × List Nat) (i : Nat) : List Nat × List Nat :=
  -- ap->blockEncrypt(workspace->ctrBlock, pKey, ypos); stores over the input block
  let buf := writeAt st.2 (AES128GCM_BLOCK_SIZE * i) (E st.1 pKey)
  -- xorBlock(ypos, xpos); with xpos == ypos
  let y := xorBlockInPlace (readBlock buf (AES128GCM_BLOCK_SIZE * i))
  -- incr32(workspace->ctrBlock);
  (incr32 st.1, writeAt buf (AES128GCM_BLOCK_SIZE * i) y)

/-- The function `GCTR` called with `pInput == pOutput`: the content of the buffer on
return. -/
def GCTRInPlace (E : List Nat → List Nat → List Nat) (pKey pCtrBlock buffer : List Nat)
    (inputLength : Nat) : List Nat :=
  if inputLength = 0 then buffer else
  let n := inputLength / 16
  let st := (List.range n).foldl (gctrBlockStepInPlace E pKey) (readBlock pCtrBlock 0, buffer)
  let last := (inputLength - AES128GCM_BLOCK_SIZE * n) % 256
  if last ≠ 0 then
    let tmp := E st.1 pKey
    -- *ypos++ = *xpos++ ^ workspace->tmp[i]; the byte is read before it is replaced
    (List.range last).foldl
      (fun out i =>
        out.set (AES128GCM_BLOCK_SIZE * n + i)
          (out.getD (AES128GCM_BLOCK_SIZE * n + i) 0 ^^^ tmp.getD i 0))
      st.2
  else st.2

/-- The function `GCTRPadded` called with `pInput == pOutput`: the content of the buffer
on return. -/
def GCTRPaddedInPlace (E : List Nat → List Nat → List Nat) (pKey pCtrBlock buffer : List Nat)
    (inputLength : Nat) : List Nat :=
  if inputLength = 0 then buffer else
  let n := inputLength / 16
  ((List.range n).foldl (gctrBlockStepInPlace E pKey) (readBlock pCtrBlock 0, buffer)).2

/-- The function `generateCDATA` called with `pCDATA == pPDATA`. -/
def generateCDATAInPlace (E : List Nat → List Nat → List Nat) (pICB buffer : List Nat)
    (PDATALength : Nat) (pKey : List Nat) : List Nat :=
  if PDATALength = 0 then buffer else
  let ctrBlock := incr32 (readBlock pICB 0)
  GCTRInPlace E pKey ctrBlock buffer PDATALength

/-- The function `generateCDATAPadded` called with `pCDATA == pPDATAPadded`. -/
def generateCDATAPaddedInPlace (E : List Nat → List Nat → List Nat) (pICB buffer : List Nat)
    (PDATALength : Nat) (pKey : List Nat) : List Nat :=
  if PDATALength = 0 then buffer else
  let ctrBlock := incr32 (readBlock pICB 0)
  GCTRPaddedInPlace E pKey ctrBlock buffer PDATALength

/-- The method `OTAES128GCMGenericBase::gcmEncrypt` called with `CDATA == PDATA`, the same
non-null buffer of `roundUp16(PDATALength)` bytes. -/
def gcmEncryptInPlace (E : List Nat → List Nat → List Nat) (workspace key IV buffer : List Nat)
    (PDATALength : Nat) (ADATA : List Nat) (ADATALength : Nat) (tag : List Nat) :
    EncryptResult :=
  if PDATALength = 0 ∧ ADATALength = 0 then ⟨false, some buffer, tag, workspace⟩ else
  if PDATALength ≥ (256 - AES128GCM_BLOCK_SIZE) % 256 then
    ⟨false, some buffer, tag, workspace⟩ else
  let CDATALength :=
    ((PDATALength + AES128GCM_BLOCK_SIZE - 1) &&& (0xffff ^^^ (AES128GCM_BLOCK_SIZE - 1))) % 256
  let authKey := generateAuthKey E key
  let ICB := generateICB IV
  let cdata1 := generateCDATAInPlace E ICB buffer PDATALength key
  let tag1 := generateTag E key authKey ADATA ADATALength cdata1 CDATALength tag ICB
  ⟨true, some cdata1, tag1, workspace⟩

/-- The method `OTAES128GCMGenericBase::gcmEncryptPadded` called with
`CDATA == PDATAPadded`, the same non-null buffer. -/
def gcmEncryptPaddedInPlace (E : List Nat → List Nat → List Nat)
    (workspace key IV buffer : List Nat)
    (PDATALength : Nat) (ADATA : List Nat) (ADATALength : Nat) (tag : List Nat) :
    EncryptResult :=
  if PDATALength &&& (AES128GCM_BLOCK_SIZE - 1) ≠ 0 then
    ⟨false, some buffer, tag, workspace⟩ else
  if PDATALength = 0 ∧ ADATALength = 0 then ⟨false, some buffer, tag, workspace⟩ else
  let CDATALength := PDATALength
  let authKey := generateAuthKey E key
  let ICB := generateICB IV
  let cdata1 := generateCDATAPaddedInPlace E ICB buffer PDATALength key
  let tag1 := generateTag E key authKey ADATA ADATALength cdata1 CDATALength tag ICB
  -- memset(&workspace, 0, sizeof(workspace));
  ⟨true, some cdata1, tag1, zeros workspace.length⟩

/-- The method `OTAES128GCMGenericBase::gcmDecrypt` called with `PDATA == CDATA`.  The
buffer is decrypted first; `generateTag` then reads `CDATA`, that is, the
buffer as `generateCDATAPadded` has left it. -/
def gcmDecryptInPlace (E : List Nat → List Nat → List Nat) (workspace key IV buffer : List Nat)
    (CDATALength : Nat) (ADATA : List Nat) (ADATALength : Nat) (messageTag : List Nat) :
    DecryptResult :=
  if CDATALength = 0 ∧ ADATALength = 0 then ⟨false, buffer, workspace⟩ else
  if CDATALength &&& (AES128GCM_BLOCK_SIZE - 1) ≠ 0 then ⟨false, buffer, workspace⟩ else
  let authKey := generateAuthKey E key
  let ICB := generateICB IV
  let pdata1 := generateCDATAPaddedInPlace E ICB buffer CDATALength key
  let calculatedTag :=
    generateTag E key authKey ADATA ADATALength pdata1 CDATALength (zeros AES128GCM_TAG_SIZE) ICB
  let success := decide (0 = checkTag calculatedTag messageTag)
  -- memset(&workspace, 0, sizeof(workspace));
  ⟨success, pdata1, zeros workspace.length⟩

/-! ## The counter blocks of `GCTR` -/

/-- What a call of `GCTR` leaves behind in the memory it can reach. -/
structure GCTRResult where
  /-- The counter block of the caller, passed as `const uint8_t *pCtrBlock`. -/
  pCtrBlock : List Nat
  /-- The working copy `workspace->ctrBlock`. -/
  ctrBlock : List Nat
  /-- The output buffer. -/
  pOutput : List Nat
deriving DecidableEq, Repr

/-- The function `GCTR` with both counter blocks in view, for buffers and a workspace
that do not overlap one another: the loop encrypts and increments
the copy `workspace->ctrBlock`, which enters as `ctrBlock`; nothing is stored
through `pCtrBlock`. -/
def GCTRRun (E : List Nat → List Nat → List Nat) (pInput : List Nat) (inputLength : Nat)
    (pKey pCtrBlock ctrBlock pOutput : List Nat) : GCTRResult :=
  if inputLength = 0 then ⟨pCtrBlock, ctrBlock, pOutput⟩ else
  let n := inputLength / 16
  -- memcpy(workspace->ctrBlock, pCtrBlock, AES128GCM_BLOCK_SIZE);
  let st := (List.range n).foldl (gctrBlockStep E pInput pKey) (readBlock pCtrBlock 0, pOutput)
  let last := (inputLength - AES128GCM_BLOCK_SIZE * n) % 256
  if last ≠ 0 then
    let tmp := E st.1 pKey
    ⟨pCtrBlock, st.1,
      (List.range last).foldl
        (fun out i =>
          out.set (AES128GCM_BLOCK_SIZE * n + i)
            (pInput.getD (AES128GCM_BLOCK_SIZE * n + i) 0 ^^^ tmp.getD i 0))
        st.2⟩
  else ⟨pCtrBlock, st.1, st.2⟩

/-! ## Well-formed inputs -/

/-- Every entry of the buffer is a byte. -/
def IsBytes (l : List Nat) : Prop := ∀ x ∈ l, x < 256

instance (l : List Nat) : Decidable (IsBytes l) := by
  unfold IsBytes; infer_instance

/-- The buffer is one block: 16 bytes. -/
def IsBlock (b : List Nat) : Prop := b.length = 16 ∧ IsBytes b

instance (b : List Nat) : Decidable (IsBlock b) := by
  unfold IsBlock; infer_instance

/-- The function `E` is a block cipher: whatever block and key it is given, it
writes one block. -/
def IsBlockCipher (E : List Nat → List Nat → List Nat) : Prop :=
  ∀ b k, IsBlock (E b k)

/-! ## Reference GCM

The composition as the specification words it, kept apart from the embedding
of the code: whole byte strings, cut into 16-byte blocks. -/

/-- Bytewise XOR of two byte strings. -/
def refXor (a b : List Nat) : List Nat := List.zipWith (· ^^^ ·) a b

/-- The first `n` 16-byte blocks of a byte string. -/
def chunks : Nat → List Nat → List (List Nat)
  | 0, _ => []
  | n + 1, l => l.take 16 :: chunks n (l.drop 16)

/-- A byte string followed by the fewest zero bytes that bring its length to a
multiple of 16. -/
def refPad (data : List Nat) : List Nat :=
  data ++ List.replicate ((16 - data.length % 16) % 16) 0

/-- The 16-byte blocks of a byte string whose length is a multiple of 16. -/
def refBlocks (data : List Nat) : List (List Nat) := chunks (data.length / 16) data

/-- The GHASH fold `Y ← (Y XOR B) · H` over a list of blocks, started from `Y`;
the product is the one of `gFieldMultiply`. -/
def refFold (H Y : List Nat) (blocks : List (List Nat)) : List Nat :=
  blocks.foldl (fun Y B => (gFieldMultiply (refXor Y B) H).1) Y

/-- The length block: bytes 6–7 hold the bit length of the AAD modulo `2^16`,
bytes 14–15 the bit length of the ciphertext modulo `2^16`, big-endian; all
other bytes are zero. -/
def refLengthBlock (aadLen cLen : Nat) : List Nat :=
  [0, 0, 0, 0, 0, 0, (8 * aadLen % 65536) / 256, (8 * aadLen % 65536) % 256,
   0, 0, 0, 0, 0, 0, (8 * cLen % 65536) / 256, (8 * cLen % 65536) % 256]

/-- The block `J0 = IV ‖ 00 00 00 01`. -/
def refJ0 (IV : List Nat) : List Nat := IV ++ [0, 0, 0, 1]

/-- The subkey `H = E_k(0^128)`. -/
def refH (E : List Nat → List Nat → List Nat) (key : List Nat) : List Nat :=
  E (List.replicate 16 0) key

/-- Counter mode over the whole blocks of `data`, block `i` being masked with
`E_k(incr32^i(ctr))`. -/
def refCTR (E : List Nat → List Nat → List Nat) (key ctr data : List Nat) : List Nat :=
  (List.range (data.length / 16)).flatMap
    (fun i => refXor ((data.drop (16 * i)).take 16) (E (incr32^[i] ctr) key))

/-- The ciphertext of block-aligned plaintext: block `i` is
`P_i XOR E_k(incr32^(i+1)(J0))`. -/
def refCipher (E : List Nat → List Nat → List Nat) (key J0 P : List Nat) : List Nat :=
  (List.range (P.length / 16)).flatMap
    (fun i => refXor ((P.drop (16 * i)).take 16) (E (incr32^[i + 1] J0) key))

/-- The hash `S`: the GHASH fold under `H`, started from the zero block, over
the zero-padded AAD, then the zero-padded ciphertext, then the length block. -/
def refS (H AAD C : List Nat) : List Nat :=
  refFold H (List.replicate 16 0)
    (refBlocks (refPad AAD ++ refPad C ++ refLengthBlock AAD.length C.length))

/-- The tag `E_k(J0) XOR S`. -/
def refTag (E : List Nat → List Nat → List Nat) (key IV AAD C : List Nat) : List Nat :=
  refXor (E (refJ0 IV) key) (refS (refH E key) AAD C)

/-- Reference GCM encryption of block-aligned plaintext: ciphertext and tag. -/
def refEncrypt (E : List Nat → List Nat → List Nat) (key IV AAD P : List Nat) :
    List Nat × List Nat :=
  let C := refCipher E key (refJ0 IV) P
  (C, refTag E key IV AAD C)

/-- The key stream of counter mode: `E_k(ctr) ‖ E_k(incr32(ctr)) ‖ …`, `n` blocks. -/
def keystream (E : List Nat → List Nat → List Nat) (key ctr : List Nat) (n : Nat) : List Nat :=
  (List.range n).flatMap (fun i => E (incr32^[i] ctr) key)

/-- The byte string `l` with bit `r` of byte `q` flipped. -/
def flipBit (l : List Nat) (q r : Nat) : List Nat :=
  l.set q (l.getD q 0 ^^^ 2 ^ r)

/-- A toy block cipher for concrete runs: byte `i` of the output is
`in[i] + key[i] + 1` modulo 256. -/
def toyCipher (b k : List Nat) : List Nat :=
  (List.range 16).map (fun i => (b.getD i 0 + k.getD i 0 + 1) % 256)

/-! ## Blocks as polynomials over GF(2)

A proof device: the reading of a block that makes `gFieldMultiply` a product
of polynomials modulo `x^128 + x^7 + x^2 + x + 1`. -/

/-- Coefficient `k` of a block: bit `7 - k % 8` of byte `k / 8`, so that the
most significant bit of byte 0 is the constant term. -/
def bitAt (b : List Nat) (k : Nat) : Bool := (b.getD (k / 8) 0).testBit (7 - k % 8)

/-- The polynomial `x^128 + x^7 + x^2 + x + 1` of GCM. -/
noncomputable def gcmPoly : Polynomial (ZMod 2) :=
  Polynomial.X ^ 128 + Polynomial.X ^ 7 + Polynomial.X ^ 2 + Polynomial.X + 1

/-- The polynomial a block stands for. -/
noncomputable def toPoly (b : List Nat) : Polynomial (ZMod 2) :=
  ∑ k ∈ Finset.range 128, if bitAt b k then Polynomial.X ^ k else 0

/-- The element of `GF(2)[x] / (gcmPoly)` a block stands for. -/
noncomputable def gf (b : List Nat) : AdjoinRoot gcmPoly := AdjoinRoot.mk gcmPoly (toPoly b)

/-- The block `R = 11100001 ‖ 0^120` XORed in by the reduction step. -/
def rBlock : List Nat := 0xe1 :: List.replicate 15 0

/-- A byte string read as a big-endian number. -/
def beNat (l : List Nat) : Nat := l.foldl (fun acc x => acc * 256 + x) 0

/-- The big-endian 64-bit string `[n]_64` of a number: 8 bytes, the most
significant first. -/
def be64 (n : Nat) : List Nat := (List.range 8).map (fun i => n / 256 ^ (7 - i) % 256)

/-! ## Blocks as sixteen bytes -/

theorem length16_cases {l : List Nat} (h : l.length = 16) :
    ∃ a0 a1 a2 a3 a4 a5 a6 a7 a8 a9 a10 a11 a12 a13 a14 a15 : Nat,
      l = [a0, a1, a2, a3, a4, a5, a6, a7, a8, a9, a10, a11, a12, a13, a14, a15] := by
  match l, h with
  | [a0, a1, a2, a3, a4, a5, a6, a7, a8, a9, a10, a11, a12, a13, a14, a15], _ =>
    exact ⟨a0, a1, a2, a3, a4, a5, a6, a7, a8, a9, a10, a11, a12, a13, a14, a15, rfl⟩

theorem range16 : List.range 16 = [0, 1, 2, 3, 4, 5, 6, 7, 8, 9, 10, 11, 12, 13, 14, 15] := by
  decide

theorem range15 : List.range 15 = [0, 1, 2, 3, 4, 5, 6, 7, 8, 9, 10, 11, 12, 13, 14] := by
  decide

theorem xorBlock_eq_zipWith {d s : List Nat} (hd : d.length = 16) (hs : s.length = 16) :
    xorBlock d s = List.zipWith (· ^^^ ·) d s := by
  obtain ⟨a0, a1, a2, a3, a4, a5, a6, a7, a8, a9, a10, a11, a12, a13, a14, a15, rfl⟩ :=
    length16_cases hd
  obtain ⟨b0, b1, b2, b3, b4, b5, b6, b7, b8, b9, b10, b11, b12, b13, b14, b15, rfl⟩ :=
    length16_cases hs
  simp only [xorBlock, AES128GCM_BLOCK_SIZE, range16, List.foldl_cons, List.foldl_nil,
    List.set_cons_zero, List.set_cons_succ, List.getD_cons_zero, List.getD_cons_succ,
    List.zipWith]

theorem foldl_set_length {β : Type} (f : List Nat → β → Nat) (g : List Nat → β → Nat)
    (l : List β) (d : List Nat) :
    (l.foldl (fun d i => d.set (f d i) (g d i)) d).length = d.length := by
  induction l generalizing d with
  | nil => rfl
  | cons a t ih => simp [List.foldl_cons, ih]

theorem xorBlock_length (d s : List Nat) : (xorBlock d s).length = d.length := by
  unfold xorBlock
  exact foldl_set_length (fun _ i => i) (fun d i => d.getD i 0 ^^^ s.getD i 0) _ d

theorem xorBlock_eq_refXor {d s : List Nat} (hd : d.length = 16) (hs : s.length = 16) :
    xorBlock d s = refXor d s := xorBlock_eq_zipWith hd hs

theorem refXor_length {a b : List Nat} (h : a.length = b.length) :
    (refXor a b).length = a.length := by
  simp [refXor, h]

theorem refXor_comm (a b : List Nat) : refXor a b = refXor b a := by
  unfold refXor
  rw [List.zipWith_comm]
  congr 1
  funext x y
  exact Nat.xor_comm y x

theorem refXor_cancel_left : ∀ (e p : List Nat), e.length = p.length →
    refXor e (refXor e p) = p
  | [], [], _ => rfl
  | [], _ :: _, h => by simp at h
  | _ :: _, [], h => by simp at h
  | x :: e, y :: p, h => by
    have ih := refXor_cancel_left e p (by simpa using h)
    simp only [refXor] at ih ⊢
    simp only [List.zipWith_cons_cons, ih]
    rw [← Nat.xor_assoc, Nat.xor_self, Nat.zero_xor]

theorem refXor_left_injective {e a b : List Nat} (ha : e.length = a.length)
    (hb : e.length = b.length) (h : refXor e a = refXor e b) : a = b := by
  rw [← refXor_cancel_left e a ha, h, refXor_cancel_left e b hb]

theorem readBlock_zero_of_length {b : List Nat} (h : b.length = 16) : readBlock b 0 = b := by
  simp [readBlock, List.take_of_length_le (Nat.le_of_eq h)]

/-! ## The tag comparator -/

theorem or_eq_zero_iff (a b : Nat) : a ||| b = 0 ↔ a = 0 ∧ b = 0 := by
  constructor
  · intro h
    constructor
    · apply Nat.eq_of_testBit_eq
      intro i
      have := congrArg (fun n => n.testBit i) h
      simp only [Nat.testBit_or, Nat.zero_testBit, Bool.or_eq_false_iff] at this
      simp [this.1]
    · apply Nat.eq_of_testBit_eq
      intro i
      have := congrArg (fun n => n.testBit i) h
      simp only [Nat.testBit_or, Nat.zero_testBit, Bool.or_eq_false_iff] at this
      simp [this.2]
  · rintro ⟨rfl, rfl⟩
    rfl

theorem checkTag_eq_zero_iff {t1 t2 : List Nat} (h1 : t1.length = 16) (h2 : t2.length = 16) :
    checkTag t1 t2 = 0 ↔ t1 = t2 := by
  obtain ⟨a0, a1, a2, a3, a4, a5, a6, a7, a8, a9, a10, a11, a12, a13, a14, a15, rfl⟩ :=
    length16_cases h1
  obtain ⟨b0, b1, b2, b3, b4, b5, b6, b7, b8, b9, b10, b11, b12, b13, b14, b15, rfl⟩ :=
    length16_cases h2
  simp only [checkTag, AES128GCM_TAG_SIZE, range16, List.foldl_cons, List.foldl_nil,
    List.getD_cons_zero, List.getD_cons_succ, or_eq_zero_iff, Nat.xor_eq_zero,
    List.cons.injEq, and_true, true_and, and_assoc]

/-! ## Lists cut into blocks -/

theorem flatMap_range_length (f : Nat → List Nat) (hf : ∀ i, (f i).length = 16) (n : Nat) :
    ((List.range n).flatMap f).length = 16 * n := by
  induction n with
  | zero => rfl
  | succ n ih =>
    rw [List.range_succ, List.flatMap_append, List.length_append, ih]
    simp [hf n]
    omega

theorem flatMap_range_block (f : Nat → List Nat) (hf : ∀ i, (f i).length = 16) :
    ∀ (n i : Nat), i < n → (((List.range n).flatMap f).drop (16 * i)).take 16 = f i := by
  intro n
  induction n with
  | zero => intro i hi; omega
  | succ n ih =>
    intro i hi
    have hlen := flatMap_range_length f hf n
    rw [List.range_succ, List.flatMap_append]
    simp only [List.flatMap_cons, List.flatMap_nil, List.append_nil]
    rcases Nat.lt_succ_iff_lt_or_eq.mp hi with h | h
    · rw [List.drop_append_of_le_length (by rw [hlen]; omega)]
      rw [List.take_append_of_le_length (by rw [List.length_drop, hlen]; omega)]
      exact ih i h
    · subst h
      rw [List.drop_left' hlen]
      exact List.take_of_length_le (Nat.le_of_eq (hf i))

theorem flatMap_range_take_drop (P : List Nat) (n : Nat) :
    (List.range n).flatMap (fun i => (P.drop (16 * i)).take 16) = P.take (16 * n) := by
  induction n with
  | zero => simp
  | succ n ih =>
    rw [List.range_succ, List.flatMap_append, ih]
    simp only [List.flatMap_cons, List.flatMap_nil, List.append_nil]
    rw [Nat.mul_succ, List.take_add]

theorem flatMap_range_congr (f g : Nat → List Nat) (n : Nat) (h : ∀ i, i < n → f i = g i) :
    (List.range n).flatMap f = (List.range n).flatMap g := by
  induction n with
  | zero => rfl
  | succ n ih =>
    rw [List.range_succ, List.flatMap_append, List.flatMap_append,
      ih (fun i hi => h i (Nat.lt_succ_of_lt hi))]
    simp [h n (Nat.lt_succ_self n)]

theorem readBlock_length_of_le {p : List Nat} {off : Nat} (h : off + 16 ≤ p.length) :
    (readBlock p off).length = 16 := by
  simp only [readBlock, AES128GCM_BLOCK_SIZE, List.length_take, List.length_drop]
  omega

/-! ## The counter -/

theorem incr32Loop_length : ∀ (k pos : Nat) (b : List Nat),
    (incr32Loop k pos b).length = b.length
  | 0, _, _ => rfl
  | k + 1, pos, b => by
    simp only [incr32Loop]
    split
    · simp
    · rw [incr32Loop_length k]
      simp

theorem incr32_length (b : List Nat) : (incr32 b).length = b.length :=
  incr32Loop_length 4 15 b

theorem iterate_incr32_length (n : Nat) (b : List Nat) : (incr32^[n] b).length = b.length := by
  induction n with
  | zero => rfl
  | succ n ih => rw [Function.iterate_succ_apply', incr32_length, ih]

/-! ## Counter mode -/

theorem gctr_fold {E : List Nat → List Nat → List Nat} (hE : ∀ b k, (E b k).length = 16)
    (pInput pKey ctr out : List Nat) (n : Nat) :
    (List.range n).foldl (gctrBlockStep E pInput pKey) (ctr, out) =
      (incr32^[n] ctr,
        (List.range n).flatMap
            (fun i => xorBlock (E (incr32^[i] ctr) pKey) (readBlock pInput (16 * i))) ++
          out.drop (16 * n)) := by
  induction n with
  | zero => simp
  | succ n ih =>
    rw [List.range_succ, List.foldl_append, ih, List.flatMap_append]
    have hlen := flatMap_range_length
      (fun i => xorBlock (E (incr32^[i] ctr) pKey) (readBlock pInput (16 * i)))
      (fun i => by rw [xorBlock_length]; exact hE _ _) n
    rw [List.foldl_cons, List.foldl_nil, List.flatMap_cons, List.flatMap_nil, List.append_nil,
      Function.iterate_succ_apply']
    show (incr32 (incr32^[n] ctr), writeAt _ (16 * n) _) = _
    congr 1
    unfold writeAt
    rw [List.take_left' hlen, xorBlock_length, hE, ← List.drop_drop, List.drop_left' hlen,
      List.drop_drop, Nat.mul_succ]

theorem GCTRPadded_eq {E : List Nat → List Nat → List Nat} (hE : ∀ b k, (E b k).length = 16)
    (pInput pKey ctr out : List Nat) (n : Nat) (hctr : ctr.length = 16)
    (hin : pInput.length = 16 * n) (hout : out.length = 16 * n) :
    GCTRPadded E pInput (16 * n) pKey ctr out = refCTR E pKey ctr pInput := by
  unfold GCTRPadded refCTR
  by_cases hn : n = 0
  · subst hn
    simp at hout
    simp [hin, hout]
  · have h1 : 16 * n / 16 = n := by omega
    rw [if_neg (by omega), readBlock_zero_of_length hctr]
    simp only [h1, hin]
    rw [gctr_fold hE]
    rw [List.drop_eq_nil_of_le (by omega), List.append_nil]
    apply flatMap_range_congr
    intro i hi
    have hb : (readBlock pInput (16 * i)).length = 16 := readBlock_length_of_le (by omega)
    rw [xorBlock_eq_refXor (hE _ _) hb, refXor_comm]
    rfl

theorem refCTR_length {E : List Nat → List Nat → List Nat} (hE : ∀ b k, (E b k).length = 16)
    (key ctr data : List Nat) (n : Nat) (hd : data.length = 16 * n) :
    (refCTR E key ctr data).length = 16 * n := by
  unfold refCTR
  have h1 : data.length / 16 = n := by omega
  rw [h1]
  have hf : ∀ i, i < n →
      (fun i => refXor ((data.drop (16 * i)).take 16) (E (incr32^[i] ctr) key)) i =
      (fun i => if i < n then refXor ((data.drop (16 * i)).take 16) (E (incr32^[i] ctr) key)
        else List.replicate 16 0) i := by
    intro i hi
    simp [hi]
  rw [flatMap_range_congr _ _ n hf]
  apply flatMap_range_length
  intro i
  split
  · rw [refXor_length] <;> simp [hE] <;> omega
  · simp

theorem refCTR_block {E : List Nat → List Nat → List Nat} (hE : ∀ b k, (E b k).length = 16)
    (key ctr data : List Nat) (n i : Nat) (hd : data.length = 16 * n) (hi : i < n) :
    ((refCTR E key ctr data).drop (16 * i)).take 16 =
      refXor ((data.drop (16 * i)).take 16) (E (incr32^[i] ctr) key) := by
  unfold refCTR
  have h1 : data.length / 16 = n := by omega
  rw [h1]
  have hf : ∀ i, i < n →
      (fun i => refXor ((data.drop (16 * i)).take 16) (E (incr32^[i] ctr) key)) i =
      (fun i => if i < n then refXor ((data.drop (16 * i)).take 16) (E (incr32^[i] ctr) key)
        else List.replicate 16 0) i := by
    intro i hi
    simp [hi]
  rw [flatMap_range_congr _ _ n hf, flatMap_range_block _ _ n i hi]
  · simp [hi]
  · intro j
    split
    · rw [refXor_length] <;> simp [hE] <;> omega
    · simp

/-- Counter mode is an involution on block-aligned data. -/
theorem refCTR_involutive {E : List Nat → List Nat → List Nat}
    (hE : ∀ b k, (E b k).length = 16) (key ctr data : List Nat) (n : Nat)
    (hd : data.length = 16 * n) :
    refCTR E key ctr (refCTR E key ctr data) = data := by
  have hlen := refCTR_length hE key ctr data n hd
  have h1 : (refCTR E key ctr data).length / 16 = n := by omega
  have hun : ∀ X : List Nat, refCTR E key ctr X = (List.range (X.length / 16)).flatMap
      (fun i => refXor ((X.drop (16 * i)).take 16) (E (incr32^[i] ctr) key)) := fun _ => rfl
  rw [hun (refCTR E key ctr data), h1]
  have : (List.range n).flatMap
      (fun i => refXor (((refCTR E key ctr data).drop (16 * i)).take 16)
        (E (incr32^[i] ctr) key)) =
      (List.range n).flatMap (fun i => (data.drop (16 * i)).take 16) := by
    apply flatMap_range_congr
    intro i hi
    rw [refCTR_block hE key ctr data n i hd hi,
      refXor_comm ((data.drop (16 * i)).take 16), refXor_comm, refXor_cancel_left]
    simp [hE]
    omega
  rw [this, flatMap_range_take_drop]
  exact List.take_of_length_le (Nat.le_of_eq hd)

/-! ## GHASH as a fold over blocks -/

theorem map_readBlock_range (m : Nat) : ∀ (inp : List Nat),
    (List.range m).map (fun i => readBlock inp (16 * i)) = chunks m inp := by
  induction m with
  | zero => intro inp; rfl
  | succ m ih =>
    intro inp
    rw [List.range_succ_eq_map, List.map_cons, List.map_map, chunks, ← ih (inp.drop 16)]
    congr 1
    apply List.map_congr_left
    intro i _
    simp only [Function.comp, readBlock, List.drop_drop]
    congr 2
    omega

theorem chunks_append (k j : Nat) : ∀ (a b : List Nat), a.length = 16 * k →
    chunks (k + j) (a ++ b) = chunks k a ++ chunks j b := by
  induction k with
  | zero =>
    intro a b ha
    have : a = [] := List.length_eq_zero.mp (by simpa using ha)
    subst this
    simp [chunks]
  | succ k ih =>
    intro a b ha
    have h16 : 16 ≤ a.length := by omega
    rw [show k + 1 + j = (k + j) + 1 by omega, chunks, chunks,
      List.take_append_of_le_length h16, List.drop_append_of_le_length h16,
      ih (a.drop 16) b (by rw [List.length_drop]; omega)]
    rfl

theorem chunks_length (n : Nat) : ∀ (l : List Nat), (chunks n l).length = n := by
  induction n with
  | zero => intro l; rfl
  | succ n ih => intro l; simp [chunks, ih]

theorem chunks_block_length (n : Nat) : ∀ (l : List Nat), 16 * n ≤ l.length →
    ∀ B ∈ chunks n l, B.length = 16 := by
  induction n with
  | zero => intro l _ B hB; simp [chunks] at hB
  | succ n ih =>
    intro l hl B hB
    simp only [chunks, List.mem_cons] at hB
    rcases hB with rfl | hB
    · simp only [List.length_take]
      omega
    · exact ih (l.drop 16) (by rw [List.length_drop]; omega) B hB

theorem refPad_length (data : List Nat) :
    (refPad data).length = 16 * ((data.length + 15) / 16) := by
  simp only [refPad, List.length_append, List.length_replicate]
  omega

theorem refPad_of_aligned {data : List Nat} (h : data.length % 16 = 0) : refPad data = data := by
  simp [refPad, h]

theorem refBlocks_block_length (data : List Nat) : ∀ B ∈ refBlocks data, B.length = 16 :=
  chunks_block_length _ data (by omega)

theorem refBlocks_append {a b : List Nat} (ha : a.length % 16 = 0) :
    refBlocks (a ++ b) = refBlocks a ++ refBlocks b := by
  unfold refBlocks
  have h1 : (a ++ b).length / 16 = a.length / 16 + b.length / 16 := by
    rw [List.length_append]
    omega
  rw [h1]
  exact chunks_append _ _ a b (by omega)

theorem refBlocks_single {b : List Nat} (h : b.length = 16) : refBlocks b = [b] := by
  simp [refBlocks, h, chunks, List.take_of_length_le (Nat.le_of_eq h)]

theorem gFieldMultiplyStep_fst_length (x : List Nat) (i j : Nat) (st : List Nat × List Nat) :
    (gFieldMultiplyStep x i st j).1.length = st.1.length := by
  simp only [gFieldMultiplyStep]
  split
  · exact xorBlock_length _ _
  · rfl

theorem foldl_invariant {α β : Type} (Q : α → Prop) (f : α → β → α)
    (hf : ∀ a b, Q a → Q (f a b)) : ∀ (l : List β) (a : α), Q a → Q (l.foldl f a) := by
  intro l
  induction l with
  | nil => intro a h; exact h
  | cons b t ih => intro a h; exact ih _ (hf a b h)

theorem gFieldMultiply_fst_length (x y : List Nat) : (gFieldMultiply x y).1.length = 16 := by
  unfold gFieldMultiply
  apply foldl_invariant (fun st : List Nat × List Nat => st.1.length = 16)
  · intro st i hst
    apply foldl_invariant (fun st : List Nat × List Nat => st.1.length = 16) _ _ _ _ hst
    intro st j h
    rw [gFieldMultiplyStep_fst_length]
    exact h
  · simp [zeros]

theorem ghashStep_length (H Y B : List Nat) : (ghashStep H Y B).length = 16 :=
  gFieldMultiply_fst_length _ _

theorem refFold_cons (H Y B : List Nat) (t : List (List Nat)) :
    refFold H Y (B :: t) = refFold H (gFieldMultiply (refXor Y B) H).1 t := rfl

theorem refFold_nil (H Y : List Nat) : refFold H Y [] = Y := rfl

/-- The fold of the code, with `xorBlock`, is the fold of the reference, with
bytewise XOR, on 16-byte blocks. -/
theorem foldl_ghashStep_eq_refFold (H : List Nat) : ∀ (blocks : List (List Nat)) (Y : List Nat),
    Y.length = 16 → (∀ B ∈ blocks, B.length = 16) →
    blocks.foldl (ghashStep H) Y = refFold H Y blocks := by
  intro blocks
  induction blocks with
  | nil => intro Y _ _; exact (refFold_nil H Y).symm
  | cons B t ih =>
    intro Y hY hB
    have hB0 : B.length = 16 := hB B (List.mem_cons_self _ _)
    have hstep : ghashStep H Y B = (gFieldMultiply (refXor Y B) H).1 := by
      unfold ghashStep
      rw [xorBlock_eq_refXor hY hB0]
    rw [List.foldl_cons, refFold_cons, ← hstep]
    exact ih _ (ghashStep_length _ _ _) (fun B' h' => hB B' (List.mem_cons_of_mem _ h'))

theorem refFold_append (H Y : List Nat) (l1 l2 : List (List Nat)) :
    refFold H Y (l1 ++ l2) = refFold H (refFold H Y l1) l2 := by
  simp [refFold, List.foldl_append]

theorem refFold_length (H : List Nat) : ∀ (blocks : List (List Nat)) (Y : List Nat),
    Y.length = 16 → (refFold H Y blocks).length = 16 := by
  intro blocks
  induction blocks with
  | nil => intro Y h; exact h
  | cons B t ih =>
    intro Y _
    rw [refFold_cons]
    exact ih _ (gFieldMultiply_fst_length _ _)

/-- The function `GHASH` folds the accumulator over the blocks of the zero-padded input. -/
theorem GHASH_eq_refFold (data H Y : List Nat) (hY : Y.length = 16) :
    GHASH data data.length H Y = refFold H Y (refBlocks (refPad data)) := by
  have hfold : ∀ m, (List.range m).foldl
      (fun out i => ghashStep H out (readBlock data (16 * i))) Y =
      (chunks m data).foldl (ghashStep H) Y := by
    intro m
    rw [← map_readBlock_range, List.foldl_map]
  unfold GHASH
  simp only [AES128GCM_BLOCK_SIZE, hfold]
  by_cases hpart : data.length > 16 * (data.length / 16)
  · rw [if_pos hpart]
    have hlast : (data.length - 16 * (data.length / 16)) % 256 = data.length % 16 := by omega
    rw [hlast]
    have hsplit : refPad data = data.take (16 * (data.length / 16)) ++
        (data.drop (16 * (data.length / 16)) ++ zeros (16 - data.length % 16)) := by
      have hz : (16 - data.length % 16) % 16 = 16 - data.length % 16 := by omega
      rw [refPad, hz, ← List.append_assoc, List.take_append_drop]
      rfl
    have hlastlen : (data.drop (16 * (data.length / 16)) ++
        zeros (16 - data.length % 16)).length = 16 := by
      simp only [List.length_append, List.length_drop, zeros, List.length_replicate]
      omega
    have hblocks : refBlocks (refPad data) = chunks (data.length / 16) data ++
        [data.drop (16 * (data.length / 16)) ++ zeros (16 - data.length % 16)] := by
      rw [hsplit, refBlocks_append (by rw [List.length_take]; omega), refBlocks_single hlastlen]
      congr 1
      unfold refBlocks
      have h2 : (data.take (16 * (data.length / 16))).length / 16 = data.length / 16 := by
        rw [List.length_take]; omega
      rw [h2]
      have := chunks_append (data.length / 16) 0 (data.take (16 * (data.length / 16)))
        (data.drop (16 * (data.length / 16))) (by rw [List.length_take]; omega)
      rw [List.take_append_drop] at this
      simpa [chunks] using this.symm
    have htake : (data.drop (16 * (data.length / 16))).take (data.length % 16) =
        data.drop (16 * (data.length / 16)) :=
      List.take_of_length_le (by rw [List.length_drop]; omega)
    rw [htake, ← foldl_ghashStep_eq_refFold H _ Y hY (refBlocks_block_length _), hblocks,
      List.foldl_append]
    rfl
  · rw [if_neg hpart]
    have hal : data.length % 16 = 0 := by omega
    rw [refPad_of_aligned hal, ← foldl_ghashStep_eq_refFold H _ Y hY (refBlocks_block_length _)]
    rfl

/-! ## The pieces of the tag -/

theorem length12_cases {l : List Nat} (h : l.length = 12) :
    ∃ a0 a1 a2 a3 a4 a5 a6 a7 a8 a9 a10 a11 : Nat,
      l = [a0, a1, a2, a3, a4, a5, a6, a7, a8, a9, a10, a11] := by
  match l, h with
  | [a0, a1, a2, a3, a4, a5, a6, a7, a8, a9, a10, a11], _ =>
    exact ⟨a0, a1, a2, a3, a4, a5, a6, a7, a8, a9, a10, a11, rfl⟩

theorem generateICB_eq_refJ0 {IV : List Nat} (h : IV.length = 12) :
    generateICB IV = refJ0 IV := by
  obtain ⟨a0, a1, a2, a3, a4, a5, a6, a7, a8, a9, a10, a11, rfl⟩ := length12_cases h
  rfl

theorem refJ0_length {IV : List Nat} (h : IV.length = 12) : (refJ0 IV).length = 16 := by
  simp [refJ0, h]

theorem generateAuthKey_eq_refH (E : List Nat → List Nat → List Nat) (key : List Nat) :
    generateAuthKey E key = refH E key := rfl

theorem and_255 (x : Nat) : x &&& 255 = x % 256 := Nat.and_pow_two_sub_one_eq_mod x 8

theorem and_15 (x : Nat) : x &&& 15 = x % 16 := Nat.and_pow_two_sub_one_eq_mod x 4

theorem lengthBuffer_eq_ref (a c : Nat) : lengthBuffer a c = refLengthBlock a c := by
  simp only [lengthBuffer, refLengthBlock, zeros, AES128GCM_BLOCK_SIZE, List.replicate,
    List.set_cons_zero, List.set_cons_succ, and_255, Nat.shiftRight_eq_div_pow]
  have h1 : a * 8 % 65536 / 2 ^ 8 % 256 = 8 * a % 65536 / 256 := by omega
  have h2 : c * 8 % 65536 / 2 ^ 8 % 256 = 8 * c % 65536 / 256 := by omega
  have h3 : a * 8 % 65536 % 256 = 8 * a % 65536 % 256 := by omega
  have h4 : c * 8 % 65536 % 256 = 8 * c % 65536 % 256 := by omega
  rw [h1, h2, h3, h4]

theorem refLengthBlock_length (a c : Nat) : (refLengthBlock a c).length = 16 := rfl

theorem generateTagS_eq_refS (H A C : List Nat) :
    generateTagS H A A.length C C.length = refS H A C := by
  unfold generateTagS refS
  simp only [AES128GCM_BLOCK_SIZE]
  have hz : (zeros 16).length = 16 := by simp [zeros]
  have hL : (lengthBuffer A.length C.length).length = 16 := by
    rw [lengthBuffer_eq_ref]; rfl
  have h3 : GHASH (lengthBuffer A.length C.length) 16 H
      (GHASH C C.length H (GHASH A A.length H (zeros 16))) =
      GHASH (lengthBuffer A.length C.length) (lengthBuffer A.length C.length).length H
      (GHASH C C.length H (GHASH A A.length H (zeros 16))) := by rw [hL]
  rw [h3, GHASH_eq_refFold A H _ hz, GHASH_eq_refFold C H _ (refFold_length _ _ _ hz),
    GHASH_eq_refFold _ H _ (refFold_length _ _ _ (refFold_length _ _ _ hz)),
    ← refFold_append, ← refFold_append,
    @refPad_of_aligned (lengthBuffer A.length C.length) (by rw [hL]),
    ← lengthBuffer_eq_ref,
    refBlocks_append (a := refPad A ++ refPad C) (by
      rw [List.length_append, refPad_length, refPad_length]; omega),
    refBlocks_append (a := refPad A) (by rw [refPad_length]; omega), List.append_assoc]
  rfl

theorem generateTagS_length (H A C : List Nat) (a c : Nat) :
    (generateTagS H A a C c).length = 16 := by
  unfold generateTagS GHASH
  simp only [AES128GCM_BLOCK_SIZE]
  norm_num
  exact ghashStep_length _ _ _

theorem generateTag_eq {E : List Nat → List Nat → List Nat} (hE : ∀ b k, (E b k).length = 16)
    (key H A C tag ICB : List Nat) (a c : Nat) (ht : tag.length = 16) (hI : ICB.length = 16) :
    generateTag E key H A a C c tag ICB = refXor (E ICB key) (generateTagS H A a C c) := by
  unfold generateTag
  have hS := generateTagS_length H A C a c
  have := GCTRPadded_eq hE (generateTagS H A a C c) key ICB tag 1 hI (by simpa using hS)
    (by simpa using ht)
  simp only [AES128GCM_BLOCK_SIZE]
  simp only [Nat.mul_one] at this
  rw [this, refCTR, hS]
  have hr : List.range 1 = [0] := rfl
  simp only [Nat.div_self (by norm_num : 0 < 16), hr, List.flatMap_cons,
    List.flatMap_nil, List.append_nil, Nat.mul_zero, List.drop_zero, Function.iterate_zero,
    id_eq]
  rw [List.take_of_length_le (Nat.le_of_eq hS), refXor_comm]

theorem generateTag_length {E : List Nat → List Nat → List Nat}
    (hE : ∀ b k, (E b k).length = 16)
    (key H A C tag ICB : List Nat) (a c : Nat) (ht : tag.length = 16) :
    (generateTag E key H A a C c tag ICB).length = 16 := by
  unfold generateTag GCTRPadded
  rw [if_neg (by decide)]
  have h1 : AES128GCM_BLOCK_SIZE / 16 = 1 := rfl
  simp only [h1]
  rw [gctr_fold hE, List.length_append, flatMap_range_length _
    (fun i => by rw [xorBlock_length]; exact hE _ _), List.length_drop, ht]

theorem refCTR_incr32_eq_refCipher (E : List Nat → List Nat → List Nat) (key J0 P : List Nat) :
    refCTR E key (incr32 J0) P = refCipher E key J0 P := by
  unfold refCTR refCipher
  simp only [Function.iterate_succ_apply]

theorem generateCDATAPadded_eq {E : List Nat → List Nat → List Nat}
    (hE : ∀ b k, (E b k).length = 16) (ICB P out key : List Nat) (n : Nat)
    (hI : ICB.length = 16) (hP : P.length = 16 * n) (hout : out.length = 16 * n) :
    generateCDATAPadded E ICB P (16 * n) out key = refCipher E key ICB P := by
  unfold generateCDATAPadded
  by_cases hn : n = 0
  · subst hn
    have h1 : out = [] := List.length_eq_zero.mp (by simpa using hout)
    have h2 : P = [] := List.length_eq_zero.mp (by simpa using hP)
    subst h1 h2
    rfl
  · rw [if_neg (by omega), readBlock_zero_of_length hI,
      GCTRPadded_eq hE P key _ out n (by rw [incr32_length]; exact hI) hP hout,
      refCTR_incr32_eq_refCipher]

/-! ## Counter mode as XOR with the key stream -/

theorem keystream_length {E : List Nat → List Nat → List Nat}
    (hE : ∀ b k, (E b k).length = 16) (key ctr : List Nat) (n : Nat) :
    (keystream E key ctr n).length = 16 * n :=
  flatMap_range_length _ (fun _ => hE _ _) n

theorem keystream_succ (E : List Nat → List Nat → List Nat) (key ctr : List Nat) (n : Nat) :
    keystream E key ctr (n + 1) = keystream E key ctr n ++ E (incr32^[n] ctr) key := by
  simp [keystream, List.range_succ, List.flatMap_append]

theorem blocks_xor_keystream {E : List Nat → List Nat → List Nat}
    (hE : ∀ b k, (E b k).length = 16) (key ctr X : List Nat) (n : Nat)
    (hX : 16 * n ≤ X.length) :
    (List.range n).flatMap
        (fun i => refXor ((X.drop (16 * i)).take 16) (E (incr32^[i] ctr) key)) =
      refXor (X.take (16 * n)) (keystream E key ctr n) := by
  induction n with
  | zero => simp [refXor, keystream]
  | succ n ih =>
    rw [List.range_succ, List.flatMap_append, ih (by omega), keystream_succ, Nat.mul_succ,
      List.take_add]
    simp only [List.flatMap_cons, List.flatMap_nil, List.append_nil]
    unfold refXor
    rw [List.zipWith_append]
    rw [List.length_take, keystream_length hE]
    omega

theorem refCTR_eq_xor_keystream {E : List Nat → List Nat → List Nat}
    (hE : ∀ b k, (E b k).length = 16) (key ctr X : List Nat) (n : Nat) (hX : X.length = 16 * n) :
    refCTR E key ctr X = refXor X (keystream E key ctr n) := by
  unfold refCTR
  have h1 : X.length / 16 = n := by omega
  rw [h1, blocks_xor_keystream hE key ctr X n (by omega),
    List.take_of_length_le (Nat.le_of_eq hX)]

/-- A run of single-byte stores `out[o + i] = g i`, `i < k`, inside the buffer. -/
theorem foldl_set_range (g : Nat → Nat) (o : Nat) : ∀ (k : Nat) (B : List Nat),
    o + k ≤ B.length →
    (List.range k).foldl (fun out i => out.set (o + i) (g i)) B =
      B.take o ++ (List.range k).map g ++ B.drop (o + k) := by
  intro k
  induction k with
  | zero => intro B _; simp
  | succ k ih =>
    intro B hB
    rw [List.range_succ, List.foldl_append, ih B (by omega)]
    simp only [List.foldl_cons, List.foldl_nil, List.map_append, List.map_cons, List.map_nil]
    have hl : (B.take o ++ (List.range k).map g).length = o + k := by
      simp only [List.length_append, List.length_take, List.length_map, List.length_range]
      omega
    rw [List.set_append_right _ _ (by rw [hl]), hl, Nat.sub_self,
      List.drop_eq_getElem_cons (by omega : o + k < B.length)]
    simp only [List.set_cons_zero, List.append_assoc, List.singleton_append]
    rfl

theorem map_range_xor (inp tmp : List Nat) (o k : Nat) (hi : inp.length = o + k)
    (ht : k ≤ tmp.length) :
    (List.range k).map (fun i => inp.getD (o + i) 0 ^^^ tmp.getD i 0) =
      refXor (inp.drop o) tmp := by
  apply List.ext_getElem
  · simp only [refXor, List.length_map, List.length_range, List.length_zipWith,
      List.length_drop]
    omega
  · intro j h1 h2
    simp only [List.length_map, List.length_range] at h1
    simp only [refXor, List.getElem_map, List.getElem_range, List.getElem_zipWith,
      List.getElem_drop]
    rw [List.getD_eq_getElem _ _ (by omega : o + j < inp.length),
      List.getD_eq_getElem _ _ (by omega : j < tmp.length)]

/-- The function `GCTR` XORs the input with the key stream and leaves the rest of the
output buffer as it was. -/
theorem GCTR_eq {E : List Nat → List Nat → List Nat} (hE : ∀ b k, (E b k).length = 16)
    (inp key ctr out : List Nat) (hctr : ctr.length = 16) (hL : inp.length < 256)
    (hout : inp.length ≤ out.length) :
    GCTR E inp inp.length key ctr out =
      refXor inp (keystream E key ctr ((inp.length + 15) / 16)) ++ out.drop inp.length := by
  unfold GCTR
  by_cases h0 : inp.length = 0
  · rw [if_pos h0]
    have : inp = [] := List.length_eq_zero.mp h0
    subst this
    simp [refXor]
  · rw [if_neg h0, readBlock_zero_of_length hctr]
    simp only [AES128GCM_BLOCK_SIZE]
    rw [gctr_fold hE]
    simp only
    have hlast : (inp.length - 16 * (inp.length / 16)) % 256 = inp.length % 16 := by omega
    rw [hlast]
    have hfull : (List.range (inp.length / 16)).flatMap
        (fun i => xorBlock (E (incr32^[i] ctr) key) (readBlock inp (16 * i))) =
        refXor (inp.take (16 * (inp.length / 16))) (keystream E key ctr (inp.length / 16)) := by
      rw [← blocks_xor_keystream hE key ctr inp _ (by omega)]
      apply flatMap_range_congr
      intro i hi
      have hb : (readBlock inp (16 * i)).length = 16 := readBlock_length_of_le (by omega)
      rw [xorBlock_eq_refXor (hE _ _) hb, refXor_comm]
      rfl
    rw [hfull]
    have hfl : (refXor (inp.take (16 * (inp.length / 16)))
        (keystream E key ctr (inp.length / 16))).length = 16 * (inp.length / 16) := by
      rw [refXor_length] <;> rw [List.length_take] <;> [skip; rw [keystream_length hE]] <;> omega
    by_cases hl : inp.length % 16 = 0
    · rw [if_neg (by simpa using hl)]
      have h1 : (inp.length + 15) / 16 = inp.length / 16 := by omega
      have h2 : 16 * (inp.length / 16) = inp.length := by omega
      rw [h1, h2, List.take_of_length_le (Nat.le_refl _)]
    · rw [if_pos hl]
      have h1 : (inp.length + 15) / 16 = inp.length / 16 + 1 := by omega
      rw [foldl_set_range _ _ _ _ (by
          rw [List.length_append, hfl, List.length_drop]; omega),
        List.take_left' hfl,
        map_range_xor inp _ _ _ (by omega) (by rw [hE]; omega), h1, keystream_succ]
      have hz : refXor inp
          (keystream E key ctr (inp.length / 16) ++ E (incr32^[inp.length / 16] ctr) key) =
          refXor (inp.take (16 * (inp.length / 16))) (keystream E key ctr (inp.length / 16)) ++
          refXor (inp.drop (16 * (inp.length / 16))) (E (incr32^[inp.length / 16] ctr) key) := by
        have h : refXor
            (inp.take (16 * (inp.length / 16)) ++ inp.drop (16 * (inp.length / 16)))
            (keystream E key ctr (inp.length / 16) ++ E (incr32^[inp.length / 16] ctr) key) =
            refXor (inp.take (16 * (inp.length / 16)))
              (keystream E key ctr (inp.length / 16)) ++
            refXor (inp.drop (16 * (inp.length / 16)))
              (E (incr32^[inp.length / 16] ctr) key) := by
          unfold refXor
          rw [List.zipWith_append]
          rw [List.length_take, keystream_length hE]
          omega
        rwa [List.take_append_drop] at h
      rw [hz]
      have hd : List.drop (16 * (inp.length / 16) + inp.length % 16)
          (refXor (inp.take (16 * (inp.length / 16))) (keystream E key ctr (inp.length / 16)) ++
            out.drop (16 * (inp.length / 16))) = out.drop inp.length := by
        rw [← List.drop_drop, List.drop_left' hfl, List.drop_drop]
        congr 1
        omega
      rw [hd]

/-! ## The polynomial of GCM is squarefree -/

theorem gcmPoly_derivative : Polynomial.derivative gcmPoly = Polynomial.X ^ 6 + 1 := by
  have h128 : ((128 : ℕ) : ZMod 2) = 0 := by decide
  have h7 : ((7 : ℕ) : ZMod 2) = 1 := by decide
  have h2 : ((2 : ℕ) : ZMod 2) = 0 := by decide
  simp only [gcmPoly, Polynomial.derivative_add, Polynomial.derivative_X_pow,
    Polynomial.derivative_X, Polynomial.derivative_one, h128, h7, h2,
    map_zero, map_one, zero_mul, one_mul, add_zero, zero_add]

theorem gcmPoly_separable : gcmPoly.Separable := by
  rw [Polynomial.separable_def, gcmPoly_derivative]
  have h2 : (2 : Polynomial (ZMod 2)) = 0 := CharTwo.two_eq_zero
  have hG := geom_sum_mul ((Polynomial.X : Polynomial (ZMod 2)) ^ 3) 42
  generalize (∑ i ∈ Finset.range 42, ((Polynomial.X : Polynomial (ZMod 2)) ^ 3) ^ i) = G at hG
  have hp : gcmPoly = (Polynomial.X ^ 3 + 1) *
      (Polynomial.X ^ 2 * G + Polynomial.X * (Polynomial.X ^ 3 + 1)) + 1 := by
    unfold gcmPoly
    linear_combination (-(Polynomial.X : Polynomial (ZMod 2)) ^ 2) * hG +
      (Polynomial.X ^ 2 - Polynomial.X ^ 2 * G - Polynomial.X ^ 4) * h2
  refine ⟨gcmPoly, (Polynomial.X ^ 2 * G + Polynomial.X * (Polynomial.X ^ 3 + 1)) ^ 2, ?_⟩
  rw [hp]
  linear_combination ((Polynomial.X : Polynomial (ZMod 2)) ^ 6 *
      (Polynomial.X ^ 2 * G + Polynomial.X * (Polynomial.X ^ 3 + 1)) ^ 2
    + Polynomial.X ^ 3 * (Polynomial.X ^ 2 * G + Polynomial.X * (Polynomial.X ^ 3 + 1)) ^ 2
    + (Polynomial.X ^ 2 * G + Polynomial.X * (Polynomial.X ^ 3 + 1)) ^ 2
    + (Polynomial.X ^ 3 + 1) *
      (Polynomial.X ^ 2 * G + Polynomial.X * (Polynomial.X ^ 3 + 1))) * h2

theorem gcmPoly_squarefree : Squarefree gcmPoly := gcmPoly_separable.squarefree

theorem gcmPoly_coprime_X : IsCoprime gcmPoly (Polynomial.X : Polynomial (ZMod 2)) := by
  refine ⟨1, -(Polynomial.X ^ 127 + Polynomial.X ^ 6 + Polynomial.X + 1), ?_⟩
  unfold gcmPoly
  ring

theorem gcmPoly_dvd_of_dvd_X_pow_mul_pow {h : Polynomial (ZMod 2)} {k m : ℕ}
    (hd : gcmPoly ∣ Polynomial.X ^ k * h ^ m) (hm : m ≠ 0) : gcmPoly ∣ h := by
  have h1 : gcmPoly ∣ h ^ m := (gcmPoly_coprime_X.pow_right (n := k)).dvd_of_dvd_mul_left hd
  exact (gcmPoly_squarefree.dvd_pow_iff_dvd hm).mp h1

theorem gcmPoly_degree : gcmPoly.degree = 128 := by
  unfold gcmPoly
  compute_degree!

/-! ## Bits -/

theorem and_one_ne_zero_iff (x : Nat) : x &&& 1 ≠ 0 ↔ x.testBit 0 = true := by
  have h := Nat.and_two_pow x 0
  simp only [pow_zero, mul_one] at h
  rw [h]
  cases x.testBit 0 <;> simp

theorem and_shift_ne_zero_iff (x t : Nat) : x &&& (1 <<< t) ≠ 0 ↔ x.testBit t = true := by
  rw [Nat.one_shiftLeft, Nat.and_two_pow]
  cases x.testBit t
  · simp
  · simp

theorem testBit_xor_two_pow (x r t : Nat) :
    (x ^^^ 2 ^ r).testBit t = (x.testBit t ^^ decide (r = t)) := by
  rw [Nat.testBit_xor, Nat.testBit_two_pow]

theorem getD_zipWith_xor : ∀ (a b : List Nat) (i : Nat), a.length = b.length →
    (List.zipWith (· ^^^ ·) a b).getD i 0 = a.getD i 0 ^^^ b.getD i 0
  | [], [], _, _ => by simp
  | [], _ :: _, _, h => by simp at h
  | _ :: _, [], _, h => by simp at h
  | x :: a, y :: b, 0, _ => by simp
  | x :: a, y :: b, i + 1, h => by
    simp only [List.zipWith_cons_cons, List.getD_cons_succ]
    exact getD_zipWith_xor a b i (by simpa using h)

theorem bitAt_refXor (a b : List Nat) (k : Nat) (h : a.length = b.length) :
    bitAt (refXor a b) k = (bitAt a k ^^ bitAt b k) := by
  unfold bitAt refXor
  rw [getD_zipWith_xor a b _ h, Nat.testBit_xor]

/-! ## Blocks as polynomials -/

theorem ite_xor_poly (p q : Bool) (f : Polynomial (ZMod 2)) :
    (if (p ^^ q) = true then f else 0) =
      (if p = true then f else 0) + (if q = true then f else 0) := by
  cases p <;> cases q <;> simp [CharTwo.add_self_eq_zero]

theorem toPoly_refXor (a b : List Nat) (h : a.length = b.length) :
    toPoly (refXor a b) = toPoly a + toPoly b := by
  unfold toPoly
  rw [← Finset.sum_add_distrib]
  apply Finset.sum_congr rfl
  intro k _
  rw [bitAt_refXor a b k h, ite_xor_poly]

theorem gf_refXor (a b : List Nat) (h : a.length = b.length) :
    gf (refXor a b) = gf a + gf b := by
  unfold gf
  rw [toPoly_refXor a b h, map_add]

theorem toPoly_coeff (b : List Nat) (k : Nat) (hk : k < 128) :
    (toPoly b).coeff k = if bitAt b k then 1 else 0 := by
  unfold toPoly
  rw [Polynomial.finset_sum_coeff]
  have : ∀ j ∈ Finset.range 128,
      (if bitAt b j = true then (Polynomial.X : Polynomial (ZMod 2)) ^ j else 0).coeff k =
        if j = k then (if bitAt b k then 1 else 0) else 0 := by
    intro j _
    by_cases hjk : j = k
    · subst hjk
      by_cases hb : bitAt b j = true <;> simp [hb]
    · by_cases hb : bitAt b j = true
      · simp [hb, hjk, Polynomial.coeff_X_pow, Ne.symm hjk]
      · simp [hb, hjk]
  rw [Finset.sum_congr rfl this, Finset.sum_ite_eq' (Finset.range 128) k]
  simp [hk]

theorem toPoly_degree_lt (b : List Nat) : (toPoly b).degree < 128 := by
  unfold toPoly
  apply lt_of_le_of_lt (Polynomial.degree_sum_le _ _)
  rw [Finset.sup_lt_iff (by exact WithBot.bot_lt_coe 128)]
  intro k hk
  have hk' := Finset.mem_range.mp hk
  split
  · rw [Polynomial.degree_X_pow]
    exact_mod_cast hk'
  · rw [Polynomial.degree_zero]
    exact WithBot.bot_lt_coe 128

theorem gf_eq_zero_iff (b : List Nat) : gf b = 0 ↔ toPoly b = 0 := by
  unfold gf
  rw [AdjoinRoot.mk_eq_zero]
  constructor
  · intro h
    exact Polynomial.eq_zero_of_dvd_of_degree_lt h (by
      rw [gcmPoly_degree]; exact toPoly_degree_lt b)
  · intro h
    rw [h]
    exact dvd_zero _

/-! ## The zero block -/

theorem testBit_of_bitAt (b : List Nat) (i t : Nat) (ht : t < 8) :
    (b.getD i 0).testBit t = bitAt b (8 * i + (7 - t)) := by
  unfold bitAt
  have h1 : (8 * i + (7 - t)) / 8 = i := by omega
  have h2 : 7 - (8 * i + (7 - t)) % 8 = t := by omega
  rw [h1, h2]

theorem eq_zeros_of_bitAt {b : List Nat} (hb : IsBlock b)
    (h : ∀ k, k < 128 → bitAt b k = false) : b = zeros 16 := by
  apply List.ext_getElem
  · simp [zeros, hb.1]
  · intro i h1 h2
    simp only [zeros, List.getElem_replicate]
    apply Nat.eq_of_testBit_eq
    intro t
    rw [Nat.zero_testBit]
    have hi : i < 16 := by rw [← hb.1]; exact h1
    by_cases ht : t < 8
    · have := testBit_of_bitAt b i t ht
      rw [List.getD_eq_getElem _ _ h1] at this
      rw [this]
      exact h _ (by omega)
    · apply Nat.testBit_lt_two_pow
      have hlt : b[i] < 256 := hb.2 _ (List.getElem_mem h1)
      calc b[i] < 2 ^ 8 := hlt
        _ ≤ 2 ^ t := Nat.pow_le_pow_right (by norm_num) (by omega)

theorem eq_zeros_of_toPoly_eq_zero {b : List Nat} (hb : IsBlock b) (h : toPoly b = 0) :
    b = zeros 16 := by
  apply eq_zeros_of_bitAt hb
  intro k hk
  have hc := toPoly_coeff b k hk
  rw [h, Polynomial.coeff_zero] at hc
  by_contra hne
  rw [Bool.not_eq_false] at hne
  rw [hne] at hc
  simp at hc

/-! ## Blocks stay blocks -/

theorem IsBytes.set {l : List Nat} (h : IsBytes l) (i v : Nat) (hv : v < 256) :
    IsBytes (l.set i v) := by
  intro x hx
  rcases List.mem_or_eq_of_mem_set hx with h1 | h1
  · exact h x h1
  · rw [h1]; exact hv

theorem IsBytes.getD {l : List Nat} (h : IsBytes l) (i : Nat) : l.getD i 0 < 256 := by
  rw [List.getD_eq_getElem?_getD]
  by_cases hi : i < l.length
  · rw [List.getElem?_eq_getElem hi]
    exact h _ (List.getElem_mem hi)
  · rw [List.getElem?_eq_none (by omega)]
    norm_num

theorem xor_lt_256 {a b : Nat} (ha : a < 256) (hb : b < 256) : a ^^^ b < 256 :=
  Nat.xor_lt_two_pow (n := 8) ha hb

theorem or_lt_256 {a b : Nat} (ha : a < 256) (hb : b < 256) : a ||| b < 256 :=
  Nat.or_lt_two_pow (n := 8) ha hb

theorem shiftRight_one_lt_256 {a : Nat} (ha : a < 256) : a >>> 1 < 256 := by
  rw [Nat.shiftRight_eq_div_pow]
  omega

theorem foldl_isBytes {β : Type} (f : List Nat → β → List Nat)
    (hf : ∀ l b, IsBytes l → IsBytes (f l b)) (l : List β) (d : List Nat) (hd : IsBytes d) :
    IsBytes (l.foldl f d) :=
  foldl_invariant IsBytes f hf l d hd

theorem xorBlock_isBytes {d s : List Nat} (hd : IsBytes d) (hs : IsBytes s) :
    IsBytes (xorBlock d s) := by
  unfold xorBlock
  apply foldl_isBytes _ _ _ _ hd
  intro l i hl
  exact hl.set _ _ (xor_lt_256 (hl.getD i) (hs.getD i))

theorem xorBlock_isBlock {d s : List Nat} (hd : IsBlock d) (hs : IsBlock s) :
    IsBlock (xorBlock d s) :=
  ⟨by rw [xorBlock_length]; exact hd.1, xorBlock_isBytes hd.2 hs.2⟩

theorem shiftBlockRightStep_isBytes {b : List Nat} (hb : IsBytes b) (pos : Nat) :
    IsBytes (shiftBlockRightStep b pos) := by
  unfold shiftBlockRightStep
  have h1 : IsBytes (b.set (pos + 1)
      (if b.getD pos 0 &&& 0x01 ≠ 0 then b.getD (pos + 1) 0 ||| 0x80
        else b.getD (pos + 1) 0)) := by
    apply hb.set
    split
    · exact or_lt_256 (hb.getD _) (by norm_num)
    · exact hb.getD _
  exact h1.set _ _ (shiftRight_one_lt_256 (h1.getD _))

theorem shiftBlockRightStep_length (b : List Nat) (pos : Nat) :
    (shiftBlockRightStep b pos).length = b.length := by
  simp [shiftBlockRightStep]

theorem shiftBlockRight_isBlock {b : List Nat} (hb : IsBlock b) : IsBlock (shiftBlockRight b) := by
  unfold shiftBlockRight
  apply foldl_invariant IsBlock
  · intro l i hl
    exact ⟨by rw [shiftBlockRightStep_length]; exact hl.1, shiftBlockRightStep_isBytes hl.2 _⟩
  · exact ⟨by rw [List.length_set]; exact hb.1,
      hb.2.set _ _ (shiftRight_one_lt_256 (hb.2.getD _))⟩

/-! ## The shift as multiplication by `x` -/

theorem shiftBlockRight_cons (a0 a1 a2 a3 a4 a5 a6 a7 a8 a9 a10 a11 a12 a13 a14 a15 : Nat) :
    shiftBlockRight [a0, a1, a2, a3, a4, a5, a6, a7, a8, a9, a10, a11, a12, a13, a14, a15] =
      [a0 >>> 1,
       (if a0 &&& 1 ≠ 0 then a1 >>> 1 ||| 0x80 else a1 >>> 1),
       (if a1 &&& 1 ≠ 0 then a2 >>> 1 ||| 0x80 else a2 >>> 1),
       (if a2 &&& 1 ≠ 0 then a3 >>> 1 ||| 0x80 else a3 >>> 1),
       (if a3 &&& 1 ≠ 0 then a4 >>> 1 ||| 0x80 else a4 >>> 1),
       (if a4 &&& 1 ≠ 0 then a5 >>> 1 ||| 0x80 else a5 >>> 1),
       (if a5 &&& 1 ≠ 0 then a6 >>> 1 ||| 0x80 else a6 >>> 1),
       (if a6 &&& 1 ≠ 0 then a7 >>> 1 ||| 0x80 else a7 >>> 1),
       (if a7 &&& 1 ≠ 0 then a8 >>> 1 ||| 0x80 else a8 >>> 1),
       (if a8 &&& 1 ≠ 0 then a9 >>> 1 ||| 0x80 else a9 >>> 1),
       (if a9 &&& 1 ≠ 0 then a10 >>> 1 ||| 0x80 else a10 >>> 1),
       (if a10 &&& 1 ≠ 0 then a11 >>> 1 ||| 0x80 else a11 >>> 1),
       (if a11 &&& 1 ≠ 0 then a12 >>> 1 ||| 0x80 else a12 >>> 1),
       (if a12 &&& 1 ≠ 0 then a13 >>> 1 ||| 0x80 else a13 >>> 1),
       (if a13 &&& 1 ≠ 0 then a14 >>> 1 ||| 0x80 else a14 >>> 1),
       (if a14 &&& 1 ≠ 0 then a15 >>> 1 ||| 0x80 else a15 >>> 1)] := by
  simp only [shiftBlockRight, shiftBlockRightStep, AES128GCM_BLOCK_SIZE, range15,
    List.foldl_cons, List.foldl_nil, List.set_cons_zero, List.set_cons_succ,
    List.getD_cons_zero, List.getD_cons_succ, Nat.reduceSub, Nat.reduceAdd]

theorem shiftBlockRight_getD_zero {b : List Nat} (hb : b.length = 16) :
    (shiftBlockRight b).getD 0 0 = b.getD 0 0 >>> 1 := by
  obtain ⟨a0, a1, a2, a3, a4, a5, a6, a7, a8, a9, a10, a11, a12, a13, a14, a15, rfl⟩ :=
    length16_cases hb
  rw [shiftBlockRight_cons]
  rfl

theorem shiftBlockRight_getD_succ {b : List Nat} (hb : b.length = 16) (i : Nat) (hi : i < 15) :
    (shiftBlockRight b).getD (i + 1) 0 =
      if b.getD i 0 &&& 1 ≠ 0 then b.getD (i + 1) 0 >>> 1 ||| 0x80
      else b.getD (i + 1) 0 >>> 1 := by
  obtain ⟨a0, a1, a2, a3, a4, a5, a6, a7, a8, a9, a10, a11, a12, a13, a14, a15, rfl⟩ :=
    length16_cases hb
  rw [shiftBlockRight_cons]
  interval_cases i <;> rfl

theorem bitAt_shiftBlockRight_zero {b : List Nat} (hb : IsBlock b) :
    bitAt (shiftBlockRight b) 0 = false := by
  unfold bitAt
  simp only [Nat.zero_div, Nat.zero_mod, Nat.sub_zero]
  rw [shiftBlockRight_getD_zero hb.1, Nat.testBit_shiftRight]
  apply Nat.testBit_lt_two_pow
  exact hb.2.getD 0

theorem bitAt_shiftBlockRight_succ {b : List Nat} (hb : IsBlock b) (k : Nat) (hk : k + 1 < 128) :
    bitAt (shiftBlockRight b) (k + 1) = bitAt b k := by
  unfold bitAt
  by_cases hj : (k + 1) % 8 = 0
  · -- the bit carried over from the byte before
    have h1 : (k + 1) / 8 = k / 8 + 1 := by omega
    have h2 : k % 8 = 7 := by omega
    rw [h1, hj, h2, shiftBlockRight_getD_succ hb.1 _ (by omega)]
    simp only [Nat.sub_zero, Nat.sub_self]
    by_cases hodd : b.getD (k / 8) 0 &&& 1 ≠ 0
    · have h80 : (0x80 : Nat).testBit 7 = true := by decide
      rw [if_pos hodd, Nat.testBit_or, (and_one_ne_zero_iff _).mp hodd, h80, Bool.or_true]
    · rw [if_neg hodd, Nat.testBit_shiftRight]
      have h3 : (b.getD (k / 8) 0).testBit 0 = false := by
        by_contra hc
        rw [Bool.not_eq_false] at hc
        exact hodd ((and_one_ne_zero_iff _).mpr hc)
      rw [h3]
      apply Nat.testBit_lt_two_pow
      exact hb.2.getD _
  · have h1 : (k + 1) / 8 = k / 8 := by omega
    have h2 : 7 - k % 8 = 1 + (7 - (k + 1) % 8) := by omega
    rw [h1, h2]
    have hsh : ∀ x : Nat, (x >>> 1 ||| 0x80).testBit (7 - (k + 1) % 8) =
        (x >>> 1).testBit (7 - (k + 1) % 8) := by
      intro x
      rw [Nat.testBit_or]
      have : (0x80 : Nat).testBit (7 - (k + 1) % 8) = false := by
        have hlt : 7 - (k + 1) % 8 < 7 := by omega
        have h80 : (0x80 : Nat) = 2 ^ 7 := by norm_num
        rw [h80, Nat.testBit_two_pow]
        simp
        omega
      rw [this, Bool.or_false]
    rcases Nat.eq_zero_or_pos (k / 8) with h0 | h0
    · rw [h0, shiftBlockRight_getD_zero hb.1, Nat.testBit_shiftRight]
    · obtain ⟨i, hi⟩ : ∃ i, k / 8 = i + 1 := ⟨k / 8 - 1, by omega⟩
      rw [hi, shiftBlockRight_getD_succ hb.1 i (by omega)]
      split
      · rw [hsh, Nat.testBit_shiftRight]
      · rw [Nat.testBit_shiftRight]

theorem toPoly_shiftBlockRight {b : List Nat} (hb : IsBlock b) :
    toPoly (shiftBlockRight b) =
      Polynomial.X * toPoly b + (if bitAt b 127 then Polynomial.X ^ 128 else 0) := by
  have h1 : toPoly (shiftBlockRight b) =
      ∑ k ∈ Finset.range 127, if bitAt b k then Polynomial.X ^ (k + 1) else 0 := by
    unfold toPoly
    rw [Finset.sum_range_succ', bitAt_shiftBlockRight_zero hb]
    simp only [Bool.false_eq_true, if_false, add_zero]
    apply Finset.sum_congr rfl
    intro k hk
    rw [bitAt_shiftBlockRight_succ hb k (by have := Finset.mem_range.mp hk; omega)]
  have h2 : Polynomial.X * toPoly b =
      (∑ k ∈ Finset.range 127, if bitAt b k then Polynomial.X ^ (k + 1) else 0) +
        (if bitAt b 127 then Polynomial.X ^ 128 else 0) := by
    unfold toPoly
    rw [Finset.mul_sum, Finset.sum_range_succ]
    congr 1
    · apply Finset.sum_congr rfl
      intro k _
      split
      · rw [pow_succ, mul_comm]
      · rw [mul_zero]
    · split
      · rw [← pow_succ']
      · rw [mul_zero]
  rw [h1, h2, add_assoc, CharTwo.add_self_eq_zero, add_zero]

set_option maxRecDepth 100000 in
theorem bitAt_rBlock : ∀ k, k < 128 →
    bitAt rBlock k = decide (k = 0 ∨ k = 1 ∨ k = 2 ∨ k = 7) := by
  decide

theorem toPoly_rBlock :
    toPoly rBlock = Polynomial.X ^ 7 + Polynomial.X ^ 2 + Polynomial.X + 1 := by
  have h : toPoly rBlock = ∑ k ∈ Finset.range 128,
      if (k = 0 ∨ k = 1 ∨ k = 2 ∨ k = 7) then (Polynomial.X : Polynomial (ZMod 2)) ^ k
        else 0 := by
    unfold toPoly
    apply Finset.sum_congr rfl
    intro k hk
    rw [bitAt_rBlock k (Finset.mem_range.mp hk)]
    simp only [decide_eq_true_eq]
  rw [h]
  simp only [Finset.sum_range_succ, Finset.sum_range_zero]
  norm_num
  ring

theorem set_zero_xor_eq_refXor {s : List Nat} (hs : s.length = 16) :
    s.set 0 (s.getD 0 0 ^^^ 0xe1) = refXor s rBlock := by
  obtain ⟨a0, a1, a2, a3, a4, a5, a6, a7, a8, a9, a10, a11, a12, a13, a14, a15, rfl⟩ :=
    length16_cases hs
  simp [refXor, rBlock, List.replicate]

theorem rBlock_isBlock : IsBlock rBlock := by decide

theorem refXor_isBlock {a b : List Nat} (ha : IsBlock a) (hb : IsBlock b) :
    IsBlock (refXor a b) := by
  rw [← xorBlock_eq_refXor ha.1 hb.1]
  exact xorBlock_isBlock ha hb

/-- The update of `V` in `gFieldMultiply`: a shift, and the reduction when a
bit falls off. -/
theorem mulX_isBlock {V : List Nat} (hV : IsBlock V) :
    IsBlock (if V.getD 15 0 &&& 0x01 ≠ 0 then
        (shiftBlockRight V).set 0 ((shiftBlockRight V).getD 0 0 ^^^ 0xe1)
      else shiftBlockRight V) := by
  have hs := shiftBlockRight_isBlock hV
  split
  · rw [set_zero_xor_eq_refXor hs.1]
    exact refXor_isBlock hs rBlock_isBlock
  · exact hs

theorem gf_mulX {V : List Nat} (hV : IsBlock V) :
    gf (if V.getD 15 0 &&& 0x01 ≠ 0 then
        (shiftBlockRight V).set 0 ((shiftBlockRight V).getD 0 0 ^^^ 0xe1)
      else shiftBlockRight V) = AdjoinRoot.root gcmPoly * gf V := by
  have hs := shiftBlockRight_isBlock hV
  have hbit : bitAt V 127 = (V.getD 15 0).testBit 0 := rfl
  have hmk : (AdjoinRoot.mk gcmPoly) gcmPoly = 0 := AdjoinRoot.mk_self
  by_cases hodd : V.getD 15 0 &&& 0x01 ≠ 0
  · rw [if_pos hodd, set_zero_xor_eq_refXor hs.1]
    have hb : bitAt V 127 = true := by rw [hbit]; exact (and_one_ne_zero_iff _).mp hodd
    unfold gf
    rw [toPoly_refXor _ _ (by rw [hs.1]; rfl), toPoly_shiftBlockRight hV, toPoly_rBlock, hb]
    simp only [if_true]
    have : Polynomial.X * toPoly V + Polynomial.X ^ 128 +
        (Polynomial.X ^ 7 + Polynomial.X ^ 2 + Polynomial.X + 1) =
        Polynomial.X * toPoly V + gcmPoly := by
      unfold gcmPoly
      ring
    rw [this, map_add, map_mul, hmk, add_zero, AdjoinRoot.mk_X]
  · rw [if_neg hodd]
    have hb : bitAt V 127 = false := by
      rw [hbit]
      by_contra hc
      rw [Bool.not_eq_false] at hc
      exact hodd ((and_one_ne_zero_iff _).mpr hc)
    unfold gf
    rw [toPoly_shiftBlockRight hV, hb]
    simp only [Bool.false_eq_true, if_false, add_zero]
    rw [map_mul, AdjoinRoot.mk_X]

theorem gf_zeros : gf (zeros 16) = 0 := by
  have h : toPoly (zeros 16) = 0 := by
    unfold toPoly
    apply Finset.sum_eq_zero
    intro k _
    have : bitAt (zeros 16) k = false := by
      unfold bitAt zeros
      have h0 : (List.replicate 16 0).getD (k / 8) 0 = 0 := by
        rw [List.getD_eq_getElem?_getD, List.getElem?_replicate]
        split <;> rfl
      rw [h0, Nat.zero_testBit]
    rw [this]
    simp
  unfold gf
  rw [h, map_zero]

/-! ## `gFieldMultiply` multiplies -/

/-- The state of `gFieldMultiply` once bits `0 .. k-1` of `x` are consumed. -/
theorem gFieldMultiplyStep_inv (x y : List Nat) (i j : Nat) (hj : j < 8)
    (st : List Nat × List Nat)
    (h : st.1.length = 16 ∧ IsBlock st.2 ∧
      gf st.2 = AdjoinRoot.root gcmPoly ^ (8 * i + j) * gf y ∧
      gf st.1 = AdjoinRoot.mk gcmPoly
        (∑ t ∈ Finset.range (8 * i + j), if bitAt x t then Polynomial.X ^ t else 0) * gf y) :
    (gFieldMultiplyStep x i st j).1.length = 16 ∧ IsBlock (gFieldMultiplyStep x i st j).2 ∧
      gf (gFieldMultiplyStep x i st j).2 = AdjoinRoot.root gcmPoly ^ (8 * i + j + 1) * gf y ∧
      gf (gFieldMultiplyStep x i st j).1 = AdjoinRoot.mk gcmPoly
        (∑ t ∈ Finset.range (8 * i + j + 1), if bitAt x t then Polynomial.X ^ t else 0) *
          gf y := by
  obtain ⟨hZ, hV, hgV, hgZ⟩ := h
  have hbit : bitAt x (8 * i + j) = (x.getD i 0).testBit (7 - j) := by
    unfold bitAt
    have h1 : (8 * i + j) / 8 = i := by omega
    have h2 : (8 * i + j) % 8 = j := by omega
    rw [h1, h2]
  refine ⟨?_, ?_, ?_, ?_⟩
  · rw [gFieldMultiplyStep_fst_length]; exact hZ
  · exact mulX_isBlock hV
  · show gf (if st.2.getD 15 0 &&& 0x01 ≠ 0 then
        (shiftBlockRight st.2).set 0 ((shiftBlockRight st.2).getD 0 0 ^^^ 0xe1)
      else shiftBlockRight st.2) = _
    rw [gf_mulX hV, hgV, pow_succ]
    ring
  · show gf (if x.getD i 0 &&& (1 <<< (7 - j)) ≠ 0 then xorBlock st.1 st.2 else st.1) = _
    rw [Finset.sum_range_succ, map_add, add_mul, ← hgZ]
    by_cases hc : x.getD i 0 &&& (1 <<< (7 - j)) ≠ 0
    · have hb : bitAt x (8 * i + j) = true := by
        rw [hbit]; exact (and_shift_ne_zero_iff _ _).mp hc
      rw [if_pos hc, xorBlock_eq_refXor hZ hV.1, gf_refXor _ _ (by rw [hZ, hV.1]), hb, hgV]
      simp only [if_true, map_pow, AdjoinRoot.mk_X]
    · have hb : bitAt x (8 * i + j) = false := by
        rw [hbit]
        by_contra hcc
        rw [Bool.not_eq_false] at hcc
        exact hc ((and_shift_ne_zero_iff _ _).mpr hcc)
      rw [if_neg hc, hb]
      simp only [Bool.false_eq_true, if_false, map_zero, zero_mul, add_zero]

theorem gFieldMultiply_inner_inv (x y : List Nat) (i : Nat) (j : Nat) (hj : j ≤ 8)
    (st : List Nat × List Nat)
    (h : st.1.length = 16 ∧ IsBlock st.2 ∧
      gf st.2 = AdjoinRoot.root gcmPoly ^ (8 * i) * gf y ∧
      gf st.1 = AdjoinRoot.mk gcmPoly
        (∑ t ∈ Finset.range (8 * i), if bitAt x t then Polynomial.X ^ t else 0) * gf y) :
    ((List.range j).foldl (gFieldMultiplyStep x i) st).1.length = 16 ∧
      IsBlock ((List.range j).foldl (gFieldMultiplyStep x i) st).2 ∧
      gf ((List.range j).foldl (gFieldMultiplyStep x i) st).2 =
        AdjoinRoot.root gcmPoly ^ (8 * i + j) * gf y ∧
      gf ((List.range j).foldl (gFieldMultiplyStep x i) st).1 = AdjoinRoot.mk gcmPoly
        (∑ t ∈ Finset.range (8 * i + j), if bitAt x t then Polynomial.X ^ t else 0) *
          gf y := by
  induction j with
  | zero => simpa using h
  | succ j ih =>
    rw [List.range_succ, List.foldl_append]
    exact gFieldMultiplyStep_inv x y i j (by omega) _ (ih (by omega))

theorem gFieldMultiply_outer_inv (x y : List Nat) (hy : IsBlock y) (n : Nat) (hn : n ≤ 16) :
    ((List.range n).foldl (fun st i => (List.range 8).foldl (gFieldMultiplyStep x i) st)
        (zeros 16, y)).1.length = 16 ∧
      IsBlock ((List.range n).foldl
        (fun st i => (List.range 8).foldl (gFieldMultiplyStep x i) st) (zeros 16, y)).2 ∧
      gf ((List.range n).foldl
        (fun st i => (List.range 8).foldl (gFieldMultiplyStep x i) st) (zeros 16, y)).2 =
        AdjoinRoot.root gcmPoly ^ (8 * n) * gf y ∧
      gf ((List.range n).foldl
        (fun st i => (List.range 8).foldl (gFieldMultiplyStep x i) st) (zeros 16, y)).1 =
        AdjoinRoot.mk gcmPoly
          (∑ t ∈ Finset.range (8 * n), if bitAt x t then Polynomial.X ^ t else 0) * gf y := by
  induction n with
  | zero =>
    refine ⟨by simp [zeros], hy, by simp, ?_⟩
    simp only [List.range_zero, List.foldl_nil, Nat.mul_zero, Finset.range_zero,
      Finset.sum_empty, map_zero, zero_mul]
    exact gf_zeros
  | succ n ih =>
    rw [List.range_succ n, List.foldl_append]
    exact gFieldMultiply_inner_inv x y n 8 (Nat.le_refl _) _ (ih (by omega))

/-- The function `gFieldMultiply` leaves in `ghashTmp` the product of its arguments in
`GF(2)[x] / (x^128 + x^7 + x^2 + x + 1)`. -/
theorem gf_gFieldMultiply (x y : List Nat) (hy : IsBlock y) :
    gf (gFieldMultiply x y).1 = gf x * gf y := by
  have h := (gFieldMultiply_outer_inv x y hy 16 (Nat.le_refl _)).2.2.2
  unfold gFieldMultiply
  rw [readBlock_zero_of_length hy.1]
  exact h

/-! ## One flipped bit -/

theorem flipBit_length (l : List Nat) (q r : Nat) : (flipBit l q r).length = l.length := by
  simp [flipBit]

theorem flipBit_getD (l : List Nat) (q r i : Nat) (hq : q < l.length) :
    (flipBit l q r).getD i 0 = if q = i then l.getD i 0 ^^^ 2 ^ r else l.getD i 0 := by
  unfold flipBit
  rw [List.getD_eq_getElem?_getD, List.getElem?_set]
  by_cases h : q = i
  · subst h
    simp [hq]
  · simp [h, List.getD_eq_getElem?_getD]

theorem bitAt_flipBit (B : List Nat) (q r k : Nat) (hq : q < B.length) (hr : r < 8) :
    bitAt (flipBit B q r) k = (bitAt B k ^^ decide (k = 8 * q + (7 - r))) := by
  unfold bitAt
  rw [flipBit_getD B q r _ hq]
  by_cases h : q = k / 8
  · rw [if_pos h, testBit_xor_two_pow]
    congr 1
    apply decide_eq_decide.mpr
    omega
  · rw [if_neg h]
    have : decide (k = 8 * q + (7 - r)) = false := by
      apply decide_eq_false
      omega
    rw [this, Bool.xor_false]

theorem toPoly_flipBit (B : List Nat) (q r : Nat) (hq : q < B.length) (hq16 : q < 16)
    (hr : r < 8) :
    toPoly (flipBit B q r) = toPoly B + Polynomial.X ^ (8 * q + (7 - r)) := by
  unfold toPoly
  have h1 : ∀ k ∈ Finset.range 128,
      (if bitAt (flipBit B q r) k = true then (Polynomial.X : Polynomial (ZMod 2)) ^ k else 0) =
      (if bitAt B k = true then Polynomial.X ^ k else 0) +
        (if 8 * q + (7 - r) = k then Polynomial.X ^ (8 * q + (7 - r)) else 0) := by
    intro k _
    rw [bitAt_flipBit B q r k hq hr, ite_xor_poly]
    congr 1
    by_cases hk : k = 8 * q + (7 - r)
    · subst hk
      simp
    · simp [hk, Ne.symm hk]
  rw [Finset.sum_congr rfl h1, Finset.sum_add_distrib, Finset.sum_ite_eq (Finset.range 128)]
  rw [if_pos (Finset.mem_range.mpr (by omega))]

theorem gf_flipBit (B : List Nat) (q r : Nat) (hq : q < B.length) (hq16 : q < 16)
    (hr : r < 8) :
    gf (flipBit B q r) = gf B + AdjoinRoot.root gcmPoly ^ (8 * q + (7 - r)) := by
  unfold gf
  rw [toPoly_flipBit B q r hq hq16 hr, map_add, map_pow, AdjoinRoot.mk_X]

/-- The fold from any accumulator, against the fold from the zero block. -/
theorem gf_refFold {H : List Nat} (hH : IsBlock H) : ∀ (bs : List (List Nat)) (Y : List Nat),
    Y.length = 16 → (∀ B ∈ bs, B.length = 16) →
    gf (refFold H Y bs) = gf Y * gf H ^ bs.length + gf (refFold H (zeros 16) bs) := by
  intro bs
  induction bs with
  | nil =>
    intro Y _ _
    rw [refFold_nil, refFold_nil, gf_zeros]
    simp
  | cons B t ih =>
    intro Y hY hB
    have hB0 : B.length = 16 := hB B (List.mem_cons_self _ _)
    have ht : ∀ B' ∈ t, B'.length = 16 := fun B' h' => hB B' (List.mem_cons_of_mem _ h')
    rw [refFold_cons, refFold_cons, ih _ (gFieldMultiply_fst_length _ _) ht,
      ih (gFieldMultiply (refXor (zeros 16) B) H).1 (gFieldMultiply_fst_length _ _) ht,
      gf_gFieldMultiply _ _ hH, gf_gFieldMultiply _ _ hH, gf_refXor _ _ (by rw [hY, hB0]),
      gf_refXor _ _ (by rw [hB0]; simp [zeros]), gf_zeros, List.length_cons]
    ring

theorem flipBit_take_of_lt (X : List Nat) (q r : Nat) (hq : q < 16) :
    (flipBit X q r).take 16 = flipBit (X.take 16) q r := by
  unfold flipBit
  rw [List.set_take]
  congr 2
  rw [List.getD_eq_getElem?_getD, List.getD_eq_getElem?_getD, List.getElem?_take_of_lt hq]

theorem flipBit_drop_of_lt (X : List Nat) (q r : Nat) (hq : q < 16) :
    (flipBit X q r).drop 16 = X.drop 16 := by
  unfold flipBit
  exact List.drop_set_of_lt _ _ hq

theorem flipBit_take_of_ge (X : List Nat) (q r : Nat) (hq : 16 ≤ q) :
    (flipBit X q r).take 16 = X.take 16 := by
  unfold flipBit
  rw [List.set_take, List.set_eq_of_length_le]
  rw [List.length_take]
  omega

theorem flipBit_drop (X : List Nat) (n q r : Nat) (hq : n ≤ q) :
    (flipBit X q r).drop n = flipBit (X.drop n) (q - n) r := by
  unfold flipBit
  rw [List.drop_set, if_neg (by omega)]
  congr 2
  rw [List.getD_eq_getElem?_getD, List.getD_eq_getElem?_getD, List.getElem?_drop]
  congr 2
  omega

theorem flipBit_drop_of_ge (X : List Nat) (q r : Nat) (hq : 16 ≤ q) :
    (flipBit X q r).drop 16 = flipBit (X.drop 16) (q - 16) r :=
  flipBit_drop X 16 q r hq

/-- Flipping one bit of the hashed string moves the hash by
`x^e · H^m`, with `m` the number of blocks from the flipped one to the end. -/
theorem gf_refFold_flipBit {H : List Nat} (hH : IsBlock H) (r : Nat) (hr : r < 8) :
    ∀ (n : Nat) (X Y : List Nat) (q : Nat),
    16 * n ≤ X.length → q < 16 * n → Y.length = 16 →
    gf (refFold H Y (chunks n (flipBit X q r))) =
      gf (refFold H Y (chunks n X)) +
        AdjoinRoot.root gcmPoly ^ (8 * (q % 16) + (7 - r)) * gf H ^ (n - q / 16) := by
  intro n
  induction n with
  | zero => intro X Y q _ hq _; omega
  | succ n ih =>
    intro X Y q hX hq hY
    have hB0 : (X.take 16).length = 16 := by rw [List.length_take]; omega
    have ht : ∀ B' ∈ chunks n (X.drop 16), B'.length = 16 :=
      chunks_block_length n _ (by rw [List.length_drop]; omega)
    rw [chunks, chunks, refFold_cons, refFold_cons]
    by_cases hlt : q < 16
    · rw [flipBit_take_of_lt X q r hlt, flipBit_drop_of_lt X q r hlt,
        gf_refFold hH _ _ (gFieldMultiply_fst_length _ _) ht,
        gf_refFold hH _ (gFieldMultiply (refXor Y (X.take 16)) H).1
          (gFieldMultiply_fst_length _ _) ht,
        gf_gFieldMultiply _ _ hH, gf_gFieldMultiply _ _ hH,
        gf_refXor _ _ (by rw [hY, flipBit_length, hB0]), gf_refXor _ _ (by rw [hY, hB0]),
        gf_flipBit _ q r (by rw [hB0]; exact hlt) hlt hr, chunks_length]
      have h1 : q % 16 = q := Nat.mod_eq_of_lt hlt
      have h2 : n + 1 - q / 16 = n + 1 := by
        rw [Nat.div_eq_of_lt hlt]; rfl
      rw [h1, h2]
      ring
    · rw [flipBit_take_of_ge X q r (by omega), flipBit_drop_of_ge X q r (by omega),
        ih (X.drop 16) _ (q - 16) (by rw [List.length_drop]; omega) (by omega)
          (gFieldMultiply_fst_length _ _)]
      have h1 : (q - 16) % 16 = q % 16 := by omega
      have h2 : n - (q - 16) / 16 = n + 1 - q / 16 := by omega
      rw [h1, h2]

/-- When the subkey is not the zero block, no power of it times a power of
`x` vanishes. -/
theorem root_pow_mul_gf_pow_ne_zero {H : List Nat} (hH : IsBlock H) (hne : H ≠ zeros 16)
    (e m : Nat) (hm : m ≠ 0) : AdjoinRoot.root gcmPoly ^ e * gf H ^ m ≠ 0 := by
  intro h
  apply hne
  apply eq_zeros_of_toPoly_eq_zero hH
  rw [← gf_eq_zero_iff]
  unfold gf at h ⊢
  rw [← AdjoinRoot.mk_X, ← map_pow, ← map_pow, ← map_mul, AdjoinRoot.mk_eq_zero] at h
  rw [AdjoinRoot.mk_eq_zero]
  exact gcmPoly_dvd_of_dvd_X_pow_mul_pow h hm

theorem flipBit_append_left (a b : List Nat) (q r : Nat) (hq : q < a.length) :
    flipBit (a ++ b) q r = flipBit a q r ++ b := by
  unfold flipBit
  rw [List.set_append_left _ _ hq, List.getD_append _ _ _ _ hq]

theorem flipBit_append_right (a b : List Nat) (q r : Nat) :
    flipBit (a ++ b) (a.length + q) r = a ++ flipBit b q r := by
  unfold flipBit
  rw [List.set_append_right _ _ (by omega), Nat.add_sub_cancel_left]
  congr 2
  rw [List.getD_eq_getElem?_getD, List.getD_eq_getElem?_getD,
    List.getElem?_append_right (by omega), Nat.add_sub_cancel_left]

theorem refPad_flipBit (A : List Nat) (q r : Nat) (hq : q < A.length) :
    refPad (flipBit A q r) = flipBit (refPad A) q r := by
  unfold refPad
  rw [flipBit_append_left _ _ _ _ hq, flipBit_length]

/-- The string hashed by the tag, with one bit flipped. -/
theorem gf_refFold_refBlocks_flipBit {H : List Nat} (hH : IsBlock H) (X : List Nat) (q r : Nat)
    (hX : X.length % 16 = 0) (hq : q < X.length) (hr : r < 8) :
    ∃ e m : Nat, m ≠ 0 ∧
      gf (refFold H (zeros 16) (refBlocks (flipBit X q r))) =
        gf (refFold H (zeros 16) (refBlocks X)) + AdjoinRoot.root gcmPoly ^ e * gf H ^ m := by
  refine ⟨8 * (q % 16) + (7 - r), X.length / 16 - q / 16, by omega, ?_⟩
  unfold refBlocks
  rw [flipBit_length]
  exact gf_refFold_flipBit hH r hr (X.length / 16) X (zeros 16) q (by omega) (by omega)
    (by simp [zeros])

theorem gf_refS_flipBit_AAD {H : List Nat} (hH : IsBlock H) (A C : List Nat) (q r : Nat)
    (hq : q < A.length) (hr : r < 8) :
    ∃ e m : Nat, m ≠ 0 ∧
      gf (refS H (flipBit A q r) C) = gf (refS H A C) +
        AdjoinRoot.root gcmPoly ^ e * gf H ^ m := by
  have hA := refPad_length A
  have hC := refPad_length C
  have hlen : (refPad A).length ≤ (refPad A).length := Nat.le_refl _
  have hqA : q < (refPad A).length := by
    rw [hA]; omega
  have hX : refPad (flipBit A q r) ++ refPad C ++
      refLengthBlock (flipBit A q r).length C.length =
      flipBit (refPad A ++ refPad C ++ refLengthBlock A.length C.length) q r := by
    rw [refPad_flipBit A q r hq, flipBit_length, List.append_assoc, List.append_assoc,
      flipBit_append_left _ _ _ _ hqA]
  unfold refS
  rw [hX]
  apply gf_refFold_refBlocks_flipBit hH _ q r _ _ hr
  · rw [List.length_append, List.length_append, hA, hC, refLengthBlock_length]
    omega
  · rw [List.length_append, List.length_append]
    omega

theorem gf_refS_flipBit_CDATA {H : List Nat} (hH : IsBlock H) (A C : List Nat) (q r : Nat)
    (hq : q < C.length) (hr : r < 8) :
    ∃ e m : Nat, m ≠ 0 ∧
      gf (refS H A (flipBit C q r)) = gf (refS H A C) +
        AdjoinRoot.root gcmPoly ^ e * gf H ^ m := by
  have hA := refPad_length A
  have hC := refPad_length C
  have hqC : q < (refPad C).length := by
    rw [hC]; omega
  have hX : refPad A ++ refPad (flipBit C q r) ++
      refLengthBlock A.length (flipBit C q r).length =
      flipBit (refPad A ++ refPad C ++ refLengthBlock A.length C.length)
        ((refPad A).length + q) r := by
    rw [refPad_flipBit C q r hq, flipBit_length, List.append_assoc, List.append_assoc,
      flipBit_append_right, flipBit_append_left _ _ _ _ hqC]
  unfold refS
  rw [hX]
  apply gf_refFold_refBlocks_flipBit hH _ _ r _ _ hr
  · rw [List.length_append, List.length_append, hA, hC, refLengthBlock_length]
    omega
  · rw [List.length_append, List.length_append]
    omega

/-- With a subkey other than the zero block, one flipped bit changes the
hash. -/
theorem refS_ne_of_gf_shift {H : List Nat} (hH : IsBlock H) (hne : H ≠ zeros 16)
    {S S' : List Nat} (h : ∃ e m : Nat, m ≠ 0 ∧
      gf S' = gf S + AdjoinRoot.root gcmPoly ^ e * gf H ^ m) : S' ≠ S := by
  obtain ⟨e, m, hm, hgf⟩ := h
  intro heq
  rw [heq] at hgf
  have : AdjoinRoot.root gcmPoly ^ e * gf H ^ m = 0 := by
    have h2 := hgf.symm
    rwa [add_right_eq_self] at h2
  exact root_pow_mul_gf_pow_ne_zero hH hne e m hm this

/-! ## The toy cipher is a block cipher -/

theorem toyCipher_isBlockCipher : IsBlockCipher toyCipher := by
  intro b k
  refine ⟨by simp [toyCipher], ?_⟩
  intro x hx
  simp only [toyCipher, List.mem_map] at hx
  obtain ⟨i, _, rfl⟩ := hx
  exact Nat.mod_lt _ (by norm_num)

theorem IsBlockCipher.length {E : List Nat → List Nat → List Nat} (hE : IsBlockCipher E) :
    ∀ b k, (E b k).length = 16 := fun b k => (hE b k).1

theorem refCipher_length {E : List Nat → List Nat → List Nat}
    (hE : ∀ b k, (E b k).length = 16) (key J0 P : List Nat) (n : Nat) (hP : P.length = 16 * n) :
    (refCipher E key J0 P).length = 16 * n := by
  rw [← refCTR_incr32_eq_refCipher]
  exact refCTR_length hE key _ P n hP

/-! ## Encryption of padded data -/

/-- What `gcmEncryptPadded` leaves behind once its three checks are passed. -/
theorem gcmEncryptPadded_run {E : List Nat → List Nat → List Nat} (hE : IsBlockCipher E)
    (workspace key IV ADATA P cdata tag : List Nat) (n : Nat)
    (hIV : IV.length = 12) (hP : P.length = 16 * n)
    (hne : ¬ (P = [] ∧ ADATA = [])) (hc : cdata.length = P.length) (ht : tag.length = 16) :
    gcmEncryptPadded E workspace key IV P P.length ADATA ADATA.length (some cdata) tag =
      { success := true
        CDATA := some (refEncrypt E key IV ADATA P).1
        tag := (refEncrypt E key IV ADATA P).2
        workspace := zeros workspace.length } := by
  have hlen := hE.length
  have hJ := refJ0_length hIV
  have h1 : ¬ (P.length &&& (AES128GCM_BLOCK_SIZE - 1) ≠ 0) := by
    simp only [AES128GCM_BLOCK_SIZE, Nat.reduceSub, and_15]
    omega
  have h2 : ¬ (P.length = 0 ∧ ADATA.length = 0) := by
    simpa [List.length_eq_zero] using hne
  have hC : generateCDATAPadded E (refJ0 IV) P P.length cdata key =
      refCipher E key (refJ0 IV) P := by
    have := generateCDATAPadded_eq hlen (refJ0 IV) P cdata key n hJ hP (by rw [hc, hP])
    rwa [← hP] at this
  have hCl : (refCipher E key (refJ0 IV) P).length = P.length := by
    rw [refCipher_length hlen key _ P n hP, hP]
  have hT : generateTag E key (generateAuthKey E key) ADATA ADATA.length
      (refCipher E key (refJ0 IV) P) P.length tag (refJ0 IV) =
      refTag E key IV ADATA (refCipher E key (refJ0 IV) P) := by
    rw [generateTag_eq hlen _ _ _ _ _ _ _ _ ht hJ, ← hCl, generateTagS_eq_refS]
    rfl
  simp only [gcmEncryptPadded, if_neg h1, if_neg h2, generateICB_eq_refJ0 hIV, hC, hT,
    refEncrypt]

/-- C1 (amended): for every block cipher, key, 12-byte IV, AAD of 0..255 bytes
and plaintext of `16 * n` bytes (`n ≤ 15`), not both empty, with a non-null
ciphertext buffer, the buffers of the call not overlapping one another,
`gcmEncryptPadded` returns true and its outputs are those of the reference
composition: `J0 = IV ‖ 00 00 00 01`, `H = E_k(0^128)`, ciphertext block `i` is
`P_i XOR E_k(incr32^(i+1)(J0))`, and the tag is `E_k(J0) XOR S` with `S` the
GHASH fold under `H` from the zero block over the padded AAD, the ciphertext
and the length block. -/
theorem gcmEncryptPadded_eq_reference (E : List Nat → List Nat → List Nat)
    (workspace key IV ADATA P cdata tag : List Nat) (n : Nat)
    (hE : IsBlockCipher E) (hIV : IV.length = 12) (_hA : ADATA.length ≤ 255)
    (hP : P.length = 16 * n) (_hn : n ≤ 15)
    (hne : ¬ (P = [] ∧ ADATA = [])) (hc : cdata.length = P.length) (ht : tag.length = 16) :
    gcmEncryptPadded E workspace key IV P P.length ADATA ADATA.length (some cdata) tag =
      { success := true
        CDATA := some (refEncrypt E key IV ADATA P).1
        tag := (refEncrypt E key IV ADATA P).2
        workspace := zeros workspace.length } :=
  gcmEncryptPadded_run hE workspace key IV ADATA P cdata tag n hIV hP hne hc ht

theorem gcmEncryptPadded_eq_reference_witness :
    gcmEncryptPadded toyCipher [7, 7] (List.range 16) (List.range 12)
        (List.replicate 32 5) (List.replicate 32 5).length [1, 2, 3] [1, 2, 3].length
        (some (List.replicate 32 0)) (List.replicate 16 0) =
      { success := true
        CDATA := some (refEncrypt toyCipher (List.range 16) (List.range 12) [1, 2, 3]
          (List.replicate 32 5)).1
        tag := (refEncrypt toyCipher (List.range 16) (List.range 12) [1, 2, 3]
          (List.replicate 32 5)).2
        workspace := zeros [7, 7].length } :=
  gcmEncryptPadded_eq_reference toyCipher [7, 7] (List.range 16) (List.range 12) [1, 2, 3]
    (List.replicate 32 5) (List.replicate 32 0) (List.replicate 16 0) 2
    toyCipher_isBlockCipher (by decide) (by decide) (by decide) (by decide) (by decide)
    (by decide) (by decide)

/-! ## Decryption -/

theorem generateTag_zero_length {E : List Nat → List Nat → List Nat} (hE : IsBlockCipher E)
    (key H A C ICB : List Nat) (a c : Nat) :
    (generateTag E key H A a C c (zeros AES128GCM_TAG_SIZE) ICB).length = 16 :=
  generateTag_length hE.length key H A C _ ICB a c (by simp [zeros])

/-- The flag returned by `gcmDecrypt`. -/
theorem gcmDecrypt_success {E : List Nat → List Nat → List Nat} (hE : IsBlockCipher E)
    (workspace key IV C A mtag pdata : List Nat) (clen alen : Nat) (hm : mtag.length = 16) :
    (gcmDecrypt E workspace key IV C clen A alen mtag pdata).success = true ↔
      ¬ (clen = 0 ∧ alen = 0) ∧ clen % 16 = 0 ∧
        mtag = generateTag E key (generateAuthKey E key) A alen C clen
          (zeros AES128GCM_TAG_SIZE) (generateICB IV) := by
  unfold gcmDecrypt
  by_cases h0 : clen = 0 ∧ alen = 0
  · simp [h0]
  · rw [if_neg h0]
    by_cases h1 : clen &&& (AES128GCM_BLOCK_SIZE - 1) ≠ 0
    · rw [if_pos h1]
      simp only [AES128GCM_BLOCK_SIZE, Nat.reduceSub, and_15] at h1
      simp [h1]
    · rw [if_neg h1]
      simp only [AES128GCM_BLOCK_SIZE, Nat.reduceSub, and_15, ne_eq, not_not] at h1
      simp only [decide_eq_true_eq]
      rw [eq_comm, checkTag_eq_zero_iff (generateTag_zero_length hE _ _ _ _ _ _ _) hm]
      constructor
      · intro h
        exact ⟨h0, h1, h.symm⟩
      · intro h
        exact h.2.2.symm

/-- What `gcmDecrypt` leaves behind once its two checks are passed. -/
theorem gcmDecrypt_run {E : List Nat → List Nat → List Nat} (hE : IsBlockCipher E)
    (workspace key IV C A mtag pdata : List Nat) (n : Nat)
    (hIV : IV.length = 12) (hC : C.length = 16 * n)
    (hne : ¬ (C = [] ∧ A = [])) (hp : pdata.length = C.length) (hm : mtag.length = 16) :
    gcmDecrypt E workspace key IV C C.length A A.length mtag pdata =
      { success := decide (mtag = refTag E key IV A C)
        PDATA := refCipher E key (refJ0 IV) C
        workspace := zeros workspace.length } := by
  have hlen := hE.length
  have hJ := refJ0_length hIV
  have h1 : ¬ (C.length &&& (AES128GCM_BLOCK_SIZE - 1) ≠ 0) := by
    simp only [AES128GCM_BLOCK_SIZE, Nat.reduceSub, and_15]
    omega
  have h2 : ¬ (C.length = 0 ∧ A.length = 0) := by
    simpa [List.length_eq_zero] using hne
  have hP : generateCDATAPadded E (refJ0 IV) C C.length pdata key =
      refCipher E key (refJ0 IV) C := by
    have := generateCDATAPadded_eq hlen (refJ0 IV) C pdata key n hJ hC (by rw [hp, hC])
    rwa [← hC] at this
  have hT : generateTag E key (generateAuthKey E key) A A.length C C.length
      (zeros AES128GCM_TAG_SIZE) (refJ0 IV) = refTag E key IV A C := by
    rw [generateTag_eq hlen _ _ _ _ _ _ _ _ (by simp [zeros]) hJ, generateTagS_eq_refS]
    rfl
  have hlenT : (refTag E key IV A C).length = 16 := by
    rw [← hT]
    exact generateTag_zero_length hE _ _ _ _ _ _ _
  have hdec : decide (0 = checkTag (refTag E key IV A C) mtag) =
      decide (mtag = refTag E key IV A C) := by
    apply decide_eq_decide.mpr
    rw [eq_comm, checkTag_eq_zero_iff hlenT hm, eq_comm]
  simp only [gcmDecrypt, if_neg h1, if_neg h2, generateICB_eq_refJ0 hIV, hP, hT, hdec]

/-- C2 (amended): round trip of the padded variant, each call with buffers
that do not overlap one another.  For every block cipher, key,
IV, AAD of 0..255 bytes and block-aligned plaintext `P` of 0..240 bytes, not
both empty: `gcmEncryptPadded` succeeds with some ciphertext `C` and tag `T`,
and `gcmDecrypt` on `(key, IV, C, len C, AAD, T)` returns true with plaintext
output `P`. -/
theorem gcmDecrypt_gcmEncryptPadded (E : List Nat → List Nat → List Nat)
    (ws1 ws2 key IV ADATA P cdata tag pdata : List Nat) (n : Nat)
    (hE : IsBlockCipher E) (hIV : IV.length = 12) (_hA : ADATA.length ≤ 255)
    (hP : P.length = 16 * n) (_hn : n ≤ 15) (hne : ¬ (P = [] ∧ ADATA = []))
    (hc : cdata.length = P.length) (ht : tag.length = 16) (hp : pdata.length = P.length) :
    ∃ C T : List Nat,
      gcmEncryptPadded E ws1 key IV P P.length ADATA ADATA.length (some cdata) tag =
        { success := true, CDATA := some C, tag := T, workspace := zeros ws1.length } ∧
      gcmDecrypt E ws2 key IV C C.length ADATA ADATA.length T pdata =
        { success := true, PDATA := P, workspace := zeros ws2.length } := by
  have hlen := hE.length
  have hJ := refJ0_length hIV
  refine ⟨(refEncrypt E key IV ADATA P).1, (refEncrypt E key IV ADATA P).2,
    gcmEncryptPadded_run hE ws1 key IV ADATA P cdata tag n hIV hP hne hc ht, ?_⟩
  have hCl : (refCipher E key (refJ0 IV) P).length = 16 * n :=
    refCipher_length hlen key _ P n hP
  have hne2 : ¬ (refCipher E key (refJ0 IV) P = [] ∧ ADATA = []) := by
    rintro ⟨h1, h2⟩
    apply hne
    refine ⟨?_, h2⟩
    apply List.length_eq_zero.mp
    rw [h1] at hCl
    simp only [List.length_nil] at hCl
    omega
  have hTl : (refTag E key IV ADATA (refCipher E key (refJ0 IV) P)).length = 16 := by
    unfold refTag
    rw [refXor_length] <;> rw [hlen]
    exact (refFold_length _ _ _ (by simp)).symm
  simp only [refEncrypt]
  rw [gcmDecrypt_run hE ws2 key IV _ ADATA _ pdata n hIV hCl hne2 (by rw [hp, hP, hCl]) hTl]
  simp only [decide_True]
  congr 1
  rw [← refCTR_incr32_eq_refCipher, ← refCTR_incr32_eq_refCipher]
  exact refCTR_involutive hlen key _ P n hP

theorem gcmDecrypt_gcmEncryptPadded_witness :
    ∃ C T : List Nat,
      gcmEncryptPadded toyCipher [7] (List.range 16) (List.range 12) (List.replicate 16 9)
          (List.replicate 16 9).length [4, 5] [4, 5].length (some (List.replicate 16 0))
          (List.replicate 16 0) =
        { success := true, CDATA := some C, tag := T, workspace := zeros [7].length } ∧
      gcmDecrypt toyCipher [8] (List.range 16) (List.range 12) C C.length [4, 5] [4, 5].length T
          (List.replicate 16 1) =
        { success := true, PDATA := List.replicate 16 9, workspace := zeros [8].length } :=
  gcmDecrypt_gcmEncryptPadded toyCipher [7] [8] (List.range 16) (List.range 12) [4, 5]
    (List.replicate 16 9) (List.replicate 16 0) (List.replicate 16 0) (List.replicate 16 1) 1
    toyCipher_isBlockCipher (by decide) (by decide) (by decide) (by decide) (by decide)
    (by decide) (by decide) (by decide)

/-- C4 (amended): on a call whose buffers do not overlap one another,
`gcmDecrypt` returns true if and only if the ciphertext length and the
AAD length are not both zero, the ciphertext length is a multiple of 16, and
the supplied 16-byte tag equals, byte for byte, the tag recomputed by
`generateTag` from `(key, H, AAD, ciphertext, J0)`. -/
theorem gcmDecrypt_true_iff (E : List Nat → List Nat → List Nat)
    (workspace key IV CDATA ADATA messageTag PDATA : List Nat) (CDATALength ADATALength : Nat)
    (hE : IsBlockCipher E) (hm : messageTag.length = 16) :
    (gcmDecrypt E workspace key IV CDATA CDATALength ADATA ADATALength messageTag
        PDATA).success = true ↔
      ¬ (CDATALength = 0 ∧ ADATALength = 0) ∧ CDATALength % 16 = 0 ∧
        messageTag = generateTag E key (generateAuthKey E key) ADATA ADATALength CDATA
          CDATALength (zeros AES128GCM_TAG_SIZE) (generateICB IV) :=
  gcmDecrypt_success hE workspace key IV CDATA ADATA messageTag PDATA CDATALength ADATALength hm

theorem gcmDecrypt_true_iff_witness :
    (gcmDecrypt toyCipher [] (List.range 16) (List.range 12) (List.replicate 16 3) 16 [1] 1
        (List.replicate 16 0) (List.replicate 16 0)).success = true ↔
      ¬ (16 = 0 ∧ 1 = 0) ∧ 16 % 16 = 0 ∧
        List.replicate 16 0 = generateTag toyCipher (List.range 16)
          (generateAuthKey toyCipher (List.range 16)) [1] 1 (List.replicate 16 3) 16
          (zeros AES128GCM_TAG_SIZE) (generateICB (List.range 12)) :=
  gcmDecrypt_true_iff toyCipher [] (List.range 16) (List.range 12) (List.replicate 16 3) [1]
    (List.replicate 16 0) (List.replicate 16 0) 16 1 toyCipher_isBlockCipher (by decide)

/-- C5: `gcmEncryptPadded` returns false if and only if the ciphertext buffer
is null, or the plaintext length is not a multiple of 16, or plaintext length
and AAD length are both zero; on every other input it returns true, so no
length is rejected as too large. -/
theorem gcmEncryptPadded_false_iff (E : List Nat → List Nat → List Nat)
    (workspace key IV PDATAPadded ADATA tag : List Nat) (PDATALength ADATALength : Nat)
    (CDATA : Option (List Nat)) :
    (gcmEncryptPadded E workspace key IV PDATAPadded PDATALength ADATA ADATALength CDATA
        tag).success = false ↔
      CDATA = none ∨ PDATALength % 16 ≠ 0 ∨ (PDATALength = 0 ∧ ADATALength = 0) := by
  cases CDATA with
  | none => simp [gcmEncryptPadded]
  | some cdata =>
    simp only [gcmEncryptPadded, AES128GCM_BLOCK_SIZE, Nat.reduceSub, and_15]
    by_cases h1 : PDATALength % 16 ≠ 0
    · simp [h1]
    · rw [if_neg h1]
      by_cases h2 : PDATALength = 0 ∧ ADATALength = 0
      · simp [h2]
      · rw [if_neg h2]
        simp [h1, h2]

/-! ## Tampering with the tag -/

theorem xor_two_pow_ne (x r : Nat) : x ^^^ 2 ^ r ≠ x := by
  intro h
  have h1 : x ^^^ (x ^^^ 2 ^ r) = x ^^^ x := by rw [h]
  rw [← Nat.xor_assoc, Nat.xor_self, Nat.zero_xor] at h1
  exact absurd h1.symm (Nat.ne_of_lt (Nat.two_pow_pos r))

theorem flipBit_ne {l : List Nat} {q : Nat} (r : Nat) (hq : q < l.length) :
    flipBit l q r ≠ l := by
  intro h
  have h1 : (flipBit l q r)[q]? = l[q]? := by rw [h]
  simp only [flipBit, List.getElem?_set, if_pos hq, if_true, List.getD_eq_getElem?_getD,
    List.getElem?_eq_getElem hq, Option.getD_some, Option.some.injEq] at h1
  exact xor_two_pow_ne _ _ h1

/-- C8 (amended): plaintext is released before authentication.  For every call
of `gcmDecrypt` that passes the two checks and whose buffers do not overlap
one another, whatever tag and AAD are supplied, block `i` of the
plaintext output is `C_i XOR E_k(incr32^(i+1)(J0))`; the buffer holds these
bytes also when the tag check fails, and only the workspace is cleared. -/
theorem gcmDecrypt_plaintext_released (E : List Nat → List Nat → List Nat)
    (workspace key IV CDATA ADATA messageTag PDATA : List Nat) (n : Nat)
    (hE : IsBlockCipher E) (hIV : IV.length = 12) (hC : CDATA.length = 16 * n)
    (hne : ¬ (CDATA = [] ∧ ADATA = [])) (hp : PDATA.length = CDATA.length)
    (hm : messageTag.length = 16) :
    (∀ i, i < n →
      (((gcmDecrypt E workspace key IV CDATA CDATA.length ADATA ADATA.length messageTag
          PDATA).PDATA).drop (16 * i)).take 16 =
        refXor ((CDATA.drop (16 * i)).take 16) (E (incr32^[i + 1] (refJ0 IV)) key)) ∧
    (gcmDecrypt E workspace key IV CDATA CDATA.length ADATA ADATA.length messageTag
        PDATA).PDATA.length = CDATA.length ∧
    ((gcmDecrypt E workspace key IV CDATA CDATA.length ADATA ADATA.length messageTag
        PDATA).success = false →
      gcmDecrypt E workspace key IV CDATA CDATA.length ADATA ADATA.length messageTag PDATA =
        { success := false
          PDATA := refCipher E key (refJ0 IV) CDATA
          workspace := zeros workspace.length }) := by
  have hrun := gcmDecrypt_run hE workspace key IV CDATA ADATA messageTag PDATA n hIV hC hne hp hm
  have hlen := hE.length
  refine ⟨?_, ?_, ?_⟩
  · intro i hi
    rw [hrun, ← refCTR_incr32_eq_refCipher]
    simp only
    rw [refCTR_block hlen key _ CDATA n i hC hi, ← Function.iterate_succ_apply]
  · rw [hrun]
    simp only
    rw [refCipher_length hlen key _ CDATA n hC, hC]
  · intro hf
    rw [hrun] at hf ⊢
    simp only at hf
    simp only [hf]

theorem gcmDecrypt_plaintext_released_witness :
    (∀ i, i < 1 →
      (((gcmDecrypt toyCipher [5] (List.range 16) (List.range 12) (List.replicate 16 3)
          (List.replicate 16 3).length [1] [1].length (List.replicate 16 0)
          (List.replicate 16 0)).PDATA).drop (16 * i)).take 16 =
        refXor (((List.replicate 16 3).drop (16 * i)).take 16)
          (toyCipher (incr32^[i + 1] (refJ0 (List.range 12))) (List.range 16))) ∧
    (gcmDecrypt toyCipher [5] (List.range 16) (List.range 12) (List.replicate 16 3)
        (List.replicate 16 3).length [1] [1].length (List.replicate 16 0)
        (List.replicate 16 0)).PDATA.length = (List.replicate 16 3).length ∧
    ((gcmDecrypt toyCipher [5] (List.range 16) (List.range 12) (List.replicate 16 3)
        (List.replicate 16 3).length [1] [1].length (List.replicate 16 0)
        (List.replicate 16 0)).success = false →
      gcmDecrypt toyCipher [5] (List.range 16) (List.range 12) (List.replicate 16 3)
          (List.replicate 16 3).length [1] [1].length (List.replicate 16 0)
          (List.replicate 16 0) =
        { success := false
          PDATA := refCipher toyCipher (List.range 16) (refJ0 (List.range 12))
            (List.replicate 16 3)
          workspace := zeros [5].length }) :=
  gcmDecrypt_plaintext_released toyCipher [5] (List.range 16) (List.range 12)
    (List.replicate 16 3) [1] (List.replicate 16 0) (List.replicate 16 0) 1
    toyCipher_isBlockCipher (by decide) (by decide) (by decide) (by decide) (by decide)

/-- C10 (the code at the documented GMAC call): with `PDATA` and `CDATA` both
`NULL`, `PDATALength` 0 and any AAD, `gcmEncryptPadded` returns false and
leaves the tag buffer and the workspace as they were. -/
theorem gcmEncryptPadded_gmac_null (E : List Nat → List Nat → List Nat)
    (workspace key IV ADATA tag : List Nat) (ADATALength : Nat) :
    gcmEncryptPadded E workspace key IV [] 0 ADATA ADATALength none tag =
      { success := false, CDATA := none, tag := tag, workspace := workspace } := rfl

/-! ## Encryption of unpadded data -/

set_option maxRecDepth 100000 in
theorem roundUp16_uint8 : ∀ x < 256,
    ((x + AES128GCM_BLOCK_SIZE - 1) &&& (0xffff ^^^ (AES128GCM_BLOCK_SIZE - 1))) % 256 =
      (x + 15) / 16 * 16 % 256 := by
  decide

/-- The ciphertext buffer after `gcmEncrypt`: the plaintext XORed with the key
stream, followed by the bytes the caller left behind it. -/
theorem unpadded_buffer_length {E : List Nat → List Nat → List Nat}
    (hE : ∀ b k, (E b k).length = 16) (key ctr P cdata : List Nat)
    (hc : cdata.length = 16 * ((P.length + 15) / 16)) :
    (refXor P (keystream E key ctr ((P.length + 15) / 16)) ++ cdata.drop P.length).length =
      16 * ((P.length + 15) / 16) := by
  simp only [List.length_append, refXor, List.length_zipWith, keystream_length hE,
    List.length_drop, hc]
  omega

/-- What `gcmEncrypt` leaves behind once its three checks are passed. -/
theorem gcmEncrypt_run {E : List Nat → List Nat → List Nat} (hE : IsBlockCipher E)
    (workspace key IV ADATA P cdata tag : List Nat)
    (hIV : IV.length = 12) (hL : P.length < 240)
    (hne : ¬ (P = [] ∧ ADATA = [])) (hc : cdata.length = 16 * ((P.length + 15) / 16))
    (ht : tag.length = 16) :
    gcmEncrypt E workspace key IV P P.length ADATA ADATA.length (some cdata) tag =
      { success := true
        CDATA := some (refXor P (keystream E key (incr32 (refJ0 IV)) ((P.length + 15) / 16)) ++
          cdata.drop P.length)
        tag := refTag E key IV ADATA
          (refXor P (keystream E key (incr32 (refJ0 IV)) ((P.length + 15) / 16)) ++
            cdata.drop P.length)
        workspace := workspace } := by
  have hlen := hE.length
  have hJ := refJ0_length hIV
  have h2 : ¬ (P.length = 0 ∧ ADATA.length = 0) := by
    simpa [List.length_eq_zero] using hne
  have h3 : ¬ (P.length ≥ (256 - AES128GCM_BLOCK_SIZE) % 256) := by
    simp only [AES128GCM_BLOCK_SIZE]
    omega
  have hround : ((P.length + AES128GCM_BLOCK_SIZE - 1) &&&
      (0xffff ^^^ (AES128GCM_BLOCK_SIZE - 1))) % 256 = 16 * ((P.length + 15) / 16) := by
    rw [roundUp16_uint8 P.length (by omega)]
    omega
  have hC : generateCDATA E (refJ0 IV) P P.length cdata key =
      refXor P (keystream E key (incr32 (refJ0 IV)) ((P.length + 15) / 16)) ++
        cdata.drop P.length := by
    unfold generateCDATA
    by_cases h0 : P.length = 0
    · rw [if_pos h0]
      have : P = [] := List.length_eq_zero.mp h0
      subst this
      simp [refXor]
    · rw [if_neg h0, readBlock_zero_of_length hJ]
      exact GCTR_eq hlen P key _ cdata (by rw [incr32_length]; exact hJ) (by omega) (by omega)
  have hCl := unpadded_buffer_length hlen key (incr32 (refJ0 IV)) P cdata hc
  have hT : generateTag E key (generateAuthKey E key) ADATA ADATA.length
      (refXor P (keystream E key (incr32 (refJ0 IV)) ((P.length + 15) / 16)) ++
        cdata.drop P.length) (16 * ((P.length + 15) / 16)) tag (refJ0 IV) =
      refTag E key IV ADATA
        (refXor P (keystream E key (incr32 (refJ0 IV)) ((P.length + 15) / 16)) ++
          cdata.drop P.length) := by
    rw [generateTag_eq hlen _ _ _ _ _ _ _ _ ht hJ, ← hCl, generateTagS_eq_refS]
    rfl
  simp only [gcmEncrypt, if_neg h2, if_neg h3, hround, generateICB_eq_refJ0 hIV, hC, hT]

theorem refXor_take_keystream (P KS : List Nat) (h : P.length ≤ KS.length) :
    refXor (refXor P KS) (KS.take P.length) = P := by
  have h1 : refXor P KS = refXor P (KS.take P.length) := by
    unfold refXor
    conv_lhs => rw [List.zipWith_eq_zipWith_take_min]
    rw [Nat.min_eq_left h, List.take_length]
  rw [h1, refXor_comm, refXor_comm P, refXor_cancel_left]
  rw [List.length_take]
  omega

/-- C3 (amended): round trip of the unpadded variant, each call with buffers
that do not overlap one another.  For every block cipher, key,
IV, AAD and plaintext `P` of any length `L` accepted by `gcmEncrypt`, and
every initial content of the `roundUp16(L)`-byte ciphertext buffer,
`gcmEncrypt` succeeds, and `gcmDecrypt` on the resulting buffer (`CDATALength =
roundUp16(L)`, same AAD, the produced tag) returns true with the first `L`
bytes of its plaintext output equal to `P`. -/
theorem gcmDecrypt_gcmEncrypt (E : List Nat → List Nat → List Nat)
    (ws1 ws2 key IV ADATA P cdata tag pdata : List Nat)
    (hE : IsBlockCipher E) (hIV : IV.length = 12) (_hA : ADATA.length ≤ 255)
    (hL : P.length < 240) (hne : ¬ (P = [] ∧ ADATA = []))
    (hc : cdata.length = 16 * ((P.length + 15) / 16)) (ht : tag.length = 16)
    (hp : pdata.length = cdata.length) :
    ∃ C T P' : List Nat,
      gcmEncrypt E ws1 key IV P P.length ADATA ADATA.length (some cdata) tag =
        { success := true, CDATA := some C, tag := T, workspace := ws1 } ∧
      C.length = 16 * ((P.length + 15) / 16) ∧
      gcmDecrypt E ws2 key IV C C.length ADATA ADATA.length T pdata =
        { success := true, PDATA := P', workspace := zeros ws2.length } ∧
      P'.take P.length = P := by
  have hlen := hE.length
  have hJ := refJ0_length hIV
  have hCl := unpadded_buffer_length hlen key (incr32 (refJ0 IV)) P cdata hc
  refine ⟨_, _, refCipher E key (refJ0 IV)
      (refXor P (keystream E key (incr32 (refJ0 IV)) ((P.length + 15) / 16)) ++
        cdata.drop P.length),
    gcmEncrypt_run hE ws1 key IV ADATA P cdata tag hIV hL hne hc ht, hCl, ?_, ?_⟩
  · have hne2 : ¬ (refXor P (keystream E key (incr32 (refJ0 IV)) ((P.length + 15) / 16)) ++
        cdata.drop P.length = [] ∧ ADATA = []) := by
      rintro ⟨h1, h2⟩
      apply hne
      refine ⟨?_, h2⟩
      apply List.length_eq_zero.mp
      rw [h1] at hCl
      simp only [List.length_nil] at hCl
      omega
    have hTl : (refTag E key IV ADATA
        (refXor P (keystream E key (incr32 (refJ0 IV)) ((P.length + 15) / 16)) ++
          cdata.drop P.length)).length = 16 := by
      unfold refTag
      rw [refXor_length] <;> rw [hlen]
      exact (refFold_length _ _ _ (by simp)).symm
    rw [gcmDecrypt_run hE ws2 key IV _ ADATA _ pdata _ hIV hCl hne2 (by rw [hp, hc, hCl]) hTl]
    simp only [decide_True]
  · rw [← refCTR_incr32_eq_refCipher, refCTR_eq_xor_keystream hlen key _ _ _ hCl]
    have hk := keystream_length hlen key (incr32 (refJ0 IV)) ((P.length + 15) / 16)
    unfold refXor at *
    rw [List.take_zipWith, List.take_append_of_le_length (by
      rw [List.length_zipWith, hk]; omega)]
    have h1 : (List.zipWith (fun x1 x2 => x1 ^^^ x2) P
        (keystream E key (incr32 (refJ0 IV)) ((P.length + 15) / 16))).take P.length =
        List.zipWith (fun x1 x2 => x1 ^^^ x2) P
        (keystream E key (incr32 (refJ0 IV)) ((P.length + 15) / 16)) := by
      apply List.take_of_length_le
      rw [List.length_zipWith, hk]
      omega
    rw [h1]
    exact refXor_take_keystream P _ (by rw [hk]; omega)

theorem gcmDecrypt_gcmEncrypt_witness :
    ∃ C T P' : List Nat,
      gcmEncrypt toyCipher [7] (List.range 16) (List.range 12) [10, 20, 30]
          [10, 20, 30].length [4, 5] [4, 5].length (some (List.replicate 16 9))
          (List.replicate 16 0) =
        { success := true, CDATA := some C, tag := T, workspace := [7] } ∧
      C.length = 16 * (([10, 20, 30].length + 15) / 16) ∧
      gcmDecrypt toyCipher [8] (List.range 16) (List.range 12) C C.length [4, 5] [4, 5].length T
          (List.replicate 16 1) =
        { success := true, PDATA := P', workspace := zeros [8].length } ∧
      P'.take [10, 20, 30].length = [10, 20, 30] :=
  gcmDecrypt_gcmEncrypt toyCipher [7] [8] (List.range 16) (List.range 12) [4, 5]
    [10, 20, 30] (List.replicate 16 9) (List.replicate 16 0) (List.replicate 16 1)
    toyCipher_isBlockCipher (by decide) (by decide) (by decide) (by decide) (by decide)
    (by decide) (by decide)

/-! ## Tampering with the ciphertext or the AAD -/

theorem refS_length (H A C : List Nat) : (refS H A C).length = 16 :=
  refFold_length _ _ _ (by simp)

/-- The tag `gcmDecrypt` accepts, for a 12-byte IV. -/
theorem gcmDecrypt_accepts_iff {E : List Nat → List Nat → List Nat} (hE : IsBlockCipher E)
    (workspace key IV C A T pdata : List Nat) (hIV : IV.length = 12) (hT : T.length = 16) :
    (gcmDecrypt E workspace key IV C C.length A A.length T pdata).success = true ↔
      ¬ (C.length = 0 ∧ A.length = 0) ∧ C.length % 16 = 0 ∧
        T = refXor (E (refJ0 IV) key) (refS (generateAuthKey E key) A C) := by
  rw [gcmDecrypt_success hE workspace key IV C A T pdata C.length A.length hT,
    generateICB_eq_refJ0 hIV,
    generateTag_eq hE.length _ _ _ _ _ _ _ _ (by simp [zeros]) (refJ0_length hIV),
    generateTagS_eq_refS]

theorem tag_ne_of_refS_ne {E : List Nat → List Nat → List Nat} (hE : IsBlockCipher E)
    (key J0 H A C A' C' : List Nat) (h : refS H A' C' ≠ refS H A C) :
    refXor (E J0 key) (refS H A' C') ≠ refXor (E J0 key) (refS H A C) := by
  intro heq
  apply h
  exact refXor_left_injective (by rw [hE.length, refS_length]) (by rw [hE.length, refS_length])
    heq

/-- C7 (amended): on calls whose buffers do not overlap one another, for
every block cipher and key whose subkey `H = E_k(0^128)` is not
the zero block, and every `(IV, ciphertext, AAD, tag)` that `gcmDecrypt`
accepts, flipping any one bit of the ciphertext, or any one bit of the AAD,
with the lengths unchanged, makes `gcmDecrypt` return false. -/
theorem gcmDecrypt_detects_bit_flip (E : List Nat → List Nat → List Nat)
    (ws1 ws2 key IV CDATA ADATA T pd1 pd2 : List Nat)
    (hE : IsBlockCipher E) (hH : generateAuthKey E key ≠ zeros 16) (hIV : IV.length = 12)
    (_hA : ADATA.length ≤ 255) (_hC : CDATA.length ≤ 255) (hT : T.length = 16)
    (hacc : (gcmDecrypt E ws1 key IV CDATA CDATA.length ADATA ADATA.length T pd1).success
      = true) :
    (∀ q r : Nat, q < CDATA.length → r < 8 →
      (gcmDecrypt E ws2 key IV (flipBit CDATA q r) CDATA.length ADATA ADATA.length T
        pd2).success = false) ∧
    (∀ q r : Nat, q < ADATA.length → r < 8 →
      (gcmDecrypt E ws2 key IV CDATA CDATA.length (flipBit ADATA q r) ADATA.length T
        pd2).success = false) := by
  have hHb : IsBlock (generateAuthKey E key) := hE _ _
  have h1 := (gcmDecrypt_accepts_iff hE ws1 key IV CDATA ADATA T pd1 hIV hT).mp hacc
  constructor
  · intro q r hq hr
    by_contra hcon
    rw [Bool.not_eq_false] at hcon
    have hl : CDATA.length = (flipBit CDATA q r).length := (flipBit_length _ _ _).symm
    rw [hl] at hcon
    have h2 := (gcmDecrypt_accepts_iff hE ws2 key IV (flipBit CDATA q r) ADATA T pd2 hIV
      hT).mp hcon
    have hne := refS_ne_of_gf_shift hHb hH (gf_refS_flipBit_CDATA hHb ADATA CDATA q r hq hr)
    exact tag_ne_of_refS_ne hE key (refJ0 IV) _ ADATA CDATA ADATA (flipBit CDATA q r) hne
      (h2.2.2.symm.trans h1.2.2)
  · intro q r hq hr
    by_contra hcon
    rw [Bool.not_eq_false] at hcon
    have hl : ADATA.length = (flipBit ADATA q r).length := (flipBit_length _ _ _).symm
    rw [hl] at hcon
    have h2 := (gcmDecrypt_accepts_iff hE ws2 key IV CDATA (flipBit ADATA q r) T pd2 hIV
      hT).mp hcon
    have hne := refS_ne_of_gf_shift hHb hH (gf_refS_flipBit_AAD hHb ADATA CDATA q r hq hr)
    exact tag_ne_of_refS_ne hE key (refJ0 IV) _ ADATA CDATA (flipBit ADATA q r) CDATA hne
      (h2.2.2.symm.trans h1.2.2)

theorem gcmDecrypt_detects_bit_flip_witness :
    (∀ q r : Nat, q < (List.replicate 16 3).length → r < 8 →
      (gcmDecrypt toyCipher [] (List.range 16) (List.range 12)
        (flipBit (List.replicate 16 3) q r) (List.replicate 16 3).length [1, 2] [1, 2].length
        (refXor (toyCipher (refJ0 (List.range 12)) (List.range 16))
          (refS (generateAuthKey toyCipher (List.range 16)) [1, 2] (List.replicate 16 3)))
        []).success = false) ∧
    (∀ q r : Nat, q < [1, 2].length → r < 8 →
      (gcmDecrypt toyCipher [] (List.range 16) (List.range 12) (List.replicate 16 3)
        (List.replicate 16 3).length (flipBit [1, 2] q r) [1, 2].length
        (refXor (toyCipher (refJ0 (List.range 12)) (List.range 16))
          (refS (generateAuthKey toyCipher (List.range 16)) [1, 2] (List.replicate 16 3)))
        []).success = false) :=
  gcmDecrypt_detects_bit_flip toyCipher [] [] (List.range 16) (List.range 12)
    (List.replicate 16 3) [1, 2]
    (refXor (toyCipher (refJ0 (List.range 12)) (List.range 16))
      (refS (generateAuthKey toyCipher (List.range 16)) [1, 2] (List.replicate 16 3)))
    [] []
    toyCipher_isBlockCipher (by decide) (by decide) (by decide) (by decide)
    (by rw [refXor_length] <;> rw [toyCipher_isBlockCipher.length]
        exact (refS_length _ _ _).symm)
    ((gcmDecrypt_accepts_iff toyCipher_isBlockCipher [] (List.range 16) (List.range 12)
      (List.replicate 16 3) [1, 2] _ [] (by decide)
      (by rw [refXor_length] <;> rw [toyCipher_isBlockCipher.length]
          exact (refS_length _ _ _).symm)).mpr ⟨by decide, by decide, rfl⟩)

/-! ## The unpadded encrypt and the bytes behind the plaintext -/

/-- The bytes of the ciphertext buffer behind the plaintext enter the tag of
`gcmEncrypt`: flipping one bit of what the caller left there changes the
buffer and, for a subkey other than the zero block, the tag. -/
theorem gcmEncrypt_flipBit_buffer {E : List Nat → List Nat → List Nat} (hE : IsBlockCipher E)
    (workspace key IV ADATA P cdata tag : List Nat) (q r : Nat)
    (hH : generateAuthKey E key ≠ zeros 16)
    (hIV : IV.length = 12) (hL : P.length < 240)
    (hne : ¬ (P = [] ∧ ADATA = [])) (hc : cdata.length = 16 * ((P.length + 15) / 16))
    (ht : tag.length = 16) (hq : P.length ≤ q) (hq2 : q < cdata.length) (hr : r < 8) :
    (gcmEncrypt E workspace key IV P P.length ADATA ADATA.length (some (flipBit cdata q r))
        tag).CDATA ≠
      (gcmEncrypt E workspace key IV P P.length ADATA ADATA.length (some cdata) tag).CDATA ∧
    (gcmEncrypt E workspace key IV P P.length ADATA ADATA.length (some (flipBit cdata q r))
        tag).tag ≠
      (gcmEncrypt E workspace key IV P P.length ADATA ADATA.length (some cdata) tag).tag := by
  have hHb : IsBlock (generateAuthKey E key) := hE _ _
  have hk := keystream_length hE.length key (incr32 (refJ0 IV)) ((P.length + 15) / 16)
  have hXl : (refXor P (keystream E key (incr32 (refJ0 IV)) ((P.length + 15) / 16))).length =
      P.length := by
    simp only [refXor, List.length_zipWith, hk]
    omega
  have hflip : refXor P (keystream E key (incr32 (refJ0 IV)) ((P.length + 15) / 16)) ++
      (flipBit cdata q r).drop P.length =
      flipBit (refXor P (keystream E key (incr32 (refJ0 IV)) ((P.length + 15) / 16)) ++
        cdata.drop P.length) q r := by
    have h1 := flipBit_append_right
      (refXor P (keystream E key (incr32 (refJ0 IV)) ((P.length + 15) / 16)))
      (cdata.drop P.length) (q - P.length) r
    rw [hXl, Nat.add_sub_cancel' hq] at h1
    rw [h1, flipBit_drop cdata P.length q r hq]
  have hql : q < (refXor P (keystream E key (incr32 (refJ0 IV)) ((P.length + 15) / 16)) ++
      cdata.drop P.length).length := by
    rw [List.length_append, hXl, List.length_drop]
    omega
  rw [gcmEncrypt_run hE workspace key IV ADATA P (flipBit cdata q r) tag hIV hL hne
      (by rw [flipBit_length]; exact hc) ht,
    gcmEncrypt_run hE workspace key IV ADATA P cdata tag hIV hL hne hc ht, hflip]
  constructor
  · intro h
    exact flipBit_ne r hql (Option.some.inj h)
  · exact tag_ne_of_refS_ne hE key (refJ0 IV) _ ADATA _ ADATA _
      (refS_ne_of_gf_shift hHb hH (gf_refS_flipBit_CDATA hHb ADATA _ q r hql hr))

/-- C9 (the code on one plaintext byte): two calls of `gcmEncrypt` with the
same key, IV, plaintext and AAD, the 16-byte ciphertext buffer holding zeros
before the first call and `00 01 00 .. 00` before the second, leave different
ciphertext buffers and different tags. -/
theorem gcmEncrypt_depends_on_buffer :
    (gcmEncrypt toyCipher [] (List.range 16) (List.range 12) [1] 1 [] 0
        (some [0, 1, 0, 0, 0, 0, 0, 0, 0, 0, 0, 0, 0, 0, 0, 0]) (List.replicate 16 0)).CDATA ≠
      (gcmEncrypt toyCipher [] (List.range 16) (List.range 12) [1] 1 [] 0
        (some (List.replicate 16 0)) (List.replicate 16 0)).CDATA ∧
    (gcmEncrypt toyCipher [] (List.range 16) (List.range 12) [1] 1 [] 0
        (some [0, 1, 0, 0, 0, 0, 0, 0, 0, 0, 0, 0, 0, 0, 0, 0]) (List.replicate 16 0)).tag ≠
      (gcmEncrypt toyCipher [] (List.range 16) (List.range 12) [1] 1 [] 0
        (some (List.replicate 16 0)) (List.replicate 16 0)).tag :=
  gcmEncrypt_flipBit_buffer toyCipher_isBlockCipher [] (List.range 16) (List.range 12) [] [1]
    (List.replicate 16 0) (List.replicate 16 0) 1 0 (by decide) (by decide) (by decide)
    (by decide) (by decide) (by decide) (by decide) (by decide) (by decide)

/-! ## Failure leaves the outputs alone -/

theorem gcmEncrypt_of_false (E : List Nat → List Nat → List Nat)
    (workspace key IV PDATA ADATA tag : List Nat) (PDATALength ADATALength : Nat)
    (CDATA : Option (List Nat))
    (h : (gcmEncrypt E workspace key IV PDATA PDATALength ADATA ADATALength CDATA tag).success
      = false) :
    gcmEncrypt E workspace key IV PDATA PDATALength ADATA ADATALength CDATA tag =
      { success := false, CDATA := CDATA, tag := tag, workspace := workspace } := by
  cases CDATA with
  | none => rfl
  | some cdata =>
    unfold gcmEncrypt at h ⊢
    simp only at h ⊢
    split
    · rfl
    · split
      · rfl
      · rename_i h1 h2
        rw [if_neg h1, if_neg h2] at h
        simp at h

theorem gcmEncryptPadded_of_false (E : List Nat → List Nat → List Nat)
    (workspace key IV PDATA ADATA tag : List Nat) (PDATALength ADATALength : Nat)
    (CDATA : Option (List Nat))
    (h : (gcmEncryptPadded E workspace key IV PDATA PDATALength ADATA ADATALength CDATA
      tag).success = false) :
    gcmEncryptPadded E workspace key IV PDATA PDATALength ADATA ADATALength CDATA tag =
      { success := false, CDATA := CDATA, tag := tag, workspace := workspace } := by
  cases CDATA with
  | none => rfl
  | some cdata =>
    unfold gcmEncryptPadded at h ⊢
    simp only at h ⊢
    split
    · rfl
    · split
      · rfl
      · rename_i h1 h2
        rw [if_neg h1, if_neg h2] at h
        simp at h

theorem gcmDecrypt_of_precondition (E : List Nat → List Nat → List Nat)
    (workspace key IV CDATA ADATA messageTag PDATA : List Nat) (CDATALength ADATALength : Nat)
    (h : (CDATALength = 0 ∧ ADATALength = 0) ∨ CDATALength % 16 ≠ 0) :
    gcmDecrypt E workspace key IV CDATA CDATALength ADATA ADATALength messageTag PDATA =
      { success := false, PDATA := PDATA, workspace := workspace } := by
  unfold gcmDecrypt
  by_cases h0 : CDATALength = 0 ∧ ADATALength = 0
  · rw [if_pos h0]
  · rw [if_neg h0]
    have h1 : CDATALength &&& (AES128GCM_BLOCK_SIZE - 1) ≠ 0 := by
      simp only [AES128GCM_BLOCK_SIZE, Nat.reduceSub, and_15]
      rcases h with h | h
      · exact absurd h h0
      · exact h
    rw [if_pos h1]

/-- C11: failure atomicity.  Whenever `gcmEncrypt` or `gcmEncryptPadded` returns
false, the ciphertext buffer and the tag buffer are as they were before the
call; whenever `gcmDecrypt` fails one of its two checks (both lengths zero, or
a ciphertext length that is not a multiple of 16), it returns false and the
plaintext buffer is as it was. -/
theorem failure_leaves_outputs (E : List Nat → List Nat → List Nat)
    (workspace key IV data ADATA tag PDATA : List Nat) (dataLength ADATALength : Nat)
    (CDATA : Option (List Nat)) :
    ((gcmEncrypt E workspace key IV data dataLength ADATA ADATALength CDATA tag).success
        = false →
      (gcmEncrypt E workspace key IV data dataLength ADATA ADATALength CDATA tag).CDATA
        = CDATA ∧
      (gcmEncrypt E workspace key IV data dataLength ADATA ADATALength CDATA tag).tag = tag) ∧
    ((gcmEncryptPadded E workspace key IV data dataLength ADATA ADATALength CDATA tag).success
        = false →
      (gcmEncryptPadded E workspace key IV data dataLength ADATA ADATALength CDATA tag).CDATA
        = CDATA ∧
      (gcmEncryptPadded E workspace key IV data dataLength ADATA ADATALength CDATA tag).tag
        = tag) ∧
    ((dataLength = 0 ∧ ADATALength = 0) ∨ dataLength % 16 ≠ 0 →
      (gcmDecrypt E workspace key IV data dataLength ADATA ADATALength tag PDATA).success
        = false ∧
      (gcmDecrypt E workspace key IV data dataLength ADATA ADATALength tag PDATA).PDATA
        = PDATA) := by
  refine ⟨?_, ?_, ?_⟩
  · intro h
    rw [gcmEncrypt_of_false E workspace key IV data ADATA tag dataLength ADATALength CDATA h]
    exact ⟨rfl, rfl⟩
  · intro h
    rw [gcmEncryptPadded_of_false E workspace key IV data ADATA tag dataLength ADATALength
      CDATA h]
    exact ⟨rfl, rfl⟩
  · intro h
    rw [gcmDecrypt_of_precondition E workspace key IV data ADATA tag PDATA dataLength
      ADATALength h]
    exact ⟨rfl, rfl⟩

theorem failure_leaves_outputs_witness :
    ((gcmEncrypt toyCipher [9] [] [] [1, 2] 250 [3] 1 (some [5, 6]) [7]).CDATA = some [5, 6] ∧
      (gcmEncrypt toyCipher [9] [] [] [1, 2] 250 [3] 1 (some [5, 6]) [7]).tag = [7]) ∧
    ((gcmEncryptPadded toyCipher [9] [] [] [1, 2] 250 [3] 1 (some [5, 6]) [7]).CDATA
        = some [5, 6] ∧
      (gcmEncryptPadded toyCipher [9] [] [] [1, 2] 250 [3] 1 (some [5, 6]) [7]).tag = [7]) ∧
    ((gcmDecrypt toyCipher [9] [] [] [1, 2] 250 [3] 1 [7] [8]).success = false ∧
      (gcmDecrypt toyCipher [9] [] [] [1, 2] 250 [3] 1 [7] [8]).PDATA = [8]) :=
  ⟨(failure_leaves_outputs toyCipher [9] [] [] [1, 2] [3] [7] [8] 250 1 (some [5, 6])).1
      (by decide),
    (failure_leaves_outputs toyCipher [9] [] [] [1, 2] [3] [7] [8] 250 1 (some [5, 6])).2.1
      (by decide),
    (failure_leaves_outputs toyCipher [9] [] [] [1, 2] [3] [7] [8] 250 1 (some [5, 6])).2.2
      (Or.inr (by decide))⟩

/-! ## The padded encrypt against the generic one -/

/-- On block-aligned plaintext of less than 240 bytes `gcmEncrypt` and
`gcmEncryptPadded` return the same flag, ciphertext buffer and tag. -/
theorem gcmEncrypt_eq_gcmEncryptPadded (E : List Nat → List Nat → List Nat)
    (workspace key IV PDATA ADATA tag : List Nat) (PDATALength ADATALength : Nat)
    (CDATA : Option (List Nat)) (hal : PDATALength % 16 = 0) (hlt : PDATALength < 240) :
    (gcmEncrypt E workspace key IV PDATA PDATALength ADATA ADATALength CDATA tag).success =
      (gcmEncryptPadded E workspace key IV PDATA PDATALength ADATA ADATALength CDATA
        tag).success ∧
    (gcmEncrypt E workspace key IV PDATA PDATALength ADATA ADATALength CDATA tag).CDATA =
      (gcmEncryptPadded E workspace key IV PDATA PDATALength ADATA ADATALength CDATA
        tag).CDATA ∧
    (gcmEncrypt E workspace key IV PDATA PDATALength ADATA ADATALength CDATA tag).tag =
      (gcmEncryptPadded E workspace key IV PDATA PDATALength ADATA ADATALength CDATA
        tag).tag := by
  cases CDATA with
  | none => exact ⟨rfl, rfl, rfl⟩
  | some cdata =>
    have h1 : ¬ (PDATALength &&& (AES128GCM_BLOCK_SIZE - 1) ≠ 0) := by
      simp only [AES128GCM_BLOCK_SIZE, Nat.reduceSub, and_15]
      omega
    have h3 : ¬ (PDATALength ≥ (256 - AES128GCM_BLOCK_SIZE) % 256) := by
      simp only [AES128GCM_BLOCK_SIZE]
      omega
    have hround : ((PDATALength + AES128GCM_BLOCK_SIZE - 1) &&&
        (0xffff ^^^ (AES128GCM_BLOCK_SIZE - 1))) % 256 = PDATALength := by
      rw [roundUp16_uint8 PDATALength (by omega)]
      omega
    have hC : generateCDATA E (generateICB IV) PDATA PDATALength cdata key =
        generateCDATAPadded E (generateICB IV) PDATA PDATALength cdata key := by
      unfold generateCDATA generateCDATAPadded GCTR GCTRPadded
      by_cases h0 : PDATALength = 0
      · rw [if_pos h0, if_pos h0]
      · rw [if_neg h0, if_neg h0, if_neg h0, if_neg h0]
        have hlast :
            ¬ ((PDATALength - AES128GCM_BLOCK_SIZE * (PDATALength / 16)) % 256 ≠ 0) := by
          simp only [AES128GCM_BLOCK_SIZE]
          omega
        simp only [if_neg hlast]
    unfold gcmEncrypt gcmEncryptPadded
    simp only [if_neg h1, if_neg h3, hround, hC]
    by_cases h2 : PDATALength = 0 ∧ ADATALength = 0
    · simp only [if_pos h2, and_self]
    · simp only [if_neg h2, and_self]

/-- C12 (the code at 240 bytes of plaintext): with a non-null ciphertext buffer
and `PDATALength = 240`, `gcmEncrypt` returns false and `gcmEncryptPadded`
returns true. -/
theorem gcmEncrypt_240_differs (E : List Nat → List Nat → List Nat)
    (workspace key IV PDATA ADATA cdata tag : List Nat) (ADATALength : Nat) :
    (gcmEncrypt E workspace key IV PDATA 240 ADATA ADATALength (some cdata) tag).success
      = false ∧
    (gcmEncryptPadded E workspace key IV PDATA 240 ADATA ADATALength (some cdata) tag).success
      = true := by
  have h1 : ¬ ((240 : Nat) = 0 ∧ ADATALength = 0) := fun h => absurd h.1 (by decide)
  have h2 : (240 : Nat) ≥ (256 - AES128GCM_BLOCK_SIZE) % 256 := by decide
  have h3 : ¬ ((240 : Nat) &&& (AES128GCM_BLOCK_SIZE - 1) ≠ 0) := by decide
  constructor
  · unfold gcmEncrypt
    simp only [if_neg h1, if_pos h2]
  · unfold gcmEncryptPadded
    simp only [if_neg h1, if_neg h3]

/-! ## The tag comparator, byte by byte -/

theorem checkTag_lt_256 {t1 t2 : List Nat} (h1 : IsBytes t1) (h2 : IsBytes t2) :
    checkTag t1 t2 < 256 := by
  unfold checkTag
  apply foldl_invariant (fun r : Nat => r < 256)
  · intro r i hr
    exact or_lt_256 hr (xor_lt_256 (h1.getD i) (h2.getD i))
  · norm_num

theorem set_ne_of_ne_getD {t : List Nat} {i v : Nat} (hi : i < t.length)
    (hv : v ≠ t.getD i 0) : t.set i v ≠ t := by
  intro h
  have h1 : (t.set i v)[i]? = t[i]? := by rw [h]
  rw [List.getElem?_set, if_pos rfl, if_pos hi, List.getElem?_eq_getElem hi] at h1
  apply hv
  rw [List.getD_eq_getElem _ _ hi]
  exact Option.some.inj h1

/-- C14: on two 16-byte tags `checkTag` returns 0 if and only if the tags are
identical in every byte (the value returned fits the `uint8_t` it is returned
in); for tags that differ in one byte, at any of the 16 positions, it returns
a value other than 0. -/
theorem checkTag_zero_iff_identical (tag1 tag2 : List Nat)
    (h1 : IsBlock tag1) (h2 : IsBlock tag2) :
    checkTag tag1 tag2 < 256 ∧
    (checkTag tag1 tag2 = 0 ↔ tag1 = tag2) ∧
    (∀ i v : Nat, i < 16 → v ≠ tag1.getD i 0 →
      checkTag (tag1.set i v) tag1 ≠ 0 ∧ checkTag tag1 (tag1.set i v) ≠ 0) := by
  refine ⟨checkTag_lt_256 h1.2 h2.2, checkTag_eq_zero_iff h1.1 h2.1, ?_⟩
  intro i v hi hv
  have hne : tag1.set i v ≠ tag1 := set_ne_of_ne_getD (by rw [h1.1]; exact hi) hv
  have hl : (tag1.set i v).length = 16 := by rw [List.length_set]; exact h1.1
  constructor
  · intro h
    exact hne ((checkTag_eq_zero_iff hl h1.1).mp h)
  · intro h
    exact hne ((checkTag_eq_zero_iff h1.1 hl).mp h).symm

theorem checkTag_zero_iff_identical_witness :
    checkTag (List.range 16) (List.replicate 16 3) < 256 ∧
    (checkTag (List.range 16) (List.replicate 16 3) = 0 ↔
      List.range 16 = List.replicate 16 3) ∧
    (∀ i v : Nat, i < 16 → v ≠ (List.range 16).getD i 0 →
      checkTag ((List.range 16).set i v) (List.range 16) ≠ 0 ∧
        checkTag (List.range 16) ((List.range 16).set i v) ≠ 0) :=
  checkTag_zero_iff_identical (List.range 16) (List.replicate 16 3) (by decide) (by decide)

/-! ## The workspace on return -/

theorem zeros_all_zero (n : Nat) : ∀ x ∈ zeros n, x = 0 := by
  intro x hx
  exact List.eq_of_mem_replicate hx

theorem gcmEncryptPadded_workspace_of_checks (E : List Nat → List Nat → List Nat)
    (workspace key IV PDATA ADATA cdata tag : List Nat) (PDATALength ADATALength : Nat)
    (hal : PDATALength % 16 = 0) (hne : ¬ (PDATALength = 0 ∧ ADATALength = 0)) :
    (gcmEncryptPadded E workspace key IV PDATA PDATALength ADATA ADATALength (some cdata)
      tag).workspace = zeros workspace.length := by
  have h1 : ¬ (PDATALength &&& (AES128GCM_BLOCK_SIZE - 1) ≠ 0) := by
    simp only [AES128GCM_BLOCK_SIZE, Nat.reduceSub, and_15]
    omega
  unfold gcmEncryptPadded
  simp only [if_neg h1, if_neg hne]

theorem gcmDecrypt_workspace_of_checks (E : List Nat → List Nat → List Nat)
    (workspace key IV CDATA ADATA messageTag PDATA : List Nat) (CDATALength ADATALength : Nat)
    (hal : CDATALength % 16 = 0) (hne : ¬ (CDATALength = 0 ∧ ADATALength = 0)) :
    (gcmDecrypt E workspace key IV CDATA CDATALength ADATA ADATALength messageTag
      PDATA).workspace = zeros workspace.length := by
  have h1 : ¬ (CDATALength &&& (AES128GCM_BLOCK_SIZE - 1) ≠ 0) := by
    simp only [AES128GCM_BLOCK_SIZE, Nat.reduceSub, and_15]
    omega
  unfold gcmDecrypt
  simp only [if_neg h1, if_neg hne]

/-- C15: every call of `gcmEncryptPadded` or `gcmDecrypt` that passes the
checks on its arguments returns with every byte of its workspace equal to
zero, whatever the workspace held before and, for `gcmDecrypt`, whether the
tag is accepted or not. -/
theorem workspace_zero_after_checks (E : List Nat → List Nat → List Nat)
    (workspace key IV data ADATA cdata tag messageTag PDATA : List Nat)
    (dataLength ADATALength : Nat)
    (hal : dataLength % 16 = 0) (hne : ¬ (dataLength = 0 ∧ ADATALength = 0)) :
    ((gcmEncryptPadded E workspace key IV data dataLength ADATA ADATALength (some cdata)
        tag).workspace.length = workspace.length ∧
      ∀ x ∈ (gcmEncryptPadded E workspace key IV data dataLength ADATA ADATALength (some cdata)
        tag).workspace, x = 0) ∧
    ((gcmDecrypt E workspace key IV data dataLength ADATA ADATALength messageTag
        PDATA).workspace.length = workspace.length ∧
      ∀ x ∈ (gcmDecrypt E workspace key IV data dataLength ADATA ADATALength messageTag
        PDATA).workspace, x = 0) := by
  rw [gcmEncryptPadded_workspace_of_checks E workspace key IV data ADATA cdata tag dataLength
      ADATALength hal hne,
    gcmDecrypt_workspace_of_checks E workspace key IV data ADATA messageTag PDATA dataLength
      ADATALength hal hne]
  exact ⟨⟨by simp [zeros], zeros_all_zero _⟩, ⟨by simp [zeros], zeros_all_zero _⟩⟩

theorem workspace_zero_after_checks_witness :
    ((gcmEncryptPadded toyCipher [1, 2, 3] (List.range 16) (List.range 12)
        (List.replicate 16 7) 16 [4] 1 (some (List.replicate 16 0))
        (List.replicate 16 0)).workspace.length = [1, 2, 3].length ∧
      ∀ x ∈ (gcmEncryptPadded toyCipher [1, 2, 3] (List.range 16) (List.range 12)
        (List.replicate 16 7) 16 [4] 1 (some (List.replicate 16 0))
        (List.replicate 16 0)).workspace, x = 0) ∧
    ((gcmDecrypt toyCipher [1, 2, 3] (List.range 16) (List.range 12)
        (List.replicate 16 7) 16 [4] 1 (List.replicate 16 9)
        (List.replicate 16 8)).workspace.length = [1, 2, 3].length ∧
      ∀ x ∈ (gcmDecrypt toyCipher [1, 2, 3] (List.range 16) (List.range 12)
        (List.replicate 16 7) 16 [4] 1 (List.replicate 16 9)
        (List.replicate 16 8)).workspace, x = 0) :=
  workspace_zero_after_checks toyCipher [1, 2, 3] (List.range 16) (List.range 12)
    (List.replicate 16 7) [4] (List.replicate 16 0) (List.replicate 16 0)
    (List.replicate 16 9) (List.replicate 16 8) 16 1 (by decide) (by decide)

/-- C16 (as stated, at a call with a null ciphertext buffer and at a call with
both lengths zero): `gcmEncryptPadded` and `gcmDecrypt` return false and the
workspace still holds `01 02 03`. -/
theorem workspace_kept_on_rejection :
    (gcmEncryptPadded toyCipher [1, 2, 3] [] [] [] 0 [4] 1 none []).success = false ∧
    (gcmEncryptPadded toyCipher [1, 2, 3] [] [] [] 0 [4] 1 none []).workspace = [1, 2, 3] ∧
    (gcmEncryptPadded toyCipher [1, 2, 3] [] [] [] 0 [4] 1 none []).workspace ≠ zeros 3 ∧
    (gcmDecrypt toyCipher [1, 2, 3] [] [] [] 0 [] 0 [] []).success = false ∧
    (gcmDecrypt toyCipher [1, 2, 3] [] [] [] 0 [] 0 [] []).workspace = [1, 2, 3] ∧
    (gcmDecrypt toyCipher [1, 2, 3] [] [] [] 0 [] 0 [] []).workspace ≠ zeros 3 := by
  decide

/-- C16 (amended): after a call of `gcmEncryptPadded` or `gcmDecrypt` that
passes the checks on its arguments the workspace is all zeros, whatever it
held before; a call that fails a check (null ciphertext buffer, unaligned
length, both lengths zero) returns false and leaves the workspace as it
was. -/
theorem workspace_after_call (E : List Nat → List Nat → List Nat)
    (workspace key IV data ADATA tag PDATA : List Nat) (dataLength ADATALength : Nat)
    (CDATA : Option (List Nat)) :
    ((CDATA = none ∨ dataLength % 16 ≠ 0 ∨ (dataLength = 0 ∧ ADATALength = 0)) →
      (gcmEncryptPadded E workspace key IV data dataLength ADATA ADATALength CDATA
          tag).success = false ∧
        (gcmEncryptPadded E workspace key IV data dataLength ADATA ADATALength CDATA
          tag).workspace = workspace) ∧
    (¬ (CDATA = none ∨ dataLength % 16 ≠ 0 ∨ (dataLength = 0 ∧ ADATALength = 0)) →
      (gcmEncryptPadded E workspace key IV data dataLength ADATA ADATALength CDATA
        tag).workspace = zeros workspace.length) ∧
    (((dataLength = 0 ∧ ADATALength = 0) ∨ dataLength % 16 ≠ 0) →
      (gcmDecrypt E workspace key IV data dataLength ADATA ADATALength tag PDATA).success
          = false ∧
        (gcmDecrypt E workspace key IV data dataLength ADATA ADATALength tag PDATA).workspace
          = workspace) ∧
    (¬ ((dataLength = 0 ∧ ADATALength = 0) ∨ dataLength % 16 ≠ 0) →
      (gcmDecrypt E workspace key IV data dataLength ADATA ADATALength tag PDATA).workspace
        = zeros workspace.length) := by
  refine ⟨?_, ?_, ?_, ?_⟩
  · intro h
    have hf : (gcmEncryptPadded E workspace key IV data dataLength ADATA ADATALength CDATA
        tag).success = false := by
      cases CDATA with
      | none => rfl
      | some cdata =>
        simp only [gcmEncryptPadded, AES128GCM_BLOCK_SIZE, Nat.reduceSub, and_15]
        rcases h with h | h | h
        · exact absurd h (by simp)
        · rw [if_pos h]
        · by_cases h1 : dataLength % 16 ≠ 0
          · rw [if_pos h1]
          · rw [if_neg h1, if_pos h]
    rw [gcmEncryptPadded_of_false E workspace key IV data ADATA tag dataLength ADATALength
      CDATA hf]
    exact ⟨rfl, rfl⟩
  · intro h
    cases CDATA with
    | none => exact absurd (Or.inl rfl) h
    | some cdata =>
      exact gcmEncryptPadded_workspace_of_checks E workspace key IV data ADATA cdata tag
        dataLength ADATALength
        (by by_contra hc; exact h (Or.inr (Or.inl hc)))
        (fun hc => h (Or.inr (Or.inr hc)))
  · intro h
    rw [gcmDecrypt_of_precondition E workspace key IV data ADATA tag PDATA dataLength
      ADATALength h]
    exact ⟨rfl, rfl⟩
  · intro h
    exact gcmDecrypt_workspace_of_checks E workspace key IV data ADATA tag PDATA dataLength
      ADATALength
      (by by_contra hc; exact h (Or.inr hc))
      (fun hc => h (Or.inl hc))

theorem workspace_after_call_witness :
    ((gcmEncryptPadded toyCipher [1, 2, 3] [] [] [] 5 [4] 1 (some [6]) []).success = false ∧
      (gcmEncryptPadded toyCipher [1, 2, 3] [] [] [] 5 [4] 1 (some [6]) []).workspace
        = [1, 2, 3]) ∧
    (gcmEncryptPadded toyCipher [1, 2, 3] [] [] [] 0 [4] 1 (some []) []).workspace
      = zeros [1, 2, 3].length ∧
    ((gcmDecrypt toyCipher [1, 2, 3] [] [] [] 5 [4] 1 [] []).success = false ∧
      (gcmDecrypt toyCipher [1, 2, 3] [] [] [] 5 [4] 1 [] []).workspace = [1, 2, 3]) ∧
    (gcmDecrypt toyCipher [1, 2, 3] [] [] [] 0 [4] 1 [] []).workspace
      = zeros [1, 2, 3].length :=
  ⟨(workspace_after_call toyCipher [1, 2, 3] [] [] [] [4] [] [] 5 1 (some [6])).1
      (Or.inr (Or.inl (by decide))),
    (workspace_after_call toyCipher [1, 2, 3] [] [] [] [4] [] [] 0 1 (some [])).2.1
      (by decide),
    (workspace_after_call toyCipher [1, 2, 3] [] [] [] [4] [] [] 5 1 (some [6])).2.2.1
      (Or.inr (by decide)),
    (workspace_after_call toyCipher [1, 2, 3] [] [] [] [4] [] [] 0 1 (some [])).2.2.2
      (by decide)⟩

/-! ## The adaptors turn a bad call away -/

/-- C17: whenever the workspace check rejects the workspace pointer and size,
or `key`, `iv` or a pointer that must be written to (for decryption also the
tag) is `NULL`, the adaptor `…Enc_DEFAULT_WITH_LWORKSPACE`, resp.
`…Dec_DEFAULT_WITH_LWORKSPACE`, returns false and leaves `ciphertextOut`,
`tagOut`, resp. `plaintextOut`, and the workspace as they were; what it
returns is the same for every block cipher, none being called. -/
theorem adaptors_reject_cleanly (E : List Nat → List Nat → List Nat)
    (isWorkspaceSufficient : Option (List Nat) → Nat → Bool) (allowUnpadded : Bool)
    (workspace : Option (List Nat)) (workspaceSize : Nat)
    (key iv authtext : Option (List Nat)) (authtextSize : Nat)
    (text tag out : Option (List Nat)) :
    ((key = none ∨ iv = none ∨ out = none ∨ tag = none ∨
        isWorkspaceSufficient workspace workspaceSize = false) →
      fixed32BTextSize12BNonce16BTagSimpleEnc_DEFAULT_WITH_LWORKSPACE E isWorkspaceSufficient
          allowUnpadded workspace workspaceSize key iv authtext authtextSize text out tag =
        { success := false, ciphertextOut := out, tagOut := tag, workspace := workspace }) ∧
    ((key = none ∨ iv = none ∨ tag = none ∨ out = none ∨
        isWorkspaceSufficient workspace workspaceSize = false) →
      fixed32BTextSize12BNonce16BTagSimpleDec_DEFAULT_WITH_LWORKSPACE E isWorkspaceSufficient
          workspace workspaceSize key iv authtext authtextSize text tag out =
        { success := false, plaintextOut := out, workspace := workspace }) := by
  constructor
  · intro h
    unfold fixed32BTextSize12BNonce16BTagSimpleEnc_DEFAULT_WITH_LWORKSPACE
    cases key <;> cases iv <;> cases out <;> cases tag <;> simp at h ⊢
    simp [h]
  · intro h
    unfold fixed32BTextSize12BNonce16BTagSimpleDec_DEFAULT_WITH_LWORKSPACE
    cases key <;> cases iv <;> cases out <;> cases tag <;> simp at h ⊢
    simp [h]

theorem adaptors_reject_cleanly_witness :
    fixed32BTextSize12BNonce16BTagSimpleEnc_DEFAULT_WITH_LWORKSPACE toyCipher
        (fun _ size => decide (200 ≤ size)) false (some [1, 2, 3]) 3
        (some (List.range 16)) (some (List.range 12)) (some [4]) 1
        (some (List.replicate 32 5)) (some (List.replicate 32 6))
        (some (List.replicate 16 7)) =
      { success := false, ciphertextOut := some (List.replicate 32 6),
        tagOut := some (List.replicate 16 7), workspace := some [1, 2, 3] } ∧
    fixed32BTextSize12BNonce16BTagSimpleDec_DEFAULT_WITH_LWORKSPACE toyCipher
        (fun _ size => decide (200 ≤ size)) (some [1, 2, 3]) 3
        (some (List.range 16)) (some (List.range 12)) (some [4]) 1
        (some (List.replicate 32 5)) none (some (List.replicate 32 6)) =
      { success := false, plaintextOut := some (List.replicate 32 6),
        workspace := some [1, 2, 3] } :=
  ⟨(adaptors_reject_cleanly toyCipher (fun _ size => decide (200 ≤ size)) false
      (some [1, 2, 3]) 3 (some (List.range 16)) (some (List.range 12)) (some [4]) 1
      (some (List.replicate 32 5)) (some (List.replicate 16 7))
      (some (List.replicate 32 6))).1
      (Or.inr (Or.inr (Or.inr (Or.inr (by decide))))),
    (adaptors_reject_cleanly toyCipher (fun _ size => decide (200 ≤ size)) false
      (some [1, 2, 3]) 3 (some (List.range 16)) (some (List.range 12)) (some [4]) 1
      (some (List.replicate 32 5)) none (some (List.replicate 32 6))).2
      (Or.inr (Or.inr (Or.inl rfl)))⟩

/-! ## The counter increment -/

theorem incr32_cons (a0 a1 a2 a3 a4 a5 a6 a7 a8 a9 a10 a11 a12 a13 a14 a15 : Nat) :
    incr32 [a0, a1, a2, a3, a4, a5, a6, a7, a8, a9, a10, a11, a12, a13, a14, a15] =
      if (a15 + 1) % 256 ≠ 0 then
        [a0, a1, a2, a3, a4, a5, a6, a7, a8, a9, a10, a11, a12, a13, a14, (a15 + 1) % 256]
      else if (a14 + 1) % 256 ≠ 0 then
        [a0, a1, a2, a3, a4, a5, a6, a7, a8, a9, a10, a11, a12, a13, (a14 + 1) % 256,
          (a15 + 1) % 256]
      else if (a13 + 1) % 256 ≠ 0 then
        [a0, a1, a2, a3, a4, a5, a6, a7, a8, a9, a10, a11, a12, (a13 + 1) % 256,
          (a14 + 1) % 256, (a15 + 1) % 256]
      else
        [a0, a1, a2, a3, a4, a5, a6, a7, a8, a9, a10, a11, (a12 + 1) % 256, (a13 + 1) % 256,
          (a14 + 1) % 256, (a15 + 1) % 256] := by
  simp only [incr32, incr32Loop, List.set_cons_zero, List.set_cons_succ, List.getD_cons_zero,
    List.getD_cons_succ, Nat.reduceSub]
  split
  · rfl
  · split
    · rfl
    · split
      · rfl
      · split
        · rfl
        · rename_i h1 h2 h3 h4
          simp only [ne_eq, not_not] at h4
          rw [h4]

/-- C13: on a 16-byte block `incr32` leaves the leftmost 12 bytes as they are and
replaces the rightmost 4 bytes, read as a big-endian number `c`, by the bytes
of `(c + 1) mod 2^32`; a suffix `FF FF FF FF` becomes `00 00 00 00`, byte 11
untouched. -/
theorem incr32_adds_one_mod_2_32 (b : List Nat) (hb : IsBlock b) :
    IsBlock (incr32 b) ∧
    (incr32 b).take 12 = b.take 12 ∧
    beNat ((incr32 b).drop 12) = (beNat (b.drop 12) + 1) % 2 ^ 32 ∧
    (b.drop 12 = [0xff, 0xff, 0xff, 0xff] → (incr32 b).drop 12 = [0, 0, 0, 0]) := by
  obtain ⟨a0, a1, a2, a3, a4, a5, a6, a7, a8, a9, a10, a11, a12, a13, a14, a15, rfl⟩ :=
    length16_cases hb.1
  have hbytes := hb.2
  simp only [IsBytes, List.mem_cons, List.mem_singleton, forall_eq_or_imp, forall_eq,
    List.not_mem_nil, false_imp_iff, implies_true, and_true] at hbytes
  obtain ⟨h0, h1, h2, h3, h4, h5, h6, h7, h8, h9, h10, h11, h12, h13, h14, h15⟩ := hbytes
  have hm : ∀ x : Nat, (x + 1) % 256 < 256 := fun x => Nat.mod_lt _ (by norm_num)
  rw [incr32_cons]
  refine ⟨?_, ?_, ?_, ?_⟩
  · refine ⟨?_, ?_⟩
    · split_ifs <;> rfl
    · split_ifs <;>
        simp only [IsBytes, List.mem_cons, List.mem_singleton, forall_eq_or_imp, forall_eq,
          List.not_mem_nil, false_imp_iff, implies_true, and_true] <;>
        simp only [h0, h1, h2, h3, h4, h5, h6, h7, h8, h9, h10, h11, h12, h13, h14, h15, hm,
          and_self]
  · split_ifs <;> rfl
  · split_ifs <;>
      simp only [beNat, List.drop_succ_cons, List.drop_zero, List.foldl_cons, List.foldl_nil] <;>
      omega
  · intro hff
    simp only [List.drop_succ_cons, List.drop_zero, List.cons.injEq, and_true] at hff
    obtain ⟨e12, e13, e14, e15⟩ := hff
    subst e12 e13 e14 e15
    rfl

theorem incr32_adds_one_mod_2_32_witness :
    IsBlock (incr32 (List.replicate 12 7 ++ [0xff, 0xff, 0xff, 0xff])) ∧
    (incr32 (List.replicate 12 7 ++ [0xff, 0xff, 0xff, 0xff])).take 12 =
      (List.replicate 12 7 ++ [0xff, 0xff, 0xff, 0xff]).take 12 ∧
    beNat ((incr32 (List.replicate 12 7 ++ [0xff, 0xff, 0xff, 0xff])).drop 12) =
      (beNat ((List.replicate 12 7 ++ [0xff, 0xff, 0xff, 0xff]).drop 12) + 1) % 2 ^ 32 ∧
    ((List.replicate 12 7 ++ [0xff, 0xff, 0xff, 0xff]).drop 12 = [0xff, 0xff, 0xff, 0xff] →
      (incr32 (List.replicate 12 7 ++ [0xff, 0xff, 0xff, 0xff])).drop 12 = [0, 0, 0, 0]) :=
  incr32_adds_one_mod_2_32 (List.replicate 12 7 ++ [0xff, 0xff, 0xff, 0xff]) (by decide)

/-! ## The product of `gFieldMultiply` -/

theorem gcmPoly_monic : gcmPoly.Monic := by
  unfold gcmPoly
  monicity!

theorem gFieldMultiplyStep_isBlock (x : List Nat) (i j : Nat) (st : List Nat × List Nat)
    (h : IsBlock st.1 ∧ IsBlock st.2) :
    IsBlock (gFieldMultiplyStep x i st j).1 ∧ IsBlock (gFieldMultiplyStep x i st j).2 := by
  refine ⟨?_, mulX_isBlock h.2⟩
  show IsBlock (if x.getD i 0 &&& (1 <<< (7 - j)) ≠ 0 then xorBlock st.1 st.2 else st.1)
  split
  · exact xorBlock_isBlock h.1 h.2
  · exact h.1

theorem zeros_isBlock : IsBlock (zeros 16) := by decide

theorem gFieldMultiply_isBlock (x y : List Nat) (hy : IsBlock y) :
    IsBlock (gFieldMultiply x y).1 := by
  unfold gFieldMultiply
  rw [readBlock_zero_of_length hy.1]
  have h := foldl_invariant (fun st : List Nat × List Nat => IsBlock st.1 ∧ IsBlock st.2)
    (fun st i => (List.range 8).foldl (gFieldMultiplyStep x i) st)
    (fun st i hst => foldl_invariant
      (fun st : List Nat × List Nat => IsBlock st.1 ∧ IsBlock st.2)
      (gFieldMultiplyStep x i) (fun st j hst => gFieldMultiplyStep_isBlock x i j st hst)
      (List.range 8) st hst)
    (List.range AES128GCM_BLOCK_SIZE) (zeros AES128GCM_BLOCK_SIZE, y) ⟨zeros_isBlock, hy⟩
  exact h.1

/-- A block is determined by the polynomial it stands for. -/
theorem toPoly_injective {a b : List Nat} (ha : IsBlock a) (hb : IsBlock b)
    (h : toPoly a = toPoly b) : a = b := by
  have h0 : toPoly (refXor a b) = 0 := by
    rw [toPoly_refXor a b (by rw [ha.1, hb.1]), h, CharTwo.add_self_eq_zero]
  have hz := eq_zeros_of_toPoly_eq_zero (refXor_isBlock ha hb) h0
  have h1 : refXor a (refXor a b) = refXor a (zeros 16) := by rw [hz]
  rw [refXor_cancel_left a b (by rw [ha.1, hb.1])] at h1
  rw [h1]
  have h3 : refXor a (zeros 16) = a := by
    obtain ⟨a0, a1, a2, a3, a4, a5, a6, a7, a8, a9, a10, a11, a12, a13, a14, a15, rfl⟩ :=
      length16_cases ha.1
    simp [refXor, zeros, List.replicate]
  exact h3.symm

/-- C18: reading a 16-byte block as the polynomial over GF(2) whose coefficient
of `x^(8*i + j)` is bit `7 - j` of byte `i`, the block `gFieldMultiply` leaves
in `ghashTmp` is, for all blocks `x` and `y`, the product of `x` and `y`
reduced modulo `x^128 + x^7 + x^2 + x + 1`. -/
theorem gFieldMultiply_eq_product_mod (x y : List Nat) (_hx : IsBlock x) (hy : IsBlock y) :
    IsBlock (gFieldMultiply x y).1 ∧
    (∀ i j : Nat, i < 16 → j < 8 →
      (toPoly (gFieldMultiply x y).1).coeff (8 * i + j) =
        if ((gFieldMultiply x y).1.getD i 0).testBit (7 - j) then 1 else 0) ∧
    toPoly (gFieldMultiply x y).1 = Polynomial.modByMonic (toPoly x * toPoly y) gcmPoly := by
  refine ⟨gFieldMultiply_isBlock x y hy, ?_, ?_⟩
  · intro i j hi hj
    rw [toPoly_coeff _ _ (by omega)]
    unfold bitAt
    have h1 : (8 * i + j) / 8 = i := by omega
    have h2 : (8 * i + j) % 8 = j := by omega
    rw [h1, h2]
  · have hgf := gf_gFieldMultiply x y hy
    unfold gf at hgf
    rw [← map_mul, AdjoinRoot.mk_eq_mk] at hgf
    obtain ⟨q, hq⟩ := hgf
    symm
    refine (Polynomial.div_modByMonic_unique (-q) (toPoly (gFieldMultiply x y).1)
      gcmPoly_monic ⟨?_, ?_⟩).2
    · linear_combination hq
    · rw [gcmPoly_degree]
      exact toPoly_degree_lt _

theorem gFieldMultiply_eq_product_mod_witness :
    IsBlock (gFieldMultiply (List.range 16) (List.replicate 16 3)).1 ∧
    (∀ i j : Nat, i < 16 → j < 8 →
      (toPoly (gFieldMultiply (List.range 16) (List.replicate 16 3)).1).coeff (8 * i + j) =
        if ((gFieldMultiply (List.range 16) (List.replicate 16 3)).1.getD i 0).testBit (7 - j)
          then 1 else 0) ∧
    toPoly (gFieldMultiply (List.range 16) (List.replicate 16 3)).1 =
      Polynomial.modByMonic (toPoly (List.range 16) * toPoly (List.replicate 16 3)) gcmPoly :=
  gFieldMultiply_eq_product_mod (List.range 16) (List.replicate 16 3) (by decide) (by decide)

/-! ## GHASH, one call after another -/

theorem refPad_append_of_aligned (a b : List Nat) (ha : a.length % 16 = 0) :
    refPad (a ++ b) = a ++ refPad b := by
  unfold refPad
  have h : (a ++ b).length % 16 = b.length % 16 := by
    rw [List.length_append]
    omega
  rw [h, List.append_assoc]

theorem refPad_aligned (data : List Nat) : (refPad data).length % 16 = 0 := by
  rw [refPad_length]
  omega

theorem GHASH_length (data H Y : List Nat) (hY : Y.length = 16) :
    (GHASH data data.length H Y).length = 16 := by
  rw [GHASH_eq_refFold data H Y hY]
  exact refFold_length _ _ _ hY

theorem GHASH_GHASH (H Y A B : List Nat) (hY : Y.length = 16) :
    GHASH B B.length H (GHASH A A.length H Y) =
      GHASH (refPad A ++ B) (refPad A ++ B).length H Y := by
  rw [GHASH_eq_refFold B H _ (GHASH_length A H Y hY), GHASH_eq_refFold A H Y hY,
    GHASH_eq_refFold (refPad A ++ B) H Y hY, ← refFold_append,
    refPad_append_of_aligned _ _ (refPad_aligned A), refBlocks_append (refPad_aligned A)]

/-- C19: calls of `GHASH` compose by threading the accumulator.  For every `H`,
accumulator block `Y` and data `A` and `B`, `GHASH` over `A` and then over `B`
on the same accumulator gives what one `GHASH` over `pad(A) ‖ B` gives; hence
the `S` of `generateTag` is one `GHASH` from the zero block over
`pad(AAD) ‖ pad(CDATA) ‖ length block`, that is, the fold over the blocks of
that string. -/
theorem GHASH_threads_accumulator (H Y A B AAD CDATA : List Nat) (hY : Y.length = 16) :
    GHASH B B.length H (GHASH A A.length H Y) =
      GHASH (refPad A ++ B) (refPad A ++ B).length H Y ∧
    generateTagS H AAD AAD.length CDATA CDATA.length =
      GHASH (refPad AAD ++ refPad CDATA ++ lengthBuffer AAD.length CDATA.length)
        (refPad AAD ++ refPad CDATA ++ lengthBuffer AAD.length CDATA.length).length H
        (zeros 16) ∧
    generateTagS H AAD AAD.length CDATA CDATA.length =
      refFold H (zeros 16)
        (refBlocks (refPad AAD ++ refPad CDATA ++ lengthBuffer AAD.length CDATA.length)) := by
  have hfold : generateTagS H AAD AAD.length CDATA CDATA.length =
      refFold H (zeros 16)
        (refBlocks (refPad AAD ++ refPad CDATA ++ lengthBuffer AAD.length CDATA.length)) := by
    rw [generateTagS_eq_refS, lengthBuffer_eq_ref]
    rfl
  refine ⟨GHASH_GHASH H Y A B hY, ?_, hfold⟩
  have hal : (refPad AAD ++ refPad CDATA ++
      lengthBuffer AAD.length CDATA.length).length % 16 = 0 := by
    rw [List.length_append, List.length_append, lengthBuffer_eq_ref, refLengthBlock_length]
    have h1 := refPad_aligned AAD
    have h2 := refPad_aligned CDATA
    omega
  rw [hfold, GHASH_eq_refFold _ H _ (by simp [zeros]), refPad_of_aligned hal]

theorem GHASH_threads_accumulator_witness :
    GHASH [4, 5, 6] [4, 5, 6].length (List.range 16)
        (GHASH [1, 2] [1, 2].length (List.range 16) (List.replicate 16 9)) =
      GHASH (refPad [1, 2] ++ [4, 5, 6]) (refPad [1, 2] ++ [4, 5, 6]).length (List.range 16)
        (List.replicate 16 9) ∧
    generateTagS (List.range 16) [7] [7].length [8, 9] [8, 9].length =
      GHASH (refPad [7] ++ refPad [8, 9] ++ lengthBuffer [7].length [8, 9].length)
        (refPad [7] ++ refPad [8, 9] ++ lengthBuffer [7].length [8, 9].length).length
        (List.range 16) (zeros 16) ∧
    generateTagS (List.range 16) [7] [7].length [8, 9] [8, 9].length =
      refFold (List.range 16) (zeros 16)
        (refBlocks (refPad [7] ++ refPad [8, 9] ++ lengthBuffer [7].length [8, 9].length)) :=
  GHASH_threads_accumulator (List.range 16) (List.replicate 16 9) [1, 2] [4, 5, 6] [7] [8, 9]
    (by decide)

/-! ## GHASH as a fold -/

/-- C20: for every `H`, accumulator block `Y` and input of 0..255 bytes, `GHASH`
returns the left fold of the step `Y ← gFieldMultiply(Y XOR B, H)` over the
16-byte blocks `B` of the input zero-padded to the next multiple of 16 bytes;
a last block of 1..15 bytes is treated as that block followed by zeros, and
an empty input leaves the accumulator as it is. -/
theorem GHASH_eq_fold (H Y data : List Nat) (hY : Y.length = 16)
    (_hd : data.length ≤ 255) :
    GHASH data data.length H Y =
      (refBlocks (refPad data)).foldl (fun Y B => (gFieldMultiply (refXor Y B) H).1) Y ∧
    (∀ full tail : List Nat, data = full ++ tail → full.length % 16 = 0 →
      0 < tail.length → tail.length < 16 →
      GHASH data data.length H Y =
        (gFieldMultiply
          (refXor (GHASH full full.length H Y) (tail ++ List.replicate (16 - tail.length) 0))
          H).1) ∧
    GHASH [] 0 H Y = Y := by
  refine ⟨GHASH_eq_refFold data H Y hY, ?_, rfl⟩
  intro full tail hd hfull ht0 ht16
  subst hd
  have hpad : refPad tail = tail ++ List.replicate (16 - tail.length) 0 := by
    unfold refPad
    have : (16 - tail.length % 16) % 16 = 16 - tail.length := by omega
    rw [this]
  have hl : (tail ++ List.replicate (16 - tail.length) 0).length = 16 := by
    rw [List.length_append, List.length_replicate]
    omega
  rw [GHASH_eq_refFold (full ++ tail) H Y hY, refPad_append_of_aligned _ _ hfull,
    refBlocks_append hfull, refFold_append, hpad, refBlocks_single hl, refFold_cons,
    refFold_nil, GHASH_eq_refFold full H Y hY, refPad_of_aligned hfull]

theorem GHASH_eq_fold_witness :
    GHASH (List.range 20) (List.range 20).length (List.range 16) (List.replicate 16 9) =
      (refBlocks (refPad (List.range 20))).foldl
        (fun Y B => (gFieldMultiply (refXor Y B) (List.range 16)).1) (List.replicate 16 9) ∧
    (∀ full tail : List Nat, List.range 20 = full ++ tail → full.length % 16 = 0 →
      0 < tail.length → tail.length < 16 →
      GHASH (List.range 20) (List.range 20).length (List.range 16) (List.replicate 16 9) =
        (gFieldMultiply
          (refXor (GHASH full full.length (List.range 16) (List.replicate 16 9))
            (tail ++ List.replicate (16 - tail.length) 0))
          (List.range 16)).1) ∧
    GHASH [] 0 (List.range 16) (List.replicate 16 9) = List.replicate 16 9 :=
  GHASH_eq_fold (List.range 16) (List.replicate 16 9) (List.range 20) (by decide) (by decide)

/-! ## Algebra of `gFieldMultiply` -/

/-- A block is determined by the element of `GF(2)[x] / (gcmPoly)` it stands
for. -/
theorem gf_injective {a b : List Nat} (ha : IsBlock a) (hb : IsBlock b) (h : gf a = gf b) :
    a = b := by
  have hl : a.length = b.length := by rw [ha.1, hb.1]
  have h0 : gf (refXor a b) = 0 := by
    rw [gf_refXor a b hl, h]
    unfold gf
    rw [← map_add, CharTwo.add_self_eq_zero, map_zero]
  have h1 : toPoly (refXor a b) = 0 := (gf_eq_zero_iff _).mp h0
  rw [toPoly_refXor a b hl] at h1
  apply toPoly_injective ha hb
  have h2 : toPoly a = toPoly a + toPoly b + toPoly b := by
    rw [add_assoc, CharTwo.add_self_eq_zero, add_zero]
  rw [h2, h1, zero_add]

theorem gf_xorBlock {a b : List Nat} (ha : a.length = 16) (hb : b.length = 16) :
    gf (xorBlock a b) = gf a + gf b := by
  rw [xorBlock_eq_refXor ha hb, gf_refXor a b (by rw [ha, hb])]

/-- C27: the product left by `gFieldMultiply` is commutative.  For all 16-byte
blocks `x` and `y` the block computed from `(x, y)` is the block computed from
`(y, x)`, although `x` is scanned bit by bit while `y` is shifted and
reduced. -/
theorem gFieldMultiply_comm (x y : List Nat) (hx : IsBlock x) (hy : IsBlock y) :
    (gFieldMultiply x y).1 = (gFieldMultiply y x).1 := by
  apply gf_injective (gFieldMultiply_isBlock x y hy) (gFieldMultiply_isBlock y x hx)
  rw [gf_gFieldMultiply x y hy, gf_gFieldMultiply y x hx, mul_comm]

theorem gFieldMultiply_comm_witness :
    IsBlock (List.range 16) ∧ IsBlock (List.replicate 16 3) ∧
    (gFieldMultiply (List.range 16) (List.replicate 16 3)).1 =
      (gFieldMultiply (List.replicate 16 3) (List.range 16)).1 :=
  ⟨by decide, by decide,
    gFieldMultiply_comm (List.range 16) (List.replicate 16 3) (by decide) (by decide)⟩

/-- C28: the product left by `gFieldMultiply` is linear over XOR in each
argument.  For all 16-byte blocks `a`, `b` and `y`, with `xorBlock` as the XOR
of blocks: the product of `a XOR b` and `y` is the XOR of the products of `a`
and `y` and of `b` and `y`, likewise with `y` on the left, and a product with
the zero block on either side is the zero block. -/
theorem gFieldMultiply_linear (a b y : List Nat) (ha : IsBlock a) (hb : IsBlock b)
    (hy : IsBlock y) :
    (gFieldMultiply (xorBlock a b) y).1 =
      xorBlock (gFieldMultiply a y).1 (gFieldMultiply b y).1 ∧
    (gFieldMultiply y (xorBlock a b)).1 =
      xorBlock (gFieldMultiply y a).1 (gFieldMultiply y b).1 ∧
    (gFieldMultiply (zeros 16) y).1 = zeros 16 ∧
    (gFieldMultiply y (zeros 16)).1 = zeros 16 := by
  have hab := xorBlock_isBlock ha hb
  refine ⟨?_, ?_, ?_, ?_⟩
  · apply gf_injective (gFieldMultiply_isBlock _ y hy)
      (xorBlock_isBlock (gFieldMultiply_isBlock a y hy) (gFieldMultiply_isBlock b y hy))
    rw [gf_gFieldMultiply _ y hy, gf_xorBlock ha.1 hb.1,
      gf_xorBlock (gFieldMultiply_isBlock a y hy).1 (gFieldMultiply_isBlock b y hy).1,
      gf_gFieldMultiply a y hy, gf_gFieldMultiply b y hy, add_mul]
  · apply gf_injective (gFieldMultiply_isBlock y _ hab)
      (xorBlock_isBlock (gFieldMultiply_isBlock y a ha) (gFieldMultiply_isBlock y b hb))
    rw [gf_gFieldMultiply y _ hab, gf_xorBlock ha.1 hb.1,
      gf_xorBlock (gFieldMultiply_isBlock y a ha).1 (gFieldMultiply_isBlock y b hb).1,
      gf_gFieldMultiply y a ha, gf_gFieldMultiply y b hb, mul_add]
  · apply gf_injective (gFieldMultiply_isBlock _ y hy) zeros_isBlock
    rw [gf_gFieldMultiply _ y hy, gf_zeros, zero_mul]
  · apply gf_injective (gFieldMultiply_isBlock y _ zeros_isBlock) zeros_isBlock
    rw [gf_gFieldMultiply y _ zeros_isBlock, gf_zeros, mul_zero]

theorem gFieldMultiply_linear_witness :
    (gFieldMultiply (xorBlock (List.range 16) (List.replicate 16 3)) (List.replicate 16 9)).1 =
      xorBlock (gFieldMultiply (List.range 16) (List.replicate 16 9)).1
        (gFieldMultiply (List.replicate 16 3) (List.replicate 16 9)).1 ∧
    (gFieldMultiply (List.replicate 16 9) (xorBlock (List.range 16) (List.replicate 16 3))).1 =
      xorBlock (gFieldMultiply (List.replicate 16 9) (List.range 16)).1
        (gFieldMultiply (List.replicate 16 9) (List.replicate 16 3)).1 ∧
    (gFieldMultiply (zeros 16) (List.replicate 16 9)).1 = zeros 16 ∧
    (gFieldMultiply (List.replicate 16 9) (zeros 16)).1 = zeros 16 :=
  gFieldMultiply_linear (List.range 16) (List.replicate 16 3) (List.replicate 16 9)
    (by decide) (by decide) (by decide)

/-! ## Counter blocks of one operation -/

/-- One call of `incr32` on a block: the result is a block whose last four
bytes, read big-endian, are one more modulo `2^32`. -/
theorem incr32_step (b : List Nat) (hb : IsBlock b) :
    IsBlock (incr32 b) ∧ beNat ((incr32 b).drop 12) = (beNat (b.drop 12) + 1) % 2 ^ 32 := by
  obtain ⟨a0, a1, a2, a3, a4, a5, a6, a7, a8, a9, a10, a11, a12, a13, a14, a15, rfl⟩ :=
    length16_cases hb.1
  have hbytes := hb.2
  simp only [IsBytes, List.mem_cons, List.mem_singleton, forall_eq_or_imp, forall_eq,
    List.not_mem_nil, false_imp_iff, implies_true, and_true] at hbytes
  obtain ⟨h0, h1, h2, h3, h4, h5, h6, h7, h8, h9, h10, h11, h12, h13, h14, h15⟩ := hbytes
  have hm : ∀ x : Nat, (x + 1) % 256 < 256 := fun x => Nat.mod_lt _ (by norm_num)
  rw [incr32_cons]
  refine ⟨⟨?_, ?_⟩, ?_⟩
  · split_ifs <;> rfl
  · split_ifs <;>
      simp only [IsBytes, List.mem_cons, List.mem_singleton, forall_eq_or_imp, forall_eq,
        List.not_mem_nil, false_imp_iff, implies_true, and_true] <;>
      simp only [h0, h1, h2, h3, h4, h5, h6, h7, h8, h9, h10, h11, h12, h13, h14, h15, hm,
        and_self]
  · split_ifs <;>
      simp only [beNat, List.drop_succ_cons, List.drop_zero, List.foldl_cons, List.foldl_nil] <;>
      omega

theorem beNat_drop12_lt (b : List Nat) (hb : IsBlock b) : beNat (b.drop 12) < 2 ^ 32 := by
  obtain ⟨a0, a1, a2, a3, a4, a5, a6, a7, a8, a9, a10, a11, a12, a13, a14, a15, rfl⟩ :=
    length16_cases hb.1
  have hbytes := hb.2
  simp only [IsBytes, List.mem_cons, List.mem_singleton, forall_eq_or_imp, forall_eq,
    List.not_mem_nil, false_imp_iff, implies_true, and_true] at hbytes
  obtain ⟨h0, h1, h2, h3, h4, h5, h6, h7, h8, h9, h10, h11, h12, h13, h14, h15⟩ := hbytes
  simp only [beNat, List.drop_succ_cons, List.drop_zero, List.foldl_cons, List.foldl_nil]
  omega

/-- After `n` calls of `incr32` the last four bytes of a block, read
big-endian, have advanced by `n` modulo `2^32`. -/
theorem iterate_incr32_beNat (b : List Nat) (hb : IsBlock b) (n : Nat) :
    IsBlock (incr32^[n] b) ∧
      beNat ((incr32^[n] b).drop 12) = (beNat (b.drop 12) + n) % 2 ^ 32 := by
  induction n with
  | zero =>
    refine ⟨hb, ?_⟩
    rw [Function.iterate_zero, id, Nat.add_zero, Nat.mod_eq_of_lt (beNat_drop12_lt b hb)]
  | succ n ih =>
    rw [Function.iterate_succ_apply']
    have h := incr32_step _ ih.1
    refine ⟨h.1, ?_⟩
    rw [h.2, ih.2]
    omega

theorem iterate_incr32_ne (b : List Nat) (hb : IsBlock b) (i j : Nat) (hij : i < j)
    (hj : j < 2 ^ 32) : incr32^[i] b ≠ incr32^[j] b := by
  intro h
  have hi := (iterate_incr32_beNat b hb i).2
  have hj2 := (iterate_incr32_beNat b hb j).2
  rw [h, hj2] at hi
  norm_num at hi hj
  omega

/-- The counter block held by the loop of `GCTR` and `GCTRPadded` after `n`
blocks. -/
theorem gctr_counter (E : List Nat → List Nat → List Nat) (pInput pKey ctr out : List Nat)
    (n : Nat) :
    ((List.range n).foldl (gctrBlockStep E pInput pKey) (ctr, out)).1 = incr32^[n] ctr := by
  induction n with
  | zero => rfl
  | succ n ih =>
    rw [List.range_succ, List.foldl_append, List.foldl_cons, List.foldl_nil,
      Function.iterate_succ_apply']
    show incr32 ((List.range n).foldl (gctrBlockStep E pInput pKey) (ctr, out)).1 = _
    rw [ih]

/-- C26: counter blocks are not reused within one operation.  For every block
`J0` and all `i < j < 2^32` the blocks `incr32^i(J0)` and `incr32^j(J0)`
differ; so the counter blocks `incr32^1(J0) .. incr32^15(J0)` are pairwise
distinct and none is `J0`, the block that masks the tag; and the counter block
the loop of `GCTRPadded` holds for data block `n`, started by
`generateCDATAPadded` at `incr32(J0)`, is `incr32^(n+1)(J0)`. -/
theorem counter_blocks_distinct (J0 : List Nat) (hJ : IsBlock J0) :
    (∀ i j : Nat, i < j → j < 2 ^ 32 → incr32^[i] J0 ≠ incr32^[j] J0) ∧
    (∀ i j : Nat, 1 ≤ i → i < j → j ≤ 15 → incr32^[i] J0 ≠ incr32^[j] J0) ∧
    (∀ i : Nat, 1 ≤ i → i ≤ 15 → incr32^[i] J0 ≠ J0) ∧
    (∀ (E : List Nat → List Nat → List Nat) (pInput pKey out : List Nat) (n : Nat),
      ((List.range n).foldl (gctrBlockStep E pInput pKey) (incr32 (readBlock J0 0), out)).1 =
        incr32^[n + 1] J0) := by
  refine ⟨fun i j hij hj => iterate_incr32_ne J0 hJ i j hij hj, ?_, ?_, ?_⟩
  · intro i j _ hij hj
    exact iterate_incr32_ne J0 hJ i j hij (lt_of_le_of_lt hj (by norm_num))
  · intro i hi1 hi
    exact (iterate_incr32_ne J0 hJ 0 i (by omega) (lt_of_le_of_lt hi (by norm_num))).symm
  · intro E pInput pKey out n
    rw [gctr_counter, readBlock_zero_of_length hJ.1, Function.iterate_succ_apply]

theorem counter_blocks_distinct_witness :
    (∀ i j : Nat, i < j → j < 2 ^ 32 →
      incr32^[i] (List.replicate 12 7 ++ [0xff, 0xff, 0xff, 0xfe]) ≠
        incr32^[j] (List.replicate 12 7 ++ [0xff, 0xff, 0xff, 0xfe])) ∧
    (∀ i j : Nat, 1 ≤ i → i < j → j ≤ 15 →
      incr32^[i] (List.replicate 12 7 ++ [0xff, 0xff, 0xff, 0xfe]) ≠
        incr32^[j] (List.replicate 12 7 ++ [0xff, 0xff, 0xff, 0xfe])) ∧
    (∀ i : Nat, 1 ≤ i → i ≤ 15 →
      incr32^[i] (List.replicate 12 7 ++ [0xff, 0xff, 0xff, 0xfe]) ≠
        List.replicate 12 7 ++ [0xff, 0xff, 0xff, 0xfe]) ∧
    (∀ (E : List Nat → List Nat → List Nat) (pInput pKey out : List Nat) (n : Nat),
      ((List.range n).foldl (gctrBlockStep E pInput pKey)
        (incr32 (readBlock (List.replicate 12 7 ++ [0xff, 0xff, 0xff, 0xfe]) 0), out)).1 =
        incr32^[n + 1] (List.replicate 12 7 ++ [0xff, 0xff, 0xff, 0xfe])) :=
  counter_blocks_distinct (List.replicate 12 7 ++ [0xff, 0xff, 0xff, 0xfe]) (by decide)

/-! ## The counter blocks of `GCTR` -/

theorem GCTRRun_pOutput (E : List Nat → List Nat → List Nat) (pInput : List Nat)
    (inputLength : Nat) (pKey pCtrBlock ctrBlock pOutput : List Nat) :
    (GCTRRun E pInput inputLength pKey pCtrBlock ctrBlock pOutput).pOutput =
      GCTR E pInput inputLength pKey pCtrBlock pOutput := by
  unfold GCTRRun GCTR
  split
  · rfl
  · simp only
    split <;> rfl

theorem GCTRRun_pCtrBlock (E : List Nat → List Nat → List Nat) (pInput : List Nat)
    (inputLength : Nat) (pKey pCtrBlock ctrBlock pOutput : List Nat) :
    (GCTRRun E pInput inputLength pKey pCtrBlock ctrBlock pOutput).pCtrBlock = pCtrBlock := by
  unfold GCTRRun
  split
  · rfl
  · simp only
    split <;> rfl

theorem GCTRRun_ctrBlock (E : List Nat → List Nat → List Nat) (pInput : List Nat)
    (inputLength : Nat) (pKey pCtrBlock ctrBlock pOutput : List Nat) (h : inputLength ≠ 0) :
    (GCTRRun E pInput inputLength pKey pCtrBlock ctrBlock pOutput).ctrBlock =
      incr32^[inputLength / 16] (readBlock pCtrBlock 0) := by
  unfold GCTRRun
  rw [if_neg h]
  simp only
  split <;> exact gctr_counter E pInput pKey _ pOutput _

/-! ## Counter mode, byte by byte -/

theorem refXor_getD : ∀ (a b : List Nat) (j : Nat), j < a.length → j < b.length →
    (refXor a b).getD j 0 = a.getD j 0 ^^^ b.getD j 0
  | [], _, _, h, _ => by simp at h
  | _ :: _, [], _, _, h => by simp at h
  | x :: a, y :: b, 0, _, _ => by simp [refXor]
  | x :: a, y :: b, j + 1, ha, hb => by
    have := refXor_getD a b j (by simpa using ha) (by simpa using hb)
    simpa [refXor] using this

theorem getD_take_drop (l : List Nat) (i k : Nat) (hk : k < 16) :
    ((l.drop (16 * i)).take 16).getD k 0 = l.getD (16 * i + k) 0 := by
  simp only [List.getD_eq_getElem?_getD, List.getElem?_take, List.getElem?_drop, hk, if_true]

/-- Byte `j` of the key stream is byte `j mod 16` of `E_k(incr32^(j div 16)(ctr))`. -/
theorem keystream_getD {E : List Nat → List Nat → List Nat} (hE : ∀ b k, (E b k).length = 16)
    (key ctr : List Nat) (n j : Nat) (hj : j < 16 * n) :
    (keystream E key ctr n).getD j 0 = (E (incr32^[j / 16] ctr) key).getD (j % 16) 0 := by
  have h := flatMap_range_block (fun i => E (incr32^[i] ctr) key) (fun _ => hE _ _) n (j / 16)
    (by omega)
  have h2 := getD_take_drop (keystream E key ctr n) (j / 16) (j % 16) (Nat.mod_lt _ (by norm_num))
  rw [Nat.div_add_mod] at h2
  rw [← h2]
  unfold keystream
  rw [h]

/-- C22 (amended): the unpadded counter mode, for buffers and a workspace that
do not overlap one another.  For every block cipher, key,
counter block `ctr` and input of length `L ≤ 255`, with an output buffer of at
least `L` bytes, `GCTR` leaves the length of the output buffer as it was,
stores `input[j] XOR E_k(incr32^(j div 16)(ctr))[j mod 16]` in byte `j` for
every `j < L`, and leaves the bytes at index `L` and above unchanged; the
counter block of the caller is as it was, while the copy
`workspace->ctrBlock` has advanced to `incr32^(L div 16)(ctr)`; with length 0
nothing at all is stored. -/
theorem GCTR_bytes (E : List Nat → List Nat → List Nat) (hE : IsBlockCipher E)
    (inp key ctr ctrBlock out : List Nat) (hctr : ctr.length = 16) (hL : inp.length ≤ 255)
    (hout : inp.length ≤ out.length) :
    (GCTRRun E inp inp.length key ctr ctrBlock out).pOutput =
      GCTR E inp inp.length key ctr out ∧
    (GCTR E inp inp.length key ctr out).length = out.length ∧
    (∀ j : Nat, j < inp.length →
      (GCTR E inp inp.length key ctr out).getD j 0 =
        inp.getD j 0 ^^^ (E (incr32^[j / 16] ctr) key).getD (j % 16) 0) ∧
    (∀ j : Nat, inp.length ≤ j →
      (GCTR E inp inp.length key ctr out).getD j 0 = out.getD j 0) ∧
    (GCTRRun E inp inp.length key ctr ctrBlock out).pCtrBlock = ctr ∧
    (inp.length ≠ 0 →
      (GCTRRun E inp inp.length key ctr ctrBlock out).ctrBlock =
        incr32^[inp.length / 16] ctr) ∧
    GCTRRun E inp 0 key ctr ctrBlock out =
      { pCtrBlock := ctr, ctrBlock := ctrBlock, pOutput := out } ∧
    GCTR E inp 0 key ctr out = out := by
  have hk := keystream_length hE.length key ctr ((inp.length + 15) / 16)
  have hX : (refXor inp (keystream E key ctr ((inp.length + 15) / 16))).length =
      inp.length := by
    simp only [refXor, List.length_zipWith, hk]
    omega
  refine ⟨GCTRRun_pOutput _ _ _ _ _ _ _, ?_, ?_, ?_, GCTRRun_pCtrBlock _ _ _ _ _ _ _, ?_,
    by simp [GCTRRun], by simp [GCTR]⟩
  · rw [GCTR_eq hE.length inp key ctr out hctr (by omega) hout, List.length_append, hX,
      List.length_drop]
    omega
  · intro j hj
    rw [GCTR_eq hE.length inp key ctr out hctr (by omega) hout,
      List.getD_append _ _ _ _ (by rw [hX]; exact hj),
      refXor_getD _ _ j hj (by rw [hk]; omega),
      keystream_getD hE.length key ctr _ j (by omega)]
  · intro j hj
    rw [GCTR_eq hE.length inp key ctr out hctr (by omega) hout,
      List.getD_append_right _ _ _ _ (by rw [hX]; exact hj), hX]
    simp only [List.getD_eq_getElem?_getD, List.getElem?_drop]
    rw [Nat.add_sub_cancel' hj]
  · intro h0
    rw [GCTRRun_ctrBlock _ _ _ _ _ _ _ h0, readBlock_zero_of_length hctr]

theorem GCTR_bytes_witness :
    (GCTRRun toyCipher [1, 2, 3] [1, 2, 3].length (List.range 16) (List.replicate 16 0)
      (List.replicate 16 8) (List.replicate 16 9)).pOutput =
      GCTR toyCipher [1, 2, 3] [1, 2, 3].length (List.range 16) (List.replicate 16 0)
        (List.replicate 16 9) ∧
    (GCTR toyCipher [1, 2, 3] [1, 2, 3].length (List.range 16) (List.replicate 16 0)
      (List.replicate 16 9)).length = (List.replicate 16 9).length ∧
    (∀ j : Nat, j < [1, 2, 3].length →
      (GCTR toyCipher [1, 2, 3] [1, 2, 3].length (List.range 16) (List.replicate 16 0)
        (List.replicate 16 9)).getD j 0 =
        [1, 2, 3].getD j 0 ^^^
          (toyCipher (incr32^[j / 16] (List.replicate 16 0)) (List.range 16)).getD (j % 16) 0) ∧
    (∀ j : Nat, [1, 2, 3].length ≤ j →
      (GCTR toyCipher [1, 2, 3] [1, 2, 3].length (List.range 16) (List.replicate 16 0)
        (List.replicate 16 9)).getD j 0 = (List.replicate 16 9).getD j 0) ∧
    (GCTRRun toyCipher [1, 2, 3] [1, 2, 3].length (List.range 16) (List.replicate 16 0)
      (List.replicate 16 8) (List.replicate 16 9)).pCtrBlock = List.replicate 16 0 ∧
    ([1, 2, 3].length ≠ 0 →
      (GCTRRun toyCipher [1, 2, 3] [1, 2, 3].length (List.range 16) (List.replicate 16 0)
        (List.replicate 16 8) (List.replicate 16 9)).ctrBlock =
        incr32^[[1, 2, 3].length / 16] (List.replicate 16 0)) ∧
    GCTRRun toyCipher [1, 2, 3] 0 (List.range 16) (List.replicate 16 0) (List.replicate 16 8)
        (List.replicate 16 9) =
      { pCtrBlock := List.replicate 16 0, ctrBlock := List.replicate 16 8,
        pOutput := List.replicate 16 9 } ∧
    GCTR toyCipher [1, 2, 3] 0 (List.range 16) (List.replicate 16 0) (List.replicate 16 9) =
      List.replicate 16 9 :=
  GCTR_bytes toyCipher toyCipher_isBlockCipher [1, 2, 3] (List.range 16) (List.replicate 16 0)
    (List.replicate 16 8) (List.replicate 16 9) (by decide) (by decide) (by decide)

/-- C23: on block-aligned input the two counter modes agree.  For every block
cipher, key, counter block, output buffer and input length that is a multiple
of 16, `GCTRPadded` and `GCTR` leave the same output buffer; so do
`generateCDATAPadded` and `generateCDATA`. -/
theorem GCTRPadded_eq_GCTR (E : List Nat → List Nat → List Nat)
    (pInput pKey pCtrBlock pOutput : List Nat) (inputLength : Nat)
    (h : inputLength % 16 = 0) :
    GCTRPadded E pInput inputLength pKey pCtrBlock pOutput =
      GCTR E pInput inputLength pKey pCtrBlock pOutput ∧
    generateCDATAPadded E pCtrBlock pInput inputLength pOutput pKey =
      generateCDATA E pCtrBlock pInput inputLength pOutput pKey := by
  have hlast : (inputLength - AES128GCM_BLOCK_SIZE * (inputLength / 16)) % 256 = 0 := by
    simp only [AES128GCM_BLOCK_SIZE]
    omega
  have h1 : ∀ c : List Nat, GCTRPadded E pInput inputLength pKey c pOutput =
      GCTR E pInput inputLength pKey c pOutput := by
    intro c
    unfold GCTRPadded GCTR
    by_cases h0 : inputLength = 0
    · rw [if_pos h0, if_pos h0]
    · rw [if_neg h0, if_neg h0]
      simp only [hlast, ne_eq, not_true_eq_false, if_false]
  refine ⟨h1 _, ?_⟩
  unfold generateCDATAPadded generateCDATA
  by_cases h0 : inputLength = 0
  · rw [if_pos h0, if_pos h0]
  · rw [if_neg h0, if_neg h0]
    exact h1 _

theorem GCTRPadded_eq_GCTR_witness :
    32 % 16 = 0 ∧
    GCTRPadded toyCipher (List.range 32) 32 (List.range 16) (List.replicate 16 0)
        (List.replicate 32 9) =
      GCTR toyCipher (List.range 32) 32 (List.range 16) (List.replicate 16 0)
        (List.replicate 32 9) ∧
    generateCDATAPadded toyCipher (List.replicate 16 0) (List.range 32) 32
        (List.replicate 32 9) (List.range 16) =
      generateCDATA toyCipher (List.replicate 16 0) (List.range 32) 32
        (List.replicate 32 9) (List.range 16) :=
  ⟨by decide, GCTRPadded_eq_GCTR toyCipher (List.range 32) (List.range 16)
    (List.replicate 16 0) (List.replicate 32 9) 32 (by decide)⟩

/-! ## The length block -/

theorem be64_of_lt (n : Nat) (h : n < 65536) :
    be64 n = [0, 0, 0, 0, 0, 0, n / 256, n % 256] := by
  have hr : List.range 8 = [0, 1, 2, 3, 4, 5, 6, 7] := by decide
  simp only [be64, hr, List.map_cons, List.map_nil, List.cons.injEq, and_true]
  norm_num
  omega

/-- C24: for every AAD length `a` and ciphertext length `c` in `0..255` the
length block built by `generateTag` is the standard GCM length block
`[8a]_64 ‖ [8c]_64`, two big-endian 64-bit bit lengths: bytes 6–7 hold `8a`,
bytes 14–15 hold `8c`, every other byte is zero, and the 16-bit value `temp`
does not wrap. -/
theorem lengthBuffer_eq_be64 (a c : Nat) (ha : a ≤ 255) (hc : c ≤ 255) :
    lengthBuffer a c = be64 (8 * a) ++ be64 (8 * c) ∧
    (lengthBuffer a c).getD 6 0 * 256 + (lengthBuffer a c).getD 7 0 = 8 * a ∧
    (lengthBuffer a c).getD 14 0 * 256 + (lengthBuffer a c).getD 15 0 = 8 * c ∧
    (∀ i : Nat, i ≠ 6 → i ≠ 7 → i ≠ 14 → i ≠ 15 → (lengthBuffer a c).getD i 0 = 0) ∧
    (a * 8) % 65536 = a * 8 ∧ (c * 8) % 65536 = c * 8 := by
  have h1 : 8 * a % 65536 = 8 * a := by omega
  have h2 : 8 * c % 65536 = 8 * c := by omega
  rw [lengthBuffer_eq_ref, be64_of_lt (8 * a) (by omega), be64_of_lt (8 * c) (by omega)]
  simp only [refLengthBlock, h1, h2]
  refine ⟨rfl, ?_, ?_, ?_, by omega, by omega⟩
  · simp only [List.getD_cons_succ, List.getD_cons_zero]
    omega
  · simp only [List.getD_cons_succ, List.getD_cons_zero]
    omega
  · intro i h6 h7 h14 h15
    match i, h6, h7, h14, h15 with
    | 0, _, _, _, _ => rfl
    | 1, _, _, _, _ => rfl
    | 2, _, _, _, _ => rfl
    | 3, _, _, _, _ => rfl
    | 4, _, _, _, _ => rfl
    | 5, _, _, _, _ => rfl
    | 6, h, _, _, _ => exact absurd rfl h
    | 7, _, h, _, _ => exact absurd rfl h
    | 8, _, _, _, _ => rfl
    | 9, _, _, _, _ => rfl
    | 10, _, _, _, _ => rfl
    | 11, _, _, _, _ => rfl
    | 12, _, _, _, _ => rfl
    | 13, _, _, _, _ => rfl
    | 14, _, _, h, _ => exact absurd rfl h
    | 15, _, _, _, h => exact absurd rfl h
    | k + 16, _, _, _, _ => rfl

theorem lengthBuffer_eq_be64_witness :
    lengthBuffer 255 240 = be64 (8 * 255) ++ be64 (8 * 240) ∧
    (lengthBuffer 255 240).getD 6 0 * 256 + (lengthBuffer 255 240).getD 7 0 = 8 * 255 ∧
    (lengthBuffer 255 240).getD 14 0 * 256 + (lengthBuffer 255 240).getD 15 0 = 8 * 240 ∧
    (∀ i : Nat, i ≠ 6 → i ≠ 7 → i ≠ 14 → i ≠ 15 → (lengthBuffer 255 240).getD i 0 = 0) ∧
    (255 * 8) % 65536 = 255 * 8 ∧ (240 * 8) % 65536 = 240 * 8 :=
  lengthBuffer_eq_be64 255 240 (by decide) (by decide)

/-! ## The tag of the unpadded encrypt -/

/-- C25: for a plaintext of length `L < 240` that is not a multiple of 16,
`gcmEncrypt` succeeds and leaves a ciphertext buffer `C` of `roundUp16(L)`
bytes whose first `L` bytes are the plaintext XORed with the key stream and
whose bytes from `L` on are the ones the caller left there; the tag is
`E_k(J0) XOR` the GHASH fold from the zero block over
`pad(AAD) ‖ C ‖ length block`, the length block holding `roundUp16(L)` as the
ciphertext length; and for a subkey other than the zero block, flipping any
bit of the caller's bytes `L .. roundUp16(L) - 1` changes the tag. -/
theorem gcmEncrypt_tag_over_buffer (E : List Nat → List Nat → List Nat) (hE : IsBlockCipher E)
    (workspace key IV ADATA P cdata tag : List Nat)
    (hIV : IV.length = 12) (hL : P.length < 240) (hu : P.length % 16 ≠ 0)
    (hc : cdata.length = 16 * ((P.length + 15) / 16)) (ht : tag.length = 16) :
    ∃ C : List Nat,
      (gcmEncrypt E workspace key IV P P.length ADATA ADATA.length (some cdata) tag).success =
        true ∧
      (gcmEncrypt E workspace key IV P P.length ADATA ADATA.length (some cdata) tag).CDATA =
        some C ∧
      C.length = 16 * ((P.length + 15) / 16) ∧
      (∀ j : Nat, j < P.length →
        C.getD j 0 =
          P.getD j 0 ^^^ (E (incr32^[j / 16 + 1] (generateICB IV)) key).getD (j % 16) 0) ∧
      (∀ j : Nat, P.length ≤ j → C.getD j 0 = cdata.getD j 0) ∧
      (gcmEncrypt E workspace key IV P P.length ADATA ADATA.length (some cdata) tag).tag =
        refXor (E (generateICB IV) key)
          (refFold (generateAuthKey E key) (zeros 16)
            (refBlocks (refPad ADATA ++ C ++
              lengthBuffer ADATA.length (16 * ((P.length + 15) / 16))))) ∧
      (generateAuthKey E key ≠ zeros 16 →
        ∀ q r : Nat, P.length ≤ q → q < cdata.length → r < 8 →
          (gcmEncrypt E workspace key IV P P.length ADATA ADATA.length
              (some (flipBit cdata q r)) tag).tag ≠
            (gcmEncrypt E workspace key IV P P.length ADATA ADATA.length (some cdata)
              tag).tag) := by
  have hne : ¬ (P = [] ∧ ADATA = []) := by
    rintro ⟨hP, _⟩
    rw [hP] at hu
    exact hu rfl
  have hk := keystream_length hE.length key (incr32 (refJ0 IV)) ((P.length + 15) / 16)
  have hX : (refXor P (keystream E key (incr32 (refJ0 IV)) ((P.length + 15) / 16))).length =
      P.length := by
    simp only [refXor, List.length_zipWith, hk]
    omega
  have hCl := unpadded_buffer_length hE.length key (incr32 (refJ0 IV)) P cdata hc
  have hrun := gcmEncrypt_run hE workspace key IV ADATA P cdata tag hIV hL hne hc ht
  refine ⟨refXor P (keystream E key (incr32 (refJ0 IV)) ((P.length + 15) / 16)) ++
    cdata.drop P.length, ?_, ?_, hCl, ?_, ?_, ?_, ?_⟩
  · rw [hrun]
  · rw [hrun]
  · intro j hj
    rw [List.getD_append _ _ _ _ (by rw [hX]; exact hj),
      refXor_getD _ _ j hj (by rw [hk]; omega),
      keystream_getD hE.length key _ _ j (by omega), generateICB_eq_refJ0 hIV,
      Function.iterate_succ_apply]
  · intro j hj
    rw [List.getD_append_right _ _ _ _ (by rw [hX]; exact hj), hX]
    simp only [List.getD_eq_getElem?_getD, List.getElem?_drop]
    rw [Nat.add_sub_cancel' hj]
  · rw [hrun, generateICB_eq_refJ0 hIV, lengthBuffer_eq_ref]
    show refTag E key IV ADATA _ = _
    unfold refTag refS
    rw [@refPad_of_aligned (refXor P (keystream E key (incr32 (refJ0 IV))
      ((P.length + 15) / 16)) ++ cdata.drop P.length) (by rw [hCl]; omega), hCl]
    rfl
  · intro hH q r hq hq2 hr
    exact (gcmEncrypt_flipBit_buffer hE workspace key IV ADATA P cdata tag q r hH hIV hL hne
      hc ht hq hq2 hr).2

theorem gcmEncrypt_tag_over_buffer_witness :
    ∃ C : List Nat,
      (gcmEncrypt toyCipher [] (List.range 16) (List.range 12) [1] [1].length [5, 6]
        [5, 6].length (some (List.replicate 16 0)) (List.replicate 16 0)).success = true ∧
      (gcmEncrypt toyCipher [] (List.range 16) (List.range 12) [1] [1].length [5, 6]
        [5, 6].length (some (List.replicate 16 0)) (List.replicate 16 0)).CDATA = some C ∧
      C.length = 16 * (([1].length + 15) / 16) ∧
      (∀ j : Nat, j < [1].length →
        C.getD j 0 =
          [1].getD j 0 ^^^
            (toyCipher (incr32^[j / 16 + 1] (generateICB (List.range 12)))
              (List.range 16)).getD (j % 16) 0) ∧
      (∀ j : Nat, [1].length ≤ j → C.getD j 0 = (List.replicate 16 0).getD j 0) ∧
      (gcmEncrypt toyCipher [] (List.range 16) (List.range 12) [1] [1].length [5, 6]
        [5, 6].length (some (List.replicate 16 0)) (List.replicate 16 0)).tag =
        refXor (toyCipher (generateICB (List.range 12)) (List.range 16))
          (refFold (generateAuthKey toyCipher (List.range 16)) (zeros 16)
            (refBlocks (refPad [5, 6] ++ C ++
              lengthBuffer [5, 6].length (16 * (([1].length + 15) / 16))))) ∧
      (generateAuthKey toyCipher (List.range 16) ≠ zeros 16 →
        ∀ q r : Nat, [1].length ≤ q → q < (List.replicate 16 0).length → r < 8 →
          (gcmEncrypt toyCipher [] (List.range 16) (List.range 12) [1] [1].length [5, 6]
              [5, 6].length (some (flipBit (List.replicate 16 0) q r))
              (List.replicate 16 0)).tag ≠
            (gcmEncrypt toyCipher [] (List.range 16) (List.range 12) [1] [1].length [5, 6]
              [5, 6].length (some (List.replicate 16 0)) (List.replicate 16 0)).tag) :=
  gcmEncrypt_tag_over_buffer toyCipher toyCipher_isBlockCipher [] (List.range 16)
    (List.range 12) [5, 6] [1] (List.replicate 16 0) (List.replicate 16 0) (by decide)
    (by decide) (by decide) (by decide) (by decide)

/-! ## The accumulator of `GHASH` -/

theorem refBlocks_refPad_length (data : List Nat) :
    (refBlocks (refPad data)).length = (data.length + 15) / 16 := by
  unfold refBlocks
  rw [chunks_length, refPad_length]
  omega

/-- How the block left by `GHASH` depends on the accumulator it is entered
with. -/
theorem gf_GHASH {H : List Nat} (hH : IsBlock H) (data Y : List Nat) (hY : Y.length = 16) :
    gf (GHASH data data.length H Y) =
      gf Y * gf H ^ ((data.length + 15) / 16) + gf (GHASH data data.length H (zeros 16)) := by
  rw [GHASH_eq_refFold data H Y hY, GHASH_eq_refFold data H (zeros 16) zeros_isBlock.1,
    gf_refFold hH _ Y hY (refBlocks_block_length _), refBlocks_refPad_length]

/-- Flipping one bit of the accumulator before a call of `GHASH` changes the
block the call leaves, for a subkey other than the zero block. -/
theorem GHASH_flipBit_accumulator {H : List Nat} (hH : IsBlock H) (hne : H ≠ zeros 16)
    (data Y : List Nat) (hY : Y.length = 16) (q r : Nat) (hq : q < 16) (hr : r < 8) :
    GHASH data data.length H (flipBit Y q r) ≠ GHASH data data.length H Y := by
  by_cases h0 : (data.length + 15) / 16 = 0
  · have hd : data = [] := List.length_eq_zero.mp (by omega)
    subst hd
    have hG : ∀ Z : List Nat, GHASH [] ([] : List Nat).length H Z = Z := by
      intro Z
      simp [GHASH]
    rw [hG, hG]
    exact flipBit_ne r (by rw [hY]; exact hq)
  · apply refS_ne_of_gf_shift hH hne
    refine ⟨8 * q + (7 - r), (data.length + 15) / 16, h0, ?_⟩
    rw [gf_GHASH hH data _ (by rw [flipBit_length]; exact hY), gf_GHASH hH data Y hY,
      gf_flipBit Y q r (by rw [hY]; exact hq) hq hr]
    ring

/-- The block `80 00 .. 00` stands for the polynomial 1: a product with it on
the left is the other block. -/
theorem gFieldMultiply_one_left (y : List Nat) (hy : IsBlock y) :
    (gFieldMultiply (0x80 :: List.replicate 15 0) y).1 = y := by
  apply gf_injective (gFieldMultiply_isBlock _ y hy) hy
  have h1 : (0x80 :: List.replicate 15 0 : List Nat) = flipBit (zeros 16) 0 7 := by decide
  rw [gf_gFieldMultiply _ y hy, h1,
    gf_flipBit (zeros 16) 0 7 (by decide) (by decide) (by decide), gf_zeros]
  simp

theorem GHASH_one_block (H Y B : List Nat) (hB : B.length = 16) :
    GHASH B 16 H Y = (gFieldMultiply (xorBlock Y B) H).1 := by
  have h1 : (16 : Nat) / AES128GCM_BLOCK_SIZE = 1 := rfl
  have h2 : ¬ ((16 : Nat) > 16 * 1) := by decide
  have hr : List.range 1 = [0] := rfl
  simp only [GHASH, h1, h2, if_false, hr, List.foldl_cons, List.foldl_nil, ghashStep,
    Nat.mul_zero, readBlock_zero_of_length hB]

/-- C21 (the code on one subkey and two accumulators): with the same data and
the same subkey `03 03 .. 03`, `GHASH` entered with the accumulator
`80 00 .. 00` and entered with the zero block leaves different blocks, for
empty data (the accumulator itself) and for one block of zeros (the subkey
against the zero block). -/
theorem GHASH_keeps_accumulator :
    GHASH [] 0 (List.replicate 16 3) (0x80 :: List.replicate 15 0) =
      0x80 :: List.replicate 15 0 ∧
    GHASH [] 0 (List.replicate 16 3) (zeros 16) = zeros 16 ∧
    GHASH (zeros 16) 16 (List.replicate 16 3) (0x80 :: List.replicate 15 0) =
      List.replicate 16 3 ∧
    GHASH (zeros 16) 16 (List.replicate 16 3) (zeros 16) = zeros 16 ∧
    GHASH [] 0 (List.replicate 16 3) (0x80 :: List.replicate 15 0) ≠
      GHASH [] 0 (List.replicate 16 3) (zeros 16) ∧
    GHASH (zeros 16) 16 (List.replicate 16 3) (0x80 :: List.replicate 15 0) ≠
      GHASH (zeros 16) 16 (List.replicate 16 3) (zeros 16) := by
  have hx1 : xorBlock (0x80 :: List.replicate 15 0) (zeros 16) =
      0x80 :: List.replicate 15 0 := by
    decide
  have hx0 : xorBlock (zeros 16) (zeros 16) = zeros 16 := by decide
  have h3 : GHASH (zeros 16) 16 (List.replicate 16 3) (0x80 :: List.replicate 15 0) =
      List.replicate 16 3 := by
    rw [GHASH_one_block _ _ _ (by decide), hx1, gFieldMultiply_one_left _ (by decide)]
  have h4 : GHASH (zeros 16) 16 (List.replicate 16 3) (zeros 16) = zeros 16 := by
    rw [GHASH_one_block _ _ _ (by decide), hx0]
    apply gf_injective (gFieldMultiply_isBlock _ _ (by decide)) zeros_isBlock
    rw [gf_gFieldMultiply _ _ (by decide), gf_zeros, zero_mul]
  refine ⟨by decide, by decide, h3, h4, by decide, ?_⟩
  rw [h3, h4]
  decide

/-- C21 (amended): the function `GHASH` continues from the accumulator it is entered
with and never resets it.  For every subkey block `H`, data and accumulator
block `Y`, the block it leaves is the fold `Y ← (Y XOR X_i) · H` over the
zero-padded blocks of the data started from `Y`; as field elements it is
`Y · H^n` plus the hash from the zero block, `n` the number of blocks; for a
subkey other than the zero block every bit of `Y` matters; and the zero block
is what `generateTag` enters the first of its three calls with. -/
theorem GHASH_continues_accumulator (H data Y : List Nat) (hH : IsBlock H) (hY : IsBlock Y) :
    GHASH data data.length H Y = refFold H Y (refBlocks (refPad data)) ∧
    gf (GHASH data data.length H Y) =
      gf Y * gf H ^ ((data.length + 15) / 16) + gf (GHASH data data.length H (zeros 16)) ∧
    (H ≠ zeros 16 → ∀ q r : Nat, q < 16 → r < 8 →
      GHASH data data.length H (flipBit Y q r) ≠ GHASH data data.length H Y) ∧
    (∀ (A C : List Nat) (a c : Nat), generateTagS H A a C c =
      GHASH (lengthBuffer a c) 16 H (GHASH C c H (GHASH A a H (zeros 16)))) :=
  ⟨GHASH_eq_refFold data H Y hY.1, gf_GHASH hH data Y hY.1,
    fun hne q r hq hr => GHASH_flipBit_accumulator hH hne data Y hY.1 q r hq hr,
    fun _ _ _ _ => rfl⟩

theorem GHASH_continues_accumulator_witness :
    GHASH [1, 2, 3] [1, 2, 3].length (List.replicate 16 3) (List.range 16) =
      refFold (List.replicate 16 3) (List.range 16) (refBlocks (refPad [1, 2, 3])) ∧
    gf (GHASH [1, 2, 3] [1, 2, 3].length (List.replicate 16 3) (List.range 16)) =
      gf (List.range 16) * gf (List.replicate 16 3) ^ (([1, 2, 3].length + 15) / 16) +
        gf (GHASH [1, 2, 3] [1, 2, 3].length (List.replicate 16 3) (zeros 16)) ∧
    (List.replicate 16 3 ≠ zeros 16 → ∀ q r : Nat, q < 16 → r < 8 →
      GHASH [1, 2, 3] [1, 2, 3].length (List.replicate 16 3) (flipBit (List.range 16) q r) ≠
        GHASH [1, 2, 3] [1, 2, 3].length (List.replicate 16 3) (List.range 16)) ∧
    (∀ (A C : List Nat) (a c : Nat), generateTagS (List.replicate 16 3) A a C c =
      GHASH (lengthBuffer a c) 16 (List.replicate 16 3)
        (GHASH C c (List.replicate 16 3) (GHASH A a (List.replicate 16 3) (zeros 16)))) :=
  GHASH_continues_accumulator (List.replicate 16 3) [1, 2, 3] (List.range 16) (by decide)
    (by decide)

/-! ## Calls in place: what the data path leaves -/

set_option maxRecDepth 100000 in
theorem xorBlockInPlace_eq {d : List Nat} (hd : d.length = 16) :
    xorBlockInPlace d = zeros 16 := by
  obtain ⟨a0, a1, a2, a3, a4, a5, a6, a7, a8, a9, a10, a11, a12, a13, a14, a15, rfl⟩ :=
    length16_cases hd
  simp only [xorBlockInPlace, AES128GCM_BLOCK_SIZE, range16, List.foldl_cons, List.foldl_nil,
    List.set_cons_zero, List.set_cons_succ, List.getD_cons_zero, List.getD_cons_succ]
  simp only [Nat.xor_self]
  rfl

theorem zeros_append (a b : Nat) : zeros a ++ zeros b = zeros (a + b) := by
  unfold zeros
  exact (List.replicate_add a b 0).symm

theorem writeAt_append (Z R data : List Nat) (hd : data.length = 16) :
    writeAt (Z ++ R) Z.length data = Z ++ data ++ R.drop 16 := by
  unfold writeAt
  rw [List.take_left, hd, ← List.drop_drop, List.drop_left]

theorem readBlock_append (Z data R : List Nat) (hd : data.length = 16) :
    readBlock (Z ++ data ++ R) Z.length = data := by
  unfold readBlock
  rw [List.append_assoc, List.drop_left, AES128GCM_BLOCK_SIZE, ← hd, List.take_left]

/-- The block loop in place leaves zeros: each block is replaced by the cipher
output and then XORed with itself. -/
theorem gctr_fold_inPlace {E : List Nat → List Nat → List Nat}
    (hE : ∀ b k, (E b k).length = 16) (pKey ctr buf : List Nat) (n : Nat)
    (hb : 16 * n ≤ buf.length) :
    (List.range n).foldl (gctrBlockStepInPlace E pKey) (ctr, buf) =
      (incr32^[n] ctr, zeros (16 * n) ++ buf.drop (16 * n)) := by
  induction n with
  | zero => simp [zeros]
  | succ n ih =>
    rw [List.range_succ, List.foldl_append, ih (by omega), List.foldl_cons, List.foldl_nil,
      Function.iterate_succ_apply']
    have hz : (zeros (16 * n)).length = 16 * n := by simp [zeros]
    show (incr32 (incr32^[n] ctr), writeAt (writeAt _ (16 * n) _) (16 * n) _) = _
    congr 1
    have h1 : writeAt (zeros (16 * n) ++ buf.drop (16 * n)) (16 * n) (E (incr32^[n] ctr) pKey) =
        zeros (16 * n) ++ E (incr32^[n] ctr) pKey ++ (buf.drop (16 * n)).drop 16 := by
      have := writeAt_append (zeros (16 * n)) (buf.drop (16 * n)) _ (hE (incr32^[n] ctr) pKey)
      rwa [hz] at this
    have h2 : readBlock (zeros (16 * n) ++ E (incr32^[n] ctr) pKey ++
        (buf.drop (16 * n)).drop 16) (16 * n) = E (incr32^[n] ctr) pKey := by
      have := readBlock_append (zeros (16 * n)) _ ((buf.drop (16 * n)).drop 16)
        (hE (incr32^[n] ctr) pKey)
      rwa [hz] at this
    have h3 : writeAt (zeros (16 * n) ++ (E (incr32^[n] ctr) pKey ++
        (buf.drop (16 * n)).drop 16)) (16 * n) (zeros 16) =
        zeros (16 * n) ++ zeros 16 ++
          (E (incr32^[n] ctr) pKey ++ (buf.drop (16 * n)).drop 16).drop 16 := by
      have := writeAt_append (zeros (16 * n)) (E (incr32^[n] ctr) pKey ++
        (buf.drop (16 * n)).drop 16) (zeros 16) (by simp [zeros])
      rwa [hz] at this
    rw [h1, h2, xorBlockInPlace_eq (hE _ _), List.append_assoc, h3, zeros_append,
      List.drop_left' (hE _ _), List.drop_drop, Nat.mul_succ]

theorem GCTRPaddedInPlace_eq {E : List Nat → List Nat → List Nat}
    (hE : ∀ b k, (E b k).length = 16) (pKey ctr buf : List Nat) (n : Nat)
    (hb : buf.length = 16 * n) :
    GCTRPaddedInPlace E pKey ctr buf (16 * n) = zeros (16 * n) := by
  unfold GCTRPaddedInPlace
  by_cases hn : n = 0
  · subst hn
    have h1 : buf = [] := List.length_eq_zero.mp (by simpa using hb)
    subst h1
    rfl
  · have h1 : 16 * n / 16 = n := by omega
    rw [if_neg (by omega)]
    simp only [h1]
    rw [gctr_fold_inPlace hE _ _ _ _ (by omega), List.drop_eq_nil_of_le (by omega),
      List.append_nil]

theorem generateCDATAPaddedInPlace_eq {E : List Nat → List Nat → List Nat}
    (hE : ∀ b k, (E b k).length = 16) (ICB buf key : List Nat) (n : Nat)
    (hb : buf.length = 16 * n) :
    generateCDATAPaddedInPlace E ICB buf (16 * n) key = zeros (16 * n) := by
  unfold generateCDATAPaddedInPlace
  by_cases hn : n = 0
  · subst hn
    have h1 : buf = [] := List.length_eq_zero.mp (by simpa using hb)
    subst h1
    rfl
  · rw [if_neg (by omega), GCTRPaddedInPlace_eq hE _ _ _ _ hb]

theorem generateTag_eq_refTag {E : List Nat → List Nat → List Nat} (hE : IsBlockCipher E)
    (key IV A C tag : List Nat) (hIV : IV.length = 12) (ht : tag.length = 16) :
    generateTag E key (generateAuthKey E key) A A.length C C.length tag (refJ0 IV) =
      refTag E key IV A C := by
  rw [generateTag_eq hE.length _ _ _ _ _ _ _ _ ht (refJ0_length hIV), generateTagS_eq_refS]
  rfl

theorem refTag_length {E : List Nat → List Nat → List Nat} (hE : IsBlockCipher E)
    (key IV A C : List Nat) : (refTag E key IV A C).length = 16 := by
  unfold refTag
  rw [refXor_length] <;> rw [hE.length]
  exact (refS_length _ _ _).symm

/-- What `gcmEncryptPadded` leaves behind on a call in place: zeros for
ciphertext, and the tag over these zeros. -/
theorem gcmEncryptPaddedInPlace_run {E : List Nat → List Nat → List Nat} (hE : IsBlockCipher E)
    (workspace key IV ADATA buf tag : List Nat) (n : Nat)
    (hIV : IV.length = 12) (hb : buf.length = 16 * n)
    (hne : ¬ (buf = [] ∧ ADATA = [])) (ht : tag.length = 16) :
    gcmEncryptPaddedInPlace E workspace key IV buf buf.length ADATA ADATA.length tag =
      { success := true
        CDATA := some (zeros buf.length)
        tag := refTag E key IV ADATA (zeros buf.length)
        workspace := zeros workspace.length } := by
  have h1 : ¬ (buf.length &&& (AES128GCM_BLOCK_SIZE - 1) ≠ 0) := by
    simp only [AES128GCM_BLOCK_SIZE, Nat.reduceSub, and_15]
    omega
  have h2 : ¬ (buf.length = 0 ∧ ADATA.length = 0) := by
    simpa [List.length_eq_zero] using hne
  have hC : generateCDATAPaddedInPlace E (refJ0 IV) buf buf.length key = zeros buf.length := by
    have := generateCDATAPaddedInPlace_eq hE.length (refJ0 IV) buf key n hb
    rwa [← hb] at this
  have hT : generateTag E key (generateAuthKey E key) ADATA ADATA.length (zeros buf.length)
      buf.length tag (refJ0 IV) = refTag E key IV ADATA (zeros buf.length) := by
    have := generateTag_eq_refTag hE key IV ADATA (zeros buf.length) tag hIV ht
    rwa [show (zeros buf.length).length = buf.length by simp [zeros]] at this
  simp only [gcmEncryptPaddedInPlace, if_neg h1, if_neg h2, generateICB_eq_refJ0 hIV, hC, hT]

/-- What `gcmDecrypt` leaves behind on a call in place: zeros for plaintext, and
the flag of the comparison with the tag over these zeros. -/
theorem gcmDecryptInPlace_run {E : List Nat → List Nat → List Nat} (hE : IsBlockCipher E)
    (workspace key IV ADATA buf mtag : List Nat) (n : Nat)
    (hIV : IV.length = 12) (hb : buf.length = 16 * n)
    (hne : ¬ (buf = [] ∧ ADATA = [])) (hm : mtag.length = 16) :
    gcmDecryptInPlace E workspace key IV buf buf.length ADATA ADATA.length mtag =
      { success := decide (mtag = refTag E key IV ADATA (zeros buf.length))
        PDATA := zeros buf.length
        workspace := zeros workspace.length } := by
  have h1 : ¬ (buf.length &&& (AES128GCM_BLOCK_SIZE - 1) ≠ 0) := by
    simp only [AES128GCM_BLOCK_SIZE, Nat.reduceSub, and_15]
    omega
  have h2 : ¬ (buf.length = 0 ∧ ADATA.length = 0) := by
    simpa [List.length_eq_zero] using hne
  have hC : generateCDATAPaddedInPlace E (refJ0 IV) buf buf.length key = zeros buf.length := by
    have := generateCDATAPaddedInPlace_eq hE.length (refJ0 IV) buf key n hb
    rwa [← hb] at this
  have hT : generateTag E key (generateAuthKey E key) ADATA ADATA.length (zeros buf.length)
      buf.length (zeros AES128GCM_TAG_SIZE) (refJ0 IV) =
      refTag E key IV ADATA (zeros buf.length) := by
    have := generateTag_eq_refTag hE key IV ADATA (zeros buf.length) (zeros AES128GCM_TAG_SIZE)
      hIV (by simp [zeros])
    rwa [show (zeros buf.length).length = buf.length by simp [zeros]] at this
  have hdec : decide (0 = checkTag (refTag E key IV ADATA (zeros buf.length)) mtag) =
      decide (mtag = refTag E key IV ADATA (zeros buf.length)) := by
    apply decide_eq_decide.mpr
    rw [eq_comm, checkTag_eq_zero_iff (refTag_length hE _ _ _ _) hm, eq_comm]
  simp only [gcmDecryptInPlace, if_neg h1, if_neg h2, generateICB_eq_refJ0 hIV, hC, hT, hdec]

/-! ## Calls in place: where the claims for buffers apart stop -/

/-- What `gcmEncrypt` leaves behind on a call in place, in terms of the buffer
left by `generateCDATA`. -/
theorem gcmEncryptInPlace_run {E : List Nat → List Nat → List Nat} (hE : IsBlockCipher E)
    (workspace key IV ADATA buf tag : List Nat) (L : Nat)
    (hIV : IV.length = 12) (hL : L < 240) (hne : ¬ (L = 0 ∧ ADATA = []))
    (hC : (generateCDATAInPlace E (refJ0 IV) buf L key).length = 16 * ((L + 15) / 16))
    (ht : tag.length = 16) :
    gcmEncryptInPlace E workspace key IV buf L ADATA ADATA.length tag =
      { success := true
        CDATA := some (generateCDATAInPlace E (refJ0 IV) buf L key)
        tag := refTag E key IV ADATA (generateCDATAInPlace E (refJ0 IV) buf L key)
        workspace := workspace } := by
  have h2 : ¬ (L = 0 ∧ ADATA.length = 0) := by
    simpa [List.length_eq_zero] using hne
  have h3 : ¬ (L ≥ (256 - AES128GCM_BLOCK_SIZE) % 256) := by
    simp only [AES128GCM_BLOCK_SIZE]
    omega
  have hround : ((L + AES128GCM_BLOCK_SIZE - 1) &&&
      (0xffff ^^^ (AES128GCM_BLOCK_SIZE - 1))) % 256 = 16 * ((L + 15) / 16) := by
    rw [roundUp16_uint8 L (by omega)]
    omega
  have hT : generateTag E key (generateAuthKey E key) ADATA ADATA.length
      (generateCDATAInPlace E (refJ0 IV) buf L key) (16 * ((L + 15) / 16)) tag (refJ0 IV) =
      refTag E key IV ADATA (generateCDATAInPlace E (refJ0 IV) buf L key) := by
    have := generateTag_eq_refTag hE key IV ADATA (generateCDATAInPlace E (refJ0 IV) buf L key)
      tag hIV ht
    rwa [hC] at this
  simp only [gcmEncryptInPlace, if_neg h2, if_neg h3, hround, generateICB_eq_refJ0 hIV, hT]

/-- The function `gcmDecrypt`, buffers apart, on a tag that is the reference tag of its
ciphertext. -/
theorem gcmDecrypt_of_refTag {E : List Nat → List Nat → List Nat} (hE : IsBlockCipher E)
    (workspace key IV C A pdata : List Nat) (n : Nat)
    (hIV : IV.length = 12) (hC : C.length = 16 * n)
    (hne : ¬ (C = [] ∧ A = [])) (hp : pdata.length = C.length) :
    gcmDecrypt E workspace key IV C C.length A A.length (refTag E key IV A C) pdata =
      { success := true
        PDATA := refCipher E key (refJ0 IV) C
        workspace := zeros workspace.length } := by
  rw [gcmDecrypt_run hE workspace key IV C A _ pdata n hIV hC hne hp (refTag_length hE _ _ _ _)]
  simp only [decide_True]

/-- C1 (the code on a call in place): `gcmEncryptPadded` called with
`CDATA == PDATAPadded`, a 16-byte buffer holding the plaintext `05 .. 05`,
3 bytes of AAD, returns true and leaves 16 zero bytes as ciphertext and the tag
over these zeros; the ciphertext of the reference composition,
`P_0 XOR E_k(incr32(J0))`, is not zero. -/
theorem gcmEncryptPadded_in_place :
    gcmEncryptPaddedInPlace toyCipher [7, 7] (List.range 16) (List.range 12)
        (List.replicate 16 5) 16 [1, 2, 3] 3 (List.replicate 16 0) =
      { success := true
        CDATA := some (zeros 16)
        tag := refTag toyCipher (List.range 16) (List.range 12) [1, 2, 3] (zeros 16)
        workspace := zeros 2 } ∧
    (refEncrypt toyCipher (List.range 16) (List.range 12) [1, 2, 3] (List.replicate 16 5)).1 ≠
      zeros 16 :=
  ⟨gcmEncryptPaddedInPlace_run toyCipher_isBlockCipher [7, 7] (List.range 16) (List.range 12)
      [1, 2, 3] (List.replicate 16 5) (List.replicate 16 0) 1 (by decide) (by decide)
      (by decide) (by decide),
    by decide⟩

/-- C2 (the code on an encrypt in place): `gcmEncryptPadded` called with
`CDATA == PDATAPadded` on the plaintext `05 .. 05` returns true and leaves 16
zero bytes and a tag; `gcmDecrypt` on these zeros and this tag returns true,
and its plaintext output is not the plaintext that was encrypted. -/
theorem gcmDecrypt_after_in_place :
    (gcmEncryptPaddedInPlace toyCipher [] (List.range 16) (List.range 12)
      (List.replicate 16 5) 16 [1, 2, 3] 3 (List.replicate 16 0)).success = true ∧
    (gcmEncryptPaddedInPlace toyCipher [] (List.range 16) (List.range 12)
      (List.replicate 16 5) 16 [1, 2, 3] 3 (List.replicate 16 0)).CDATA = some (zeros 16) ∧
    (gcmDecrypt toyCipher [] (List.range 16) (List.range 12) (zeros 16) 16 [1, 2, 3] 3
      (gcmEncryptPaddedInPlace toyCipher [] (List.range 16) (List.range 12)
        (List.replicate 16 5) 16 [1, 2, 3] 3 (List.replicate 16 0)).tag
      (List.replicate 16 0)).success = true ∧
    (gcmDecrypt toyCipher [] (List.range 16) (List.range 12) (zeros 16) 16 [1, 2, 3] 3
      (gcmEncryptPaddedInPlace toyCipher [] (List.range 16) (List.range 12)
        (List.replicate 16 5) 16 [1, 2, 3] 3 (List.replicate 16 0)).tag
      (List.replicate 16 0)).PDATA ≠ List.replicate 16 5 := by
  have henc : gcmEncryptPaddedInPlace toyCipher [] (List.range 16) (List.range 12)
      (List.replicate 16 5) 16 [1, 2, 3] 3 (List.replicate 16 0) =
      { success := true
        CDATA := some (zeros 16)
        tag := refTag toyCipher (List.range 16) (List.range 12) [1, 2, 3] (zeros 16)
        workspace := zeros 0 } :=
    gcmEncryptPaddedInPlace_run toyCipher_isBlockCipher [] (List.range 16) (List.range 12)
      [1, 2, 3] (List.replicate 16 5) (List.replicate 16 0) 1 (by decide) (by decide)
      (by decide) (by decide)
  have hdec : gcmDecrypt toyCipher [] (List.range 16) (List.range 12) (zeros 16) 16 [1, 2, 3] 3
      (refTag toyCipher (List.range 16) (List.range 12) [1, 2, 3] (zeros 16))
      (List.replicate 16 0) =
      { success := true
        PDATA := refCipher toyCipher (List.range 16) (refJ0 (List.range 12)) (zeros 16)
        workspace := zeros 0 } :=
    gcmDecrypt_of_refTag toyCipher_isBlockCipher [] (List.range 16) (List.range 12) (zeros 16)
      [1, 2, 3] (List.replicate 16 0) 1 (by decide) (by decide) (by decide) (by decide)
  rw [henc]
  simp only
  rw [hdec]
  exact ⟨trivial, trivial, rfl, by decide⟩

/-- C3 (the code on an encrypt in place): `gcmEncrypt` called with
`CDATA == PDATA` on a 32-byte buffer of `05 .. 05`, the first 17 bytes being
the plaintext, returns true and leaves 16 zero bytes, the byte `04` and the 15
bytes behind the plaintext as they were; `gcmDecrypt` on this buffer and the
tag produced returns true, and the first 17 bytes of its plaintext output are
not the plaintext. -/
theorem gcmDecrypt_after_unpadded_in_place :
    (gcmEncryptInPlace toyCipher [] (List.range 16) (List.range 12) (List.replicate 32 5) 17
      [1, 2, 3] 3 (List.replicate 16 0)).success = true ∧
    (gcmEncryptInPlace toyCipher [] (List.range 16) (List.range 12) (List.replicate 32 5) 17
      [1, 2, 3] 3 (List.replicate 16 0)).CDATA =
      some (zeros 16 ++ 4 :: List.replicate 15 5) ∧
    (gcmDecrypt toyCipher [] (List.range 16) (List.range 12)
      (zeros 16 ++ 4 :: List.replicate 15 5) 32 [1, 2, 3] 3
      (gcmEncryptInPlace toyCipher [] (List.range 16) (List.range 12) (List.replicate 32 5) 17
        [1, 2, 3] 3 (List.replicate 16 0)).tag
      (List.replicate 32 0)).success = true ∧
    ((gcmDecrypt toyCipher [] (List.range 16) (List.range 12)
      (zeros 16 ++ 4 :: List.replicate 15 5) 32 [1, 2, 3] 3
      (gcmEncryptInPlace toyCipher [] (List.range 16) (List.range 12) (List.replicate 32 5) 17
        [1, 2, 3] 3 (List.replicate 16 0)).tag
      (List.replicate 32 0)).PDATA).take 17 ≠ (List.replicate 32 5).take 17 := by
  have hC : generateCDATAInPlace toyCipher (refJ0 (List.range 12)) (List.replicate 32 5) 17
      (List.range 16) = zeros 16 ++ 4 :: List.replicate 15 5 := by
    decide
  have henc : gcmEncryptInPlace toyCipher [] (List.range 16) (List.range 12)
      (List.replicate 32 5) 17 [1, 2, 3] 3 (List.replicate 16 0) =
      { success := true
        CDATA := some (zeros 16 ++ 4 :: List.replicate 15 5)
        tag := refTag toyCipher (List.range 16) (List.range 12) [1, 2, 3]
          (zeros 16 ++ 4 :: List.replicate 15 5)
        workspace := [] } := by
    have h := gcmEncryptInPlace_run toyCipher_isBlockCipher [] (List.range 16) (List.range 12)
      [1, 2, 3] (List.replicate 32 5) (List.replicate 16 0) 17 (by decide) (by decide)
      (by decide) (by rw [hC]; decide) (by decide)
    rw [hC] at h
    exact h
  have hdec : gcmDecrypt toyCipher [] (List.range 16) (List.range 12)
      (zeros 16 ++ 4 :: List.replicate 15 5) 32 [1, 2, 3] 3
      (refTag toyCipher (List.range 16) (List.range 12) [1, 2, 3]
        (zeros 16 ++ 4 :: List.replicate 15 5))
      (List.replicate 32 0) =
      { success := true
        PDATA := refCipher toyCipher (List.range 16) (refJ0 (List.range 12))
          (zeros 16 ++ 4 :: List.replicate 15 5)
        workspace := zeros 0 } :=
    gcmDecrypt_of_refTag toyCipher_isBlockCipher [] (List.range 16) (List.range 12)
      (zeros 16 ++ 4 :: List.replicate 15 5) [1, 2, 3] (List.replicate 32 0) 2 (by decide)
      (by decide) (by decide) (by decide)
  rw [henc]
  simp only
  rw [hdec]
  exact ⟨trivial, trivial, rfl, by decide⟩

/-- C4 (the code on a call in place): `gcmDecrypt` called with `PDATA == CDATA`
on the 16-byte ciphertext `01 00 .. 00`, both length checks passed, returns
true for the tag that `generateTag` computes from 16 zero bytes, which is not
the tag `generateTag` computes from the ciphertext passed in. -/
theorem gcmDecrypt_in_place_flag :
    (gcmDecryptInPlace toyCipher [] (List.range 16) (List.range 12) (1 :: List.replicate 15 0)
      16 [1, 2, 3] 3
      (generateTag toyCipher (List.range 16) (generateAuthKey toyCipher (List.range 16))
        [1, 2, 3] 3 (zeros 16) 16 (zeros AES128GCM_TAG_SIZE)
        (generateICB (List.range 12)))).success = true ∧
    generateTag toyCipher (List.range 16) (generateAuthKey toyCipher (List.range 16))
        [1, 2, 3] 3 (zeros 16) 16 (zeros AES128GCM_TAG_SIZE) (generateICB (List.range 12)) ≠
      generateTag toyCipher (List.range 16) (generateAuthKey toyCipher (List.range 16))
        [1, 2, 3] 3 (1 :: List.replicate 15 0) 16 (zeros AES128GCM_TAG_SIZE)
        (generateICB (List.range 12)) := by
  have hE := toyCipher_isBlockCipher
  have hI : generateICB (List.range 12) = refJ0 (List.range 12) :=
    generateICB_eq_refJ0 (by decide)
  have hT0 : generateTag toyCipher (List.range 16) (generateAuthKey toyCipher (List.range 16))
      [1, 2, 3] 3 (zeros 16) 16 (zeros AES128GCM_TAG_SIZE) (generateICB (List.range 12)) =
      refTag toyCipher (List.range 16) (List.range 12) [1, 2, 3] (zeros 16) := by
    rw [hI]
    exact generateTag_eq_refTag hE (List.range 16) (List.range 12) [1, 2, 3] (zeros 16)
      (zeros AES128GCM_TAG_SIZE) (by decide) (by decide)
  have hT1 : generateTag toyCipher (List.range 16) (generateAuthKey toyCipher (List.range 16))
      [1, 2, 3] 3 (1 :: List.replicate 15 0) 16 (zeros AES128GCM_TAG_SIZE)
      (generateICB (List.range 12)) =
      refTag toyCipher (List.range 16) (List.range 12) [1, 2, 3]
        (flipBit (zeros 16) 0 0) := by
    rw [hI]
    exact generateTag_eq_refTag hE (List.range 16) (List.range 12) [1, 2, 3]
      (flipBit (zeros 16) 0 0) (zeros AES128GCM_TAG_SIZE) (by decide) (by decide)
  have hrun := gcmDecryptInPlace_run hE [] (List.range 16) (List.range 12) [1, 2, 3]
    (1 :: List.replicate 15 0)
    (refTag toyCipher (List.range 16) (List.range 12) [1, 2, 3] (zeros 16)) 1 (by decide)
    (by decide) (by decide) (refTag_length hE _ _ _ _)
  rw [show (1 :: List.replicate 15 0 : List Nat).length = 16 by decide,
    show ([1, 2, 3] : List Nat).length = 3 by decide] at hrun
  rw [hT0, hT1]
  refine ⟨?_, ?_⟩
  · simp only [hrun, decide_True]
  · exact (tag_ne_of_refS_ne hE (List.range 16) (refJ0 (List.range 12)) _ [1, 2, 3] (zeros 16)
      [1, 2, 3] (flipBit (zeros 16) 0 0)
      (refS_ne_of_gf_shift (hE _ _) (by decide)
        (gf_refS_flipBit_CDATA (hE _ _) [1, 2, 3] (zeros 16) 0 0 (by decide) (by decide)))).symm

/-- C7 (the code on a call in place): for a key whose subkey is not the zero
block, `gcmDecrypt` called with `PDATA == CDATA` accepts the ciphertext
`03 .. 03` with the tag over 16 zero bytes, and accepts it again, same AAD and
tag, with bit 0 of byte 0 of the ciphertext flipped. -/
theorem gcmDecrypt_in_place_accepts_flip :
    generateAuthKey toyCipher (List.range 16) ≠ zeros 16 ∧
    (gcmDecryptInPlace toyCipher [] (List.range 16) (List.range 12) (List.replicate 16 3) 16
      [1, 2, 3] 3
      (refTag toyCipher (List.range 16) (List.range 12) [1, 2, 3] (zeros 16))).success = true ∧
    (gcmDecryptInPlace toyCipher [] (List.range 16) (List.range 12)
      (flipBit (List.replicate 16 3) 0 0) 16 [1, 2, 3] 3
      (refTag toyCipher (List.range 16) (List.range 12) [1, 2, 3] (zeros 16))).success =
      true := by
  have hE := toyCipher_isBlockCipher
  have h1 := gcmDecryptInPlace_run hE [] (List.range 16) (List.range 12) [1, 2, 3]
    (List.replicate 16 3)
    (refTag toyCipher (List.range 16) (List.range 12) [1, 2, 3] (zeros 16)) 1 (by decide)
    (by decide) (by decide) (refTag_length hE _ _ _ _)
  have h2 := gcmDecryptInPlace_run hE [] (List.range 16) (List.range 12) [1, 2, 3]
    (flipBit (List.replicate 16 3) 0 0)
    (refTag toyCipher (List.range 16) (List.range 12) [1, 2, 3] (zeros 16)) 1 (by decide)
    (by decide) (by decide) (refTag_length hE _ _ _ _)
  rw [show (List.replicate 16 3 : List Nat).length = 16 by decide,
    show ([1, 2, 3] : List Nat).length = 3 by decide] at h1
  rw [show (flipBit (List.replicate 16 3) 0 0).length = 16 by decide,
    show ([1, 2, 3] : List Nat).length = 3 by decide] at h2
  refine ⟨by decide, ?_, ?_⟩
  · simp only [h1, decide_True]
  · simp only [h2, decide_True]

/-- C8 (the code on a call in place): `gcmDecrypt` called with `PDATA == CDATA`
on the ciphertext `03 .. 03` passes both checks and leaves 16 zero bytes in the
plaintext buffer, not `C_0 XOR E_k(incr32(J0))`. -/
theorem gcmDecrypt_in_place_plaintext :
    (gcmDecryptInPlace toyCipher [] (List.range 16) (List.range 12) (List.replicate 16 3) 16
      [1, 2, 3] 3 (List.replicate 16 0)).PDATA = zeros 16 ∧
    refXor (List.replicate 16 3)
      (toyCipher (incr32 (refJ0 (List.range 12))) (List.range 16)) ≠ zeros 16 := by
  have h1 := gcmDecryptInPlace_run toyCipher_isBlockCipher [] (List.range 16) (List.range 12)
    [1, 2, 3] (List.replicate 16 3) (List.replicate 16 0) 1 (by decide) (by decide)
    (by decide) (by decide)
  rw [show (List.replicate 16 3 : List Nat).length = 16 by decide,
    show ([1, 2, 3] : List Nat).length = 3 by decide] at h1
  refine ⟨?_, by decide⟩
  rw [h1]

/-- C22 (the code on a call in place): `GCTR` called with `pInput == pOutput` on
a 32-byte buffer of `05 .. 05` and length 17 leaves 16 zero bytes, the byte
`04` and the rest as it was; byte 0 is not `input[0] XOR E_k(ctr)[0]`. -/
theorem GCTR_in_place :
    GCTRInPlace toyCipher (List.range 16) (List.replicate 16 0) (List.replicate 32 5) 17 =
      zeros 16 ++ 4 :: List.replicate 15 5 ∧
    (GCTRInPlace toyCipher (List.range 16) (List.replicate 16 0) (List.replicate 32 5)
      17).getD 0 0 ≠
      (List.replicate 32 5).getD 0 0 ^^^
        (toyCipher (incr32^[0 / 16] (List.replicate 16 0)) (List.range 16)).getD (0 % 16) 0 := by
  decide

end OTAESGCM
